import Mathlib

/-!
Verification model of the versioned-key resolver (`DBIter`) from
`src/yb/rocksdb/db/db_iter.cc`.

The model is a shallow embedding: the physical entry stream is a list of raw
entries sorted by internal-key order; the underlying `InternalIterator` is a
cursor (an optional index) into that list; `DBIter`'s member state is a record
and each C++ member function becomes a fuel-indexed Lean function returning
`Option State` (`none` = fuel exhausted, never reached at the fuel bounds used
in the theorems).  C++ `assert` statements whose conditions can be false at
run time are modelled by an `assertFailed` flag together with the release-mode
(`NDEBUG`) continuation of the code.  Calls to the merge operator are recorded
in a ghost trace field `mergeCalls` so that claims about operator invocations
can be stated.
-/

namespace DbIterModel

/-- Byte strings (user keys and values). -/
abbrev Bytes := List Nat

/-- Lexicographic byte-string comparison (the default user comparator). -/
def bytesCmp : Bytes → Bytes → Ordering
  | [], [] => .eq
  | [], _ :: _ => .lt
  | _ :: _, [] => .gt
  | a :: as, b :: bs => (compare a b).then (bytesCmp as bs)

/-- Value types of physical entries, with the numeric codes of
`rocksdb::ValueType` (`kTypeDeletion = 0`, `kTypeValue = 1`, `kTypeMerge = 2`,
`kTypeSingleDeletion = 7`). -/
inductive ValueType where
  | typeDeletion
  | typeValue
  | typeMerge
  | typeSingleDeletion
deriving DecidableEq, Repr, Inhabited

def ValueType.code : ValueType → Nat
  | .typeDeletion => 0
  | .typeValue => 1
  | .typeMerge => 2
  | .typeSingleDeletion => 7

/-- `kValueTypeForSeek`: the highest value type, used in seek targets. -/
def kValueTypeForSeek : ValueType := .typeSingleDeletion

/-- `kMaxSequenceNumber = (1 << 56) - 1`. -/
def kMaxSequenceNumber : Nat := 2 ^ 56 - 1

/-- A parsed internal key: user key, sequence number, value type. -/
structure InternalKey where
  userKey : Bytes
  seq : Nat
  tag : ValueType
deriving DecidableEq, Repr, Inhabited

/-- Internal-key order: user key ascending, then sequence descending, then
value-type code descending (the trailer `(seq << 8) | type` compared
descending). -/
def ikeyCmp (a b : InternalKey) : Ordering :=
  (bytesCmp a.userKey b.userKey).then
    ((compare b.seq a.seq).then (compare b.tag.code a.tag.code))

/-- A raw physical entry of the source stream.  `parseable = false` models an
entry whose key bytes fail `ParseInternalKey` (a corrupt entry); its `ikey`
field records the position the raw bytes occupy in the sort order and what
`ExtractUserKey` (which does not validate) would return. -/
structure RawEntry where
  ikey : InternalKey
  value : Bytes
  parseable : Bool
deriving DecidableEq, Repr, Inhabited

def entryAt (es : List RawEntry) (i : Nat) : RawEntry := es.getD i default

/-- Strict sortedness of the source stream by internal-key order
(`user_key` ascending, version descending). -/
def SortedSource (es : List RawEntry) : Prop :=
  ∀ i < es.length, ∀ j < es.length, i < j →
    ikeyCmp (entryAt es i).ikey (entryAt es j).ikey = .lt

instance (es : List RawEntry) : Decidable (SortedSource es) := by
  unfold SortedSource entryAt; infer_instance

/-- Every entry of the stream parses. -/
def AllParseable (es : List RawEntry) : Prop :=
  ∀ i < es.length, (entryAt es i).parseable = true

instance (es : List RawEntry) : Decidable (AllParseable es) := by
  unfold AllParseable entryAt; infer_instance

/-- Every version number fits the 56-bit sequence field, as the key format
guarantees (so the `kMaxSequenceNumber` reseek target sorts at or before
every entry of its user key). -/
def SeqBounded (es : List RawEntry) : Prop :=
  ∀ i < es.length, (entryAt es i).ikey.seq ≤ 2 ^ 56 - 1

instance (es : List RawEntry) : Decidable (SeqBounded es) := by
  unfold SeqBounded entryAt; infer_instance

/-! ## The underlying internal iterator

A cursor over the sorted stream: `some i` with `i < es.length` when valid,
`none` when invalid.  `DBIter` never steps an invalid cursor except through
re-positioning calls. -/

def iterSeekToFirst (es : List RawEntry) : Option Nat :=
  if es.isEmpty then none else some 0

def iterSeekToLast (es : List RawEntry) : Option Nat :=
  if es.isEmpty then none else some (es.length - 1)

def iterNext (es : List RawEntry) : Option Nat → Option Nat
  | some i => if i + 1 < es.length then some (i + 1) else none
  | none => none

def iterPrev (_es : List RawEntry) : Option Nat → Option Nat
  | some i => if i = 0 then none else some (i - 1)
  | none => none

/-- Position at the first entry whose internal key is `≥ target`. -/
def iterSeek (es : List RawEntry) (target : InternalKey) : Option Nat :=
  es.findIdx? (fun e => ikeyCmp e.ikey target ≠ .lt)

/-! ## DBIter state and configuration -/

inductive Direction where
  | forward
  | reverse
deriving DecidableEq, Repr, Inhabited

/-- `DBIter::status_` values reachable in this code: OK, `Corruption`
(from `ParseKey`) and `InvalidArgument` (merge operator missing in
`MergeValuesNewToOld`). -/
inductive Status where
  | ok
  | corruption
  | invalidArgument
deriving DecidableEq, Repr, Inhabited

/-- Ghost record of one `MergeOperator::FullMerge` invocation:
key, existing (base) value or null, and the operand list in the order the
deque is passed (front first). -/
structure MergeCall where
  key : Bytes
  base : Option Bytes
  operands : List Bytes
deriving DecidableEq, Repr

/-- The mutable member state of `DBIter`.  `maxSkip` is `max_skip_`
(`max_sequential_skip_in_iterations`), which is genuinely mutable: it is set
to `UINT64_MAX` by `SeekToFirst`/`SeekToLast` when a prefix extractor is
configured.  `mergeCalls` and `assertFailed` are ghost instrumentation (the
trace of merge-operator calls, and whether a C++ `assert` condition was
violated; execution continues with the release-mode behaviour). -/
structure State where
  pos : Option Nat
  valid : Bool
  direction : Direction
  savedKey : Bytes
  savedValue : Bytes
  currentIsMerged : Bool
  status : Status
  maxSkip : Nat
  prefixStart : Bytes
  mergeCalls : List MergeCall
  assertFailed : Bool
deriving DecidableEq, Repr

/-- The construction-time configuration of a `DBIter`. -/
structure Config where
  entries : List RawEntry
  sequence : Nat
  mergeOperator : Option (Bytes → Option Bytes → List Bytes → Bytes)
  upperBound : Option Bytes
  prefixExtractor : Option (Bytes → Bytes)
  prefixSameAsStart : Bool

/-- Initial state: invalid, forward, OK status. -/
def initState (maxSkip : Nat) : State :=
  { pos := none, valid := false, direction := .forward, savedKey := [],
    savedValue := [], currentIsMerged := false, status := .ok,
    maxSkip := maxSkip, prefixStart := [], mergeCalls := [],
    assertFailed := false }

/-! ## Helpers shared by the member functions -/

/-- Record a `FullMerge` call and store its result in `saved_value_`.
When no operator is configured the C++ call would dereference null
(guarded only by an `assert` in the backward path); modelled as setting
`assertFailed` and skipping the call. -/
def applyFullMerge (cfg : Config) (st : State) (key : Bytes)
    (base : Option Bytes) (operands : List Bytes) : State :=
  match cfg.mergeOperator with
  | some f =>
      { st with savedValue := f key base operands,
                mergeCalls := st.mergeCalls ++ [⟨key, base, operands⟩] }
  | none => { st with assertFailed := true }

/-- `iterate_upper_bound_` test from `FindNextUserEntryInternal`:
`Compare(ikey.user_key, *iterate_upper_bound_) >= 0`. -/
def boundExceeded (cfg : Config) (k : Bytes) : Bool :=
  match cfg.upperBound with
  | some b => bytesCmp k b ≠ .lt
  | none => false

/-- `FindParseableKey(&ikey, kForward)` helper: first parseable entry at
index `≥ i`; the boolean reports whether any unparseable entry was skipped
(each skip sets `status_ = Corruption`). -/
def fpFwd (es : List RawEntry) : Nat → Nat → Bool → Option Nat × Bool
  | 0, _, corrupt => (none, corrupt)
  | fuel + 1, i, corrupt =>
    if i < es.length then
      if (entryAt es i).parseable then (some i, corrupt)
      else fpFwd es fuel (i + 1) true
    else (none, corrupt)

/-- `FindParseableKey(&ikey, kReverse)` helper: first parseable entry at
index `≤ i`, stepping `Prev` past unparseable ones. -/
def fpRev (es : List RawEntry) : Nat → Bool → Option Nat × Bool
  | 0, corrupt =>
      if (entryAt es 0).parseable then (some 0, corrupt) else (none, true)
  | i + 1, corrupt =>
      if (entryAt es (i + 1)).parseable then (some (i + 1), corrupt)
      else fpRev es i true

/-- `DBIter::FindParseableKey`: skip unparseable entries in the given
direction, updating `status_` for each one skipped. -/
def findParseable (cfg : Config) (dir : Direction) (st : State) : State :=
  match st.pos with
  | none => st
  | some i =>
    let (p, c) :=
      match dir with
      | .forward => fpFwd cfg.entries (cfg.entries.length + 1) i false
      | .reverse => fpRev cfg.entries i false
    { st with pos := p, status := if c then .corruption else st.status }

/-- The parsed key at the current position (callers only use this when the
position is valid and parseable). -/
def curIkey (cfg : Config) (st : State) : InternalKey :=
  match st.pos with
  | some i => (entryAt cfg.entries i).ikey
  | none => default

/-- The value slice at the current position. -/
def curValue (cfg : Config) (st : State) : Bytes :=
  match st.pos with
  | some i => (entryAt cfg.entries i).value
  | none => default

def uint64Max : Nat := 2 ^ 64 - 1

/-! ## `DBIter::MergeValuesNewToOld` -/

/-- The `for (iter_->Next(); iter_->Valid(); iter_->Next())` loop of
`MergeValuesNewToOld`: scan same-key entries newest to oldest, pushing merge
operands to the front of the deque, stopping at a key boundary (final merge
with null base, cursor left in place), a deletion (final merge with null base
after stepping past it) or a put (merge with the put value as base). -/
def mergeLoop (cfg : Config) : Nat → State → List Bytes → Option State
  | 0, _, _ => none
  | fuel + 1, st, operands =>
    match st.pos with
    | none => some (applyFullMerge cfg st st.savedKey none operands)
    | some i =>
      let e := entryAt cfg.entries i
      if e.parseable = false then
        mergeLoop cfg fuel
          { st with status := .corruption, pos := iterNext cfg.entries st.pos }
          operands
      else if bytesCmp e.ikey.userKey st.savedKey ≠ .eq then
        some (applyFullMerge cfg st st.savedKey none operands)
      else if e.ikey.tag = .typeDeletion ∨ e.ikey.tag = .typeSingleDeletion then
        some (applyFullMerge cfg { st with pos := iterNext cfg.entries st.pos }
          st.savedKey none operands)
      else if e.ikey.tag = .typeValue then
        some { applyFullMerge cfg st e.ikey.userKey (some e.value) operands with
               pos := iterNext cfg.entries st.pos }
      else
        mergeLoop cfg fuel { st with pos := iterNext cfg.entries st.pos }
          (e.value :: operands)

/-- `DBIter::MergeValuesNewToOld`.  PRE: the cursor points at the first
(kTypeMerge) entry and `saved_key_` holds its user key. -/
def mergeValuesNewToOld (cfg : Config) (fuel : Nat) (st : State) : Option State :=
  if cfg.mergeOperator.isNone then
    some { st with status := .invalidArgument, valid := false }
  else
    match st.pos with
    | none => some st
    | some i =>
      mergeLoop cfg fuel { st with pos := iterNext cfg.entries st.pos }
        [(entryAt cfg.entries i).value]

/-! ## `DBIter::FindNextUserEntryInternal` -/

/-- The do-while loop of `FindNextUserEntryInternal`.  `skipping` and
`numSkipped` are the local mutable variables; the bottom of each iteration
either reseeks to `(saved_key_, 0, kTypeDeletion)` (when `skipping` and more
than `max_skip_` entries were skipped) or steps the cursor forward. -/
def findNextUserEntryLoop (cfg : Config) :
    Nat → State → Bool → Nat → Option State
  | 0, _, _, _ => none
  | fuel + 1, st, skipping, numSkipped =>
    match st.pos with
    | none => some { st with valid := false }
    | some i =>
      let e := entryAt cfg.entries i
      let cont : State → Bool → Nat → Option State := fun st' skip' num' =>
        if skip' ∧ num' > st'.maxSkip then
          findNextUserEntryLoop cfg fuel
            { st' with
              pos := iterSeek cfg.entries ⟨st'.savedKey, 0, .typeDeletion⟩ }
            skip' 0
        else
          findNextUserEntryLoop cfg fuel
            { st' with pos := iterNext cfg.entries st'.pos } skip' num'
      if e.parseable then
        if boundExceeded cfg e.ikey.userKey then some { st with valid := false }
        else if e.ikey.seq ≤ cfg.sequence then
          if skipping ∧ bytesCmp e.ikey.userKey st.savedKey ≠ .gt then
            cont st skipping (numSkipped + 1)
          else
            match e.ikey.tag with
            | .typeDeletion | .typeSingleDeletion =>
                cont { st with savedKey := e.ikey.userKey } true 0
            | .typeValue =>
                some { st with valid := true, savedKey := e.ikey.userKey }
            | .typeMerge =>
                mergeValuesNewToOld cfg fuel
                  { st with savedKey := e.ikey.userKey,
                            currentIsMerged := true, valid := true }
        else cont st skipping numSkipped
      else cont { st with status := .corruption } skipping numSkipped

/-- `DBIter::FindNextUserEntry` (hence `FindNextUserEntryInternal`):
clears `current_entry_is_merged_` and runs the scan loop.
PRE: the cursor is valid and the direction is forward. -/
def findNextUserEntry (cfg : Config) (fuel : Nat) (st : State)
    (skipping : Bool) : Option State :=
  findNextUserEntryLoop cfg fuel { st with currentIsMerged := false } skipping 0

/-! ## `DBIter::Next` and its helper `FindNextUserKey` -/

/-- The prefix early-termination check at the end of `Next`/`Prev`. -/
def prefixCheck (cfg : Config) (st : State) : State :=
  match cfg.prefixExtractor with
  | some pf =>
      if st.valid ∧ cfg.prefixSameAsStart ∧ pf st.savedKey ≠ st.prefixStart then
        { st with valid := false }
      else st
  | none => st

/-- Loop of `DBIter::FindNextUserKey`: step forward (skipping unparseable
entries) until the parsed user key equals `saved_key_`. -/
def findNextUserKeyLoop (cfg : Config) : Nat → State → Option State
  | 0, _ => none
  | fuel + 1, st =>
    match st.pos with
    | none => some st
    | some i =>
      if bytesCmp (entryAt cfg.entries i).ikey.userKey st.savedKey = .eq then
        some st
      else
        findNextUserKeyLoop cfg fuel
          (findParseable cfg .forward
            { st with pos := iterNext cfg.entries st.pos })

/-- `DBIter::FindNextUserKey`. -/
def findNextUserKey (cfg : Config) (fuel : Nat) (st : State) : Option State :=
  match st.pos with
  | none => some st
  | some _ => findNextUserKeyLoop cfg fuel (findParseable cfg .forward st)

/-- The common tail of `DBIter::Next` after the direction handling: bail out
invalid if the cursor is exhausted, otherwise find the next user entry and
apply the prefix check. -/
def nextTail (cfg : Config) (fuel : Nat) (st1 : State) : Option State :=
  match st1.pos with
  | none => some { st1 with valid := false }
  | some _ =>
    match findNextUserEntry cfg fuel st1 true with
    | none => none
    | some st2 => some (prefixCheck cfg st2)

/-- `DBIter::Next`.  The violated-precondition case (`assert(valid_)`) is
modelled by setting `assertFailed` and leaving the state unchanged. -/
def nextOp (cfg : Config) (fuel : Nat) (st : State) : Option State :=
  if st.valid = false then some { st with assertFailed := true }
  else if st.direction = .reverse then
    match findNextUserKey cfg fuel st with
    | none => none
    | some s =>
      let s := { s with direction := Direction.forward }
      nextTail cfg fuel
        (if s.pos = none then { s with pos := iterSeekToFirst cfg.entries }
         else s)
  else
    nextTail cfg fuel
      (if st.pos ≠ none ∧ st.currentIsMerged = false then
        { st with pos := iterNext cfg.entries st.pos }
       else st)

/-! ## Backward resolution -/

/-- The operand-collection loop of `FindValueForCurrentKeyUsingSeek`:
scan forward over same-key `kTypeMerge` entries, pushing operands to the
front of the deque. -/
def fvckSeekMergeLoop (cfg : Config) :
    Nat → State → List Bytes → Option (State × List Bytes)
  | 0, _, _ => none
  | fuel + 1, st, operands =>
    match st.pos with
    | none => some (st, operands)
    | some i =>
      let e := entryAt cfg.entries i
      if bytesCmp e.ikey.userKey st.savedKey = .eq ∧ e.ikey.tag = .typeMerge then
        fvckSeekMergeLoop cfg fuel
          (findParseable cfg .forward
            { st with pos := iterNext cfg.entries st.pos })
          (e.value :: operands)
      else some (st, operands)

/-- The cursor is invalid or rests at a user key different from
`saved_key_` (the `!iter_->Valid() || !Equal(...)` test). -/
def atDifferentKey (cfg : Config) (st : State) : Bool :=
  match st.pos with
  | none => true
  | some i => bytesCmp (entryAt cfg.entries i).ikey.userKey st.savedKey ≠ .eq

/-- The cursor rests at a deletion entry. -/
def atDeletion (cfg : Config) (st : State) : Bool :=
  match st.pos with
  | none => false
  | some i => (entryAt cfg.entries i).ikey.tag = .typeDeletion ∨
      (entryAt cfg.entries i).ikey.tag = .typeSingleDeletion

/-- The state of `FindValueForCurrentKeyUsingSeek` after the targeted seek
to `(saved_key_, sequence_, kValueTypeForSeek)` followed by
`FindParseableKey(kForward)`. -/
def fvckSeekStart (cfg : Config) (st : State) : State :=
  findParseable cfg .forward
    { st with
      pos := iterSeek cfg.entries ⟨st.savedKey, cfg.sequence, kValueTypeForSeek⟩ }

/-- The tail of `FindValueForCurrentKeyUsingSeek` after the merge-operand
collection loop: a key boundary or exhausted cursor yields a null-base merge
followed by a reseek to `last_key`; a deletion yields a null-base merge in
place; a put merges with the put value as base. -/
def fvckSeekAfter (cfg : Config) (lastKey : InternalKey) (st : State)
    (operands : List Bytes) : Option (State × Bool) :=
  if atDifferentKey cfg st then
    some ({ applyFullMerge cfg st st.savedKey none operands with
            pos := iterSeek cfg.entries lastKey, valid := true }, true)
  else if atDeletion cfg st then
    some ({ applyFullMerge cfg st st.savedKey none operands with
            valid := true }, true)
  else
    some ({ applyFullMerge cfg st st.savedKey (some (curValue cfg st))
              operands with valid := true }, true)

/-- `DBIter::FindValueForCurrentKeyUsingSeek`.  When the targeted seek finds
no parseable key the C++ local `ikey` stays uninitialized (the code comments
"assume there is at least one parseable key"); modelled by the default key
whose tag is `kTypeDeletion`. -/
def findValueForCurrentKeyUsingSeek (cfg : Config) (fuel : Nat) (st0 : State) :
    Option (State × Bool) :=
  if (curIkey cfg (fvckSeekStart cfg st0)).tag = .typeValue then
    some ({ fvckSeekStart cfg st0 with
            savedValue := curValue cfg (fvckSeekStart cfg st0),
            valid := true }, true)
  else if (curIkey cfg (fvckSeekStart cfg st0)).tag = .typeDeletion ∨
      (curIkey cfg (fvckSeekStart cfg st0)).tag = .typeSingleDeletion then
    some ({ fvckSeekStart cfg st0 with valid := false }, false)
  else
    match fvckSeekMergeLoop cfg fuel (fvckSeekStart cfg st0) [] with
    | none => none
    | some (st, operands) =>
      fvckSeekAfter cfg ⟨st0.savedKey, cfg.sequence, kValueTypeForSeek⟩
        st operands

/-- Final switch of `FindValueForCurrentKey` over `last_key_entry_type`
(`lket`) and `last_not_merge_type` (`lnm`).  The merge-with-base branch
contains `assert(last_not_merge_type == kTypeValue)`; release mode uses the
current `saved_value_` as base regardless, which the model mirrors while
flagging the violated assertion. -/
def fvckFinish (cfg : Config) (st : State) (lket lnm : ValueType)
    (operands : List Bytes) : Option (State × Bool) :=
  match lket with
  | .typeDeletion | .typeSingleDeletion => some ({ st with valid := false }, false)
  | .typeMerge =>
      if lnm = .typeDeletion then
        some ({ applyFullMerge cfg st st.savedKey none operands with
                valid := true }, true)
      else
        let st := if lnm = .typeValue then st else { st with assertFailed := true }
        some ({ applyFullMerge cfg st st.savedKey (some st.savedValue) operands with
                valid := true }, true)
  | .typeValue => some ({ st with valid := true }, true)

/-- The backward scan loop of `FindValueForCurrentKey`: walk `Prev` over the
visible entries of `saved_key_` (oldest to newest), tracking the most recent
entry type and accumulating merge operands (cleared by puts and deletions);
switches to the seek-based resolution after `max_skip_` steps.  The C++
`assert(user_merge_operator_ != nullptr)` in the merge case is modelled by the
`assertFailed` flag. -/
def fvckLoop (cfg : Config) :
    Nat → State → ValueType → ValueType → List Bytes → Nat → Option (State × Bool)
  | 0, _, _, _, _, _ => none
  | fuel + 1, st, lket, lnm, operands, numSkipped =>
    match st.pos with
    | none => fvckFinish cfg st lket lnm operands
    | some i =>
      let e := entryAt cfg.entries i
      if e.ikey.seq ≤ cfg.sequence ∧ bytesCmp e.ikey.userKey st.savedKey = .eq then
        if numSkipped ≥ st.maxSkip then
          findValueForCurrentKeyUsingSeek cfg fuel st
        else
          let step : State → ValueType → ValueType → List Bytes →
              Option (State × Bool) := fun st' lket' lnm' ops' =>
            fvckLoop cfg fuel
              (findParseable cfg .reverse
                { st' with pos := iterPrev cfg.entries st'.pos })
              lket' lnm' ops' (numSkipped + 1)
          match e.ikey.tag with
          | .typeValue => step { st with savedValue := e.value } .typeValue .typeValue []
          | .typeDeletion => step st .typeDeletion .typeDeletion []
          | .typeSingleDeletion => step st .typeSingleDeletion .typeSingleDeletion []
          | .typeMerge =>
              let st' := if cfg.mergeOperator.isNone then
                  { st with assertFailed := true }
                else st
              step st' .typeMerge lnm (operands ++ [e.value])
      else fvckFinish cfg st lket lnm operands

/-- `DBIter::FindValueForCurrentKey`.  PRE: the cursor is valid and
`saved_key_` holds the user key of the current entry. -/
def findValueForCurrentKey (cfg : Config) (fuel : Nat) (st : State) :
    Option (State × Bool) :=
  fvckLoop cfg fuel (findParseable cfg .reverse st)
    .typeDeletion .typeDeletion [] 0

/-- Loop of `DBIter::FindPrevUserKey`: walk `Prev` while the parsed key
equals `saved_key_` (counting and possibly reseeking to
`(saved_key_, kMaxSequenceNumber, kValueTypeForSeek)`) or is a larger key
invisible under the snapshot. -/
def findPrevUserKeyLoop (cfg : Config) : Nat → State → Nat → Option State
  | 0, _, _ => none
  | fuel + 1, st, numSkipped =>
    match st.pos with
    | none => some st
    | some i =>
      let e := entryAt cfg.entries i
      let cmp := bytesCmp e.ikey.userKey st.savedKey
      if cmp = .eq ∨ (cmp = .gt ∧ e.ikey.seq > cfg.sequence) then
        if cmp = .eq ∧ numSkipped ≥ st.maxSkip then
          let st' := { st with
            pos := iterSeek cfg.entries
              ⟨st.savedKey, kMaxSequenceNumber, kValueTypeForSeek⟩ }
          findPrevUserKeyLoop cfg fuel
            (findParseable cfg .reverse
              { st' with pos := iterPrev cfg.entries st'.pos }) 0
        else
          findPrevUserKeyLoop cfg fuel
            (findParseable cfg .reverse
              { st with pos := iterPrev cfg.entries st.pos })
            (if cmp = .eq then numSkipped + 1 else numSkipped)
      else some st

/-- `DBIter::FindPrevUserKey`. -/
def findPrevUserKey (cfg : Config) (fuel : Nat) (st : State) : Option State :=
  match st.pos with
  | none => some st
  | some _ => findPrevUserKeyLoop cfg fuel (findParseable cfg .reverse st) 0

/-- The shared tail of a `PrevInternal` iteration after resolution:
`FindParseableKey(kReverse)`, then `FindPrevUserKey` when the parseable key
still equals `saved_key_`. -/
def prevStepBefore (cfg : Config) (fuel : Nat) (st : State) : Option State :=
  match (findParseable cfg .reverse st).pos with
  | none => some (findParseable cfg .reverse st)
  | some j =>
    if bytesCmp (entryAt cfg.entries j).ikey.userKey st.savedKey = .eq then
      findPrevUserKey cfg fuel (findParseable cfg .reverse st)
    else some (findParseable cfg .reverse st)

/-- The `while (iter_->Valid())` loop of `DBIter::PrevInternal` (the function
entry check coincides with the loop's invalid case). -/
def prevInternalLoop (cfg : Config) : Nat → State → Option State
  | 0, _ => none
  | fuel + 1, st =>
    match st.pos with
    | none => some { st with valid := false }
    | some i =>
      match findValueForCurrentKey cfg fuel
          { st with savedKey := (entryAt cfg.entries i).ikey.userKey } with
      | none => none
      | some (st, ok) =>
        if ok then
          match st.pos with
          | none => some { st with valid := true }
          | some _ => prevStepBefore cfg fuel { st with valid := true }
        else
          match st.pos with
          | none => some { st with valid := false }
          | some _ =>
            match prevStepBefore cfg fuel st with
            | none => none
            | some st => prevInternalLoop cfg fuel st

/-- The catch-up walk of `DBIter::ReverseToBackward`: after a merged forward
entry, `Prev` until the parsed key is no longer greater than `saved_key_`. -/
def reverseToBackwardWalk (cfg : Config) : Nat → State → Option State
  | 0, _ => none
  | fuel + 1, st =>
    match st.pos with
    | none => some st
    | some i =>
      if bytesCmp (entryAt cfg.entries i).ikey.userKey st.savedKey = .gt then
        reverseToBackwardWalk cfg fuel
          (findParseable cfg .reverse
            { st with pos := iterPrev cfg.entries st.pos })
      else some st

/-- `DBIter::ReverseToBackward`. -/
def reverseToBackward (cfg : Config) (fuel : Nat) (st : State) : Option State :=
  match (if st.currentIsMerged then
           reverseToBackwardWalk cfg fuel (findParseable cfg .reverse
             (if st.pos = none then { st with pos := iterSeekToLast cfg.entries }
              else st))
         else some st) with
  | none => none
  | some st1 =>
    match findPrevUserKey cfg fuel st1 with
    | none => none
    | some st2 => some { st2 with direction := Direction.reverse }

/-- `DBIter::Prev`. -/
def prevOp (cfg : Config) (fuel : Nat) (st : State) : Option State :=
  if st.valid = false then some { st with assertFailed := true }
  else
    match (if st.direction = .forward then reverseToBackward cfg fuel st
           else some st) with
    | none => none
    | some st1 =>
      match prevInternalLoop cfg fuel st1 with
      | none => none
      | some st2 => some (prefixCheck cfg st2)

/-! ## Positioning calls -/

/-- `max_skip_` forced to `UINT64_MAX` by `SeekToFirst`/`SeekToLast` when a
prefix extractor is configured. -/
def seekMaxSkip (cfg : Config) (m : Nat) : Nat :=
  if cfg.prefixExtractor.isSome then uint64Max else m

/-- The `prefix_start_` assignment at the end of
`SeekToFirst`/`SeekToLast`: lock the prefix of the resolved `saved_key_`. -/
def prefixFromSavedKey (cfg : Config) (s : State) : State :=
  match cfg.prefixExtractor with
  | some pf =>
    if s.valid = true ∧ cfg.prefixSameAsStart = true then
      { s with prefixStart := pf s.savedKey }
    else s
  | none => s

/-- The `prefix_start_` assignment at the end of `Seek`: lock the prefix of
the seek target. -/
def prefixFromTarget (cfg : Config) (t : Bytes) (s : State) : State :=
  match cfg.prefixExtractor with
  | some pf =>
    if s.valid = true ∧ cfg.prefixSameAsStart = true then
      { s with prefixStart := pf t }
    else s
  | none => s

/-- `DBIter::Seek`.  `saved_key_` temporarily holds the internal seek key
built from the target (modelled by the target user key; it is overwritten
before any read that matters). -/
def seekOp (cfg : Config) (fuel : Nat) (target : Bytes) (st : State) :
    Option State :=
  match iterSeek cfg.entries ⟨target, cfg.sequence, kValueTypeForSeek⟩ with
  | none => some { st with savedKey := target, pos := none, valid := false }
  | some i =>
    (findNextUserEntry cfg fuel
      { st with savedKey := target, pos := some i,
                direction := Direction.forward, savedValue := [] }
      false).map (prefixFromTarget cfg target)

/-- `DBIter::SeekToFirst`.  With a prefix extractor configured, `max_skip_`
is first forced to `UINT64_MAX`. -/
def seekToFirstOp (cfg : Config) (fuel : Nat) (st : State) : Option State :=
  match iterSeekToFirst cfg.entries with
  | none =>
    some (prefixFromSavedKey cfg
      { st with maxSkip := seekMaxSkip cfg st.maxSkip,
                direction := Direction.forward, savedValue := [],
                pos := none, valid := false })
  | some i =>
    (findNextUserEntry cfg fuel
      { st with maxSkip := seekMaxSkip cfg st.maxSkip,
                direction := Direction.forward, savedValue := [],
                pos := some i }
      false).map (prefixFromSavedKey cfg)

/-- The common tail of `SeekToLast`: `PrevInternal` and the prefix-lock
assignment. -/
def seekToLastFinish (cfg : Config) (fuel : Nat) (s : State) : Option State :=
  match prevInternalLoop cfg fuel s with
  | none => none
  | some s => some (prefixFromSavedKey cfg s)

/-- The upper-bound block of `SeekToLast`: seek to
`(bound, kMaxSequenceNumber, kValueTypeForSeek)` and step back; note the
early `valid_ = false` return when `Prev` invalidates the cursor. -/
def seekToLastBound (cfg : Config) (fuel : Nat) (b : Bytes) (s : State) :
    Option State :=
  match iterSeek cfg.entries ⟨b, kMaxSequenceNumber, kValueTypeForSeek⟩ with
  | none =>
    seekToLastFinish cfg fuel
      { s with savedKey := b, pos := iterSeekToLast cfg.entries }
  | some j =>
    match iterPrev cfg.entries (some j) with
    | none => some { s with savedKey := b, pos := none, valid := false }
    | some k => seekToLastFinish cfg fuel { s with savedKey := b, pos := some k }

/-- `DBIter::SeekToLast`. -/
def seekToLastOp (cfg : Config) (fuel : Nat) (st : State) : Option State :=
  match iterSeekToLast cfg.entries, cfg.upperBound with
  | some i, some b =>
    seekToLastBound cfg fuel b
      { st with maxSkip := seekMaxSkip cfg st.maxSkip,
                direction := Direction.reverse, savedValue := [],
                pos := some i }
  | p, _ =>
    seekToLastFinish cfg fuel
      { st with maxSkip := seekMaxSkip cfg st.maxSkip,
                direction := Direction.reverse, savedValue := [], pos := p }

/-! ## Accessors and scans -/

/-- Modelled from the spec: the `key()` accessor (declared in
`db_iter_impl.h`, which is not among the provided sources) returns the
resolver's current logical key, i.e. `saved_key_`
(§3 "current_key", §6 `key() -> bytes`). -/
def keyOf (st : State) : Bytes := st.savedKey

/-- Modelled from the spec: the `value()` accessor (declared in
`db_iter_impl.h`, which is not among the provided sources) returns the raw
source value at the cursor in the plain forward case and the materialized
buffer (`saved_value_`) for merged results and for backward traversal
(§3 "current_value: bytes-or-materialized-buffer", §6 `value() -> bytes`). -/
def valueOf (cfg : Config) (st : State) : Bytes :=
  if st.direction = .forward ∧ st.currentIsMerged = false then curValue cfg st
  else st.savedValue

inductive Op where
  | opSeekToFirst
  | opSeekToLast
  | opSeek (target : Bytes)
  | opNext
  | opPrev
deriving DecidableEq, Repr

def runOp (cfg : Config) (fuel : Nat) (st : State) : Op → Option State
  | .opSeekToFirst => seekToFirstOp cfg fuel st
  | .opSeekToLast => seekToLastOp cfg fuel st
  | .opSeek t => seekOp cfg fuel t st
  | .opNext => nextOp cfg fuel st
  | .opPrev => prevOp cfg fuel st

def runOps (cfg : Config) (fuel : Nat) (st : State) : List Op → Option State
  | [] => some st
  | op :: ops =>
    match runOp cfg fuel st op with
    | none => none
    | some st' => runOps cfg fuel st' ops

/-- Collect `(key(), value())` pairs from the current state by repeated
`Next` until invalid. -/
def scanForwardAux (cfg : Config) (fuel : Nat) :
    Nat → State → Option (List (Bytes × Bytes))
  | 0, _ => none
  | steps + 1, st =>
    if st.valid then
      match nextOp cfg fuel st with
      | none => none
      | some st' =>
        match scanForwardAux cfg fuel steps st' with
        | none => none
        | some rest => some ((keyOf st, valueOf cfg st) :: rest)
    else some []

/-- Full forward scan: `SeekToFirst`, then `Next` until invalid. -/
def scanForward (cfg : Config) (fuel steps maxSkip : Nat) :
    Option (List (Bytes × Bytes)) :=
  match seekToFirstOp cfg fuel (initState maxSkip) with
  | none => none
  | some st => scanForwardAux cfg fuel steps st

/-- Collect `(key(), value())` pairs by repeated `Prev` until invalid. -/
def scanBackwardAux (cfg : Config) (fuel : Nat) :
    Nat → State → Option (List (Bytes × Bytes))
  | 0, _ => none
  | steps + 1, st =>
    if st.valid then
      match prevOp cfg fuel st with
      | none => none
      | some st' =>
        match scanBackwardAux cfg fuel steps st' with
        | none => none
        | some rest => some ((keyOf st, valueOf cfg st) :: rest)
    else some []

/-- Full backward scan: `SeekToLast`, then `Prev` until invalid. -/
def scanBackward (cfg : Config) (fuel steps maxSkip : Nat) :
    Option (List (Bytes × Bytes)) :=
  match seekToLastOp cfg fuel (initState maxSkip) with
  | none => none
  | some st => scanBackwardAux cfg fuel steps st

/-! ## Concrete test fixtures -/

/-- A concrete merge operator that keeps the call shape observable:
marker byte `1` followed by the base when a base value is present, marker `0`
when the base is null, followed by the concatenated operands. -/
def demoMerge : Bytes → Option Bytes → List Bytes → Bytes :=
  fun _ base ops =>
    (match base with | some b => 1 :: b | none => [0]) ++ ops.flatten

/-- Shorthand for a well-formed physical entry. -/
def mkE (k : Bytes) (s : Nat) (t : ValueType) (v : Bytes) : RawEntry :=
  ⟨⟨k, s, t⟩, v, true⟩

/-- The failing stream for the backward merge-termination bug: a visible
`Merge` operand directly shadowing a `SingleDelete` on the same user key. -/
def bugEntries : List RawEntry :=
  [mkE [7] 3 .typeMerge [97], mkE [7] 2 .typeSingleDeletion []]

/-- Configuration over `bugEntries` with snapshot 3 and the demo merge
operator; no bounds, no prefix extractor. -/
def bugCfg : Config :=
  ⟨bugEntries, 3, some demoMerge, none, none, false⟩

/-- One `Merge` entry and no configured merge operator. -/
def noMergeOpCfg : Config :=
  ⟨[mkE [7] 1 .typeMerge [97]], 5, none, none, none, false⟩

/-- A `Merge` entry followed by a later `Put`, no merge operator: used to
show that a failed forward merge resolution is not permanent. -/
def noMergeOpCfg2 : Config :=
  ⟨[mkE [7] 1 .typeMerge [97], mkE [9] 1 .typeValue [3]], 5, none, none, none,
    false⟩

/-- Upper-bound fixture: keys `[1]` and `[3]`, exclusive bound `[2]`. -/
def ubCfg : Config :=
  ⟨[mkE [1] 1 .typeValue [5], mkE [3] 1 .typeValue [6]], 10, some demoMerge,
    some [2], none, false⟩

/-- Prefix-lock fixture: the extractor drops the first byte, so the third
key shares the first key's prefix `[7]` even though the stream is sorted
(`prefix_same_as_start` enabled). -/
def pfxCfg : Config :=
  ⟨[mkE [0, 7] 1 .typeValue [1], mkE [1, 8] 1 .typeValue [2],
    mkE [2, 7] 1 .typeValue [3]],
   10, some demoMerge, none, some (fun b => b.drop 1), true⟩

/-- Monotonicity fixture: three `Put`s on keys `[1]`, `[3]`, `[5]`, no
bounds and no prefix extractor. -/
def monoCfg : Config :=
  ⟨[mkE [1] 1 .typeValue [5], mkE [3] 1 .typeValue [6],
    mkE [5] 1 .typeValue [7]], 10, some demoMerge, none, none, false⟩

/-- Monotonicity fixture: the iterator state standing on `monoCfg`'s middle
key — cursor on entry 1, forward, non-merged, `saved_key_ = [3]` resolved
to `[6]` — so that both `Next` and `Prev` yield a valid neighbour. -/
def monoSt : State :=
  ⟨some 1, true, .forward, [3], [6], false, .ok, 8, [], [], false⟩

/-- C8 stream family: a well-formed `Put`, one unparseable entry between,
and a second well-formed `Put` on a distinct (larger) user key. -/
def corruptionCfg (k1 k2 v1 v2 : Bytes) (s1 s2 : Nat) (bad : RawEntry)
    (snap : Nat) : Config :=
  ⟨[⟨⟨k1, s1, .typeValue⟩, v1, true⟩, bad, ⟨⟨k2, s2, .typeValue⟩, v2, true⟩],
   snap, some demoMerge, none, none, false⟩

/-! ## Declarative specification of the forward scan

The specification walks positions of the sorted stream: a position yields a
logical entry iff it holds the highest-version visible entry of its user key,
its key is below the upper bound, and the entry resolves to a value (`Put`,
or a `Merge` chain folded over the same-key entries after it). -/

/-- The index a cursor stands at, with `none` (exhausted) read as the
stream length. -/
def posOrLen (es : List RawEntry) : Option Nat → Nat
  | some i => i
  | none => es.length

/-- The cursor is either exhausted or at an in-range index. -/
def PosOk (cfg : Config) (st : State) : Prop :=
  st.pos = none ∨ ∃ i, st.pos = some i ∧ i < cfg.entries.length

/-- Entry `i` is visible under the snapshot. -/
def Visible (cfg : Config) (i : Nat) : Prop :=
  (entryAt cfg.entries i).ikey.seq ≤ cfg.sequence

instance (cfg : Config) (i : Nat) : Decidable (Visible cfg i) := by
  unfold Visible
  infer_instance

/-- Entry `i` is the highest-version visible entry of its user key: it is
visible and no earlier entry of the same user key is visible. -/
def HeadVisible (cfg : Config) (i : Nat) : Prop :=
  Visible cfg i ∧ ∀ j < i,
    (entryAt cfg.entries j).ikey.userKey = (entryAt cfg.entries i).ikey.userKey →
      ¬ Visible cfg j

instance (cfg : Config) (i : Nat) : Decidable (HeadVisible cfg i) := by
  unfold HeadVisible
  infer_instance

/-- The merge chain below entry `i`: the same-key entries after position
`i`, in stream order (strictly decreasing version). -/
def chainAfter (cfg : Config) (i : Nat) : List RawEntry :=
  (cfg.entries.drop (i + 1)).filter
    (fun e => e.ikey.userKey = (entryAt cfg.entries i).ikey.userKey)

/-- Fold a merge chain: operands are accumulated front-first (oldest first),
and the chain terminates at a put (base present), a deletion or the key
boundary (base absent). -/
def resolveChain (f : Bytes → Option Bytes → List Bytes → Bytes) (k : Bytes) :
    List RawEntry → List Bytes → Bytes
  | [], ops => f k none ops
  | e :: rest, ops =>
    match e.ikey.tag with
    | .typeDeletion | .typeSingleDeletion => f k none ops
    | .typeValue => f k (some e.value) ops
    | .typeMerge => resolveChain f k rest (e.value :: ops)

/-- The logical value contributed by head-visible entry `i`, if any. -/
def yieldValue (cfg : Config) (f : Bytes → Option Bytes → List Bytes → Bytes)
    (i : Nat) : Option Bytes :=
  match (entryAt cfg.entries i).ikey.tag with
  | .typeDeletion | .typeSingleDeletion => none
  | .typeValue => some (entryAt cfg.entries i).value
  | .typeMerge =>
    some (resolveChain f (entryAt cfg.entries i).ikey.userKey
      (chainAfter cfg i) [(entryAt cfg.entries i).value])

/-- The logical `(key, value)` pair yielded at position `i`, if any. -/
def specYield (cfg : Config) (f : Bytes → Option Bytes → List Bytes → Bytes)
    (i : Nat) : Option (Bytes × Bytes) :=
  if HeadVisible cfg i ∧
      boundExceeded cfg (entryAt cfg.entries i).ikey.userKey = false then
    (yieldValue cfg f i).map
      (fun v => ((entryAt cfg.entries i).ikey.userKey, v))
  else none

/-- The logical entries yielded at positions `≥ i`. -/
def specFrom (cfg : Config) (f : Bytes → Option Bytes → List Bytes → Bytes)
    (i : Nat) : List (Bytes × Bytes) :=
  (List.range' i (cfg.entries.length - i)).filterMap (specYield cfg f)

/-- The declarative full forward scan. -/
def specForwardScan (cfg : Config)
    (f : Bytes → Option Bytes → List Bytes → Bytes) : List (Bytes × Bytes) :=
  specFrom cfg f 0

/-- The visible physical entries of user key `k`, newest first. -/
def visibleEntries (cfg : Config) (k : Bytes) : List RawEntry :=
  cfg.entries.filter
    (fun e => e.ikey.userKey = k ∧ e.ikey.seq ≤ cfg.sequence)

/-- Per-key resolution, phrased exactly as the claims phrase it: the
highest-version visible entry decides; `Put` yields its payload, a deletion
yields nothing, and a `Merge` folds the remaining visible chain. -/
def resolveKey (cfg : Config) (f : Bytes → Option Bytes → List Bytes → Bytes)
    (k : Bytes) : Option Bytes :=
  match visibleEntries cfg k with
  | [] => none
  | e :: rest =>
    match e.ikey.tag with
    | .typeDeletion | .typeSingleDeletion => none
    | .typeValue => some e.value
    | .typeMerge => some (resolveChain f k rest [e.value])

/-! ## Invariants of the forward state machine -/

/-- Every entry before position `i` has a user key at most `sk` or is
invisible under the snapshot. -/
def SkipClear (cfg : Config) (sk : Bytes) (i : Nat) : Prop :=
  ∀ j, j < i → j < cfg.entries.length →
    bytesCmp (entryAt cfg.entries j).ikey.userKey sk ≠ .gt ∨
      cfg.sequence < (entryAt cfg.entries j).ikey.seq

/-- Some visible entry of user key `sk` lies before position `i`. -/
def HasVisibleHead (cfg : Config) (sk : Bytes) (i : Nat) : Prop :=
  ∃ h, h < i ∧ h < cfg.entries.length ∧
    (entryAt cfg.entries h).ikey.userKey = sk ∧
    (entryAt cfg.entries h).ikey.seq ≤ cfg.sequence

/-- Every entry before position `i` is invisible or its user key never
recurs at positions `≥ i` (the state right after a positioning call). -/
def NoRevisit (cfg : Config) (i : Nat) : Prop :=
  ∀ j, j < i → j < cfg.entries.length →
    cfg.sequence < (entryAt cfg.entries j).ikey.seq ∨
    ∀ j', i ≤ j' → j' < cfg.entries.length →
      (entryAt cfg.entries j').ikey.userKey ≠ (entryAt cfg.entries j).ikey.userKey

/-- A forward post-resolution state: the iterator just yielded
`(saved_key_, value())`, and the remaining logical entries are exactly the
specification's yields from position `n` on. -/
def ReadyF (cfg : Config) (st : State) (n : Nat) : Prop :=
  st.valid = true ∧ st.direction = .forward ∧ n ≤ cfg.entries.length ∧
  SkipClear cfg st.savedKey n ∧ HasVisibleHead cfg st.savedKey n ∧
  ((st.currentIsMerged = false ∧
      ∃ y, st.pos = some y ∧ n = y + 1 ∧ y < cfg.entries.length) ∨
   (st.currentIsMerged = true ∧ PosOk cfg st ∧
      posOrLen cfg.entries st.pos = n))

/-! ## General helper lemmas -/

/-! ### Order properties of the byte comparator -/

theorem bytesCmp_self (a : Bytes) : bytesCmp a a = .eq := by
  induction a with
  | nil => rfl
  | cons x xs ih =>
    simp [bytesCmp, Ordering.then_eq_eq, ih, Nat.compare_eq_eq]

theorem bytesCmp_eq_iff (a b : Bytes) : bytesCmp a b = .eq ↔ a = b := by
  induction a generalizing b with
  | nil => cases b <;> simp [bytesCmp]
  | cons x xs ih =>
    cases b with
    | nil => simp [bytesCmp]
    | cons y ys => simp [bytesCmp, Ordering.then_eq_eq, Nat.compare_eq_eq, ih]

/-- Head/tail characterization of strict byte-string order. -/
theorem bytesCmp_cons_lt_iff (x y : Nat) (xs ys : Bytes) :
    bytesCmp (x :: xs) (y :: ys) = .lt ↔
      x < y ∨ (x = y ∧ bytesCmp xs ys = .lt) := by
  simp [bytesCmp, Ordering.then_eq_lt, Nat.compare_eq_lt, Nat.compare_eq_eq]

theorem bytesCmp_swap (a b : Bytes) : bytesCmp b a = (bytesCmp a b).swap := by
  induction a generalizing b with
  | nil => cases b <;> rfl
  | cons x xs ih =>
    cases b with
    | nil => rfl
    | cons y ys =>
      simp only [bytesCmp, Ordering.swap_then, ih]
      congr 1
      rcases h : compare x y with _ | _ | _
      · rw [Nat.compare_eq_lt] at h
        rw [Nat.compare_eq_gt.mpr h]
        rfl
      · rw [Nat.compare_eq_eq] at h
        subst h
        rw [Nat.compare_eq_eq.mpr rfl]
        rfl
      · rw [Nat.compare_eq_gt] at h
        rw [Nat.compare_eq_lt.mpr h]
        rfl

theorem bytesCmp_lt_of_gt (a b : Bytes) (h : bytesCmp a b = .gt) :
    bytesCmp b a = .lt := by
  rw [bytesCmp_swap, h]
  rfl

theorem bytesCmp_gt_of_lt (a b : Bytes) (h : bytesCmp a b = .lt) :
    bytesCmp b a = .gt := by
  rw [bytesCmp_swap, h]
  rfl

theorem bytesCmp_lt_trans : ∀ (a b c : Bytes), bytesCmp a b = .lt →
    bytesCmp b c = .lt → bytesCmp a c = .lt
  | [], [], _, hab, _ => by simp [bytesCmp] at hab
  | [], _ :: _, [], _, hbc => by simp [bytesCmp] at hbc
  | [], _ :: _, _ :: _, _, _ => by simp [bytesCmp]
  | _ :: _, [], _, hab, _ => by simp [bytesCmp] at hab
  | _ :: _, _ :: _, [], _, hbc => by simp [bytesCmp] at hbc
  | x :: xs, y :: ys, z :: zs, hab, hbc => by
    rw [bytesCmp_cons_lt_iff] at hab hbc ⊢
    rcases hab with h1 | ⟨rfl, h1⟩ <;> rcases hbc with h2 | ⟨rfl, h2⟩
    · exact Or.inl (by omega)
    · exact Or.inl h1
    · exact Or.inl h2
    · exact Or.inr ⟨rfl, bytesCmp_lt_trans xs ys zs h1 h2⟩

/-! ### Consequences of sortedness -/

theorem ikeyCmp_lt_userKey (a b : InternalKey) (h : ikeyCmp a b = .lt) :
    bytesCmp a.userKey b.userKey = .lt ∨ a.userKey = b.userKey := by
  unfold ikeyCmp at h
  rw [Ordering.then_eq_lt] at h
  rcases h with h | ⟨he, -⟩
  · exact Or.inl h
  · exact Or.inr ((bytesCmp_eq_iff _ _).mp he)

/-- User keys are non-decreasing along the sorted stream. -/
theorem sorted_key_mono (cfg : Config) (hs : SortedSource cfg.entries)
    (i j : Nat) (hij : i ≤ j) (hj : j < cfg.entries.length) :
    bytesCmp (entryAt cfg.entries i).ikey.userKey
      (entryAt cfg.entries j).ikey.userKey ≠ .gt := by
  rcases Nat.eq_or_lt_of_le hij with rfl | hlt
  · rw [bytesCmp_self]
    simp
  · have h := hs i (lt_trans hlt hj) j hj hlt
    rcases ikeyCmp_lt_userKey _ _ h with h2 | h2
    · rw [h2]
      simp
    · rw [h2, bytesCmp_self]
      simp

/-- A later entry of the same user key is visible whenever an earlier one
is (versions strictly decrease within a key block). -/
theorem sorted_visible_tail (cfg : Config) (hs : SortedSource cfg.entries)
    (i j : Nat) (hij : i < j) (hj : j < cfg.entries.length)
    (hk : (entryAt cfg.entries i).ikey.userKey =
      (entryAt cfg.entries j).ikey.userKey)
    (hv : Visible cfg i) : Visible cfg j := by
  have h := hs i (lt_trans hij hj) j hj hij
  unfold ikeyCmp at h
  rw [Ordering.then_eq_lt] at h
  rcases h with h | ⟨-, h2⟩
  · rw [(bytesCmp_eq_iff _ _).mpr hk] at h
    exact absurd h (by simp)
  · rw [Ordering.then_eq_lt] at h2
    unfold Visible at hv ⊢
    rcases h2 with h3 | ⟨h3, -⟩
    · rw [Nat.compare_eq_lt] at h3
      omega
    · rw [Nat.compare_eq_eq] at h3
      omega

/-- All entries at positions `≥ p` have a key different from `k` once the
entry at `p` has a key greater than `k` (suffix filter is empty). -/
theorem sorted_suffix_filter_nil (cfg : Config)
    (p : Nat) (k : Bytes)
    (hgt : ∀ j, p ≤ j → j < cfg.entries.length →
      bytesCmp k (entryAt cfg.entries j).ikey.userKey = .lt) :
    (cfg.entries.drop p).filter (fun e => e.ikey.userKey = k) = [] := by
  rw [List.filter_eq_nil_iff]
  intro e he
  rw [List.mem_iff_getElem] at he
  obtain ⟨q, hq, rfl⟩ := he
  rw [List.getElem_drop]
  have hlen : p + q < cfg.entries.length := by
    rw [List.length_drop] at hq
    omega
  have := hgt (p + q) (Nat.le_add_right p q) hlen
  have hne : (entryAt cfg.entries (p + q)).ikey.userKey ≠ k := by
    intro hk
    rw [hk, bytesCmp_self] at this
    exact absurd this (by simp)
  simp only [entryAt] at hne
  rw [List.getD_eq_getElem cfg.entries default hlen] at hne
  simpa using hne

/-- Splitting a filter at the first satisfying position. -/
theorem filter_eq_head_cons (l : List RawEntry) (P : RawEntry → Bool)
    (i : Nat) (hi : i < l.length)
    (hbefore : ∀ j, j < i → ¬ P (entryAt l j))
    (hP : P (entryAt l i)) :
    l.filter P = entryAt l i :: (l.drop (i + 1)).filter P := by
  induction l generalizing i with
  | nil => simp at hi
  | cons x xs ih =>
    cases i with
    | zero =>
      have hx : P x := hP
      show (x :: xs).filter P = x :: xs.filter P
      rw [List.filter_cons_of_pos hx]
    | succ n =>
      have hx : ¬ P x := hbefore 0 (Nat.succ_pos n)
      simp only [List.filter_cons]
      rw [if_neg (by simpa using hx)]
      exact ih n (by simpa using hi)
        (fun j hj => hbefore (j + 1) (by omega)) hP

/-- Inversion: a nonempty filter starts at its first satisfying position. -/
theorem filter_eq_cons_inv (l : List RawEntry) (P : RawEntry → Bool)
    (e : RawEntry) (rest : List RawEntry) (h : l.filter P = e :: rest) :
    ∃ i, i < l.length ∧ entryAt l i = e ∧ P e ∧
      (∀ j, j < i → ¬ P (entryAt l j)) ∧
      rest = (l.drop (i + 1)).filter P := by
  induction l generalizing e rest with
  | nil => simp at h
  | cons x xs ih =>
    by_cases hx : P x
    · rw [List.filter_cons_of_pos hx] at h
      obtain ⟨rfl, rfl⟩ := List.cons_eq_cons.mp h
      exact ⟨0, by simp, rfl, hx, by omega, by simp⟩
    · rw [List.filter_cons_of_neg hx] at h
      obtain ⟨i, hi, hget, hPe, hbef, hrest⟩ := ih _ _ h
      refine ⟨i + 1, by simpa using hi, hget, hPe, ?_, hrest⟩
      intro j hj
      cases j with
      | zero => exact hx
      | succ m => exact hbef m (by omega)

theorem bytesCmp_lt_of_lt_of_ne_gt (a b c : Bytes) (h1 : bytesCmp a b = .lt)
    (h2 : bytesCmp b c ≠ .gt) : bytesCmp a c = .lt := by
  rcases h3 : bytesCmp b c with _ | _ | _
  · exact bytesCmp_lt_trans a b c h1 h3
  · exact (bytesCmp_eq_iff b c).mp h3 ▸ h1
  · exact absurd h3 h2

theorem entryAt_eq_getElem (es : List RawEntry) (p : Nat) (hp : p < es.length) :
    entryAt es p = es[p] := List.getD_eq_getElem es default hp

theorem drop_eq_entry_cons (es : List RawEntry) (p : Nat) (hp : p < es.length) :
    es.drop p = entryAt es p :: es.drop (p + 1) := by
  rw [List.drop_eq_getElem_cons hp, entryAt_eq_getElem es p hp]

theorem filter_drop_cons_pos (es : List RawEntry) (p : Nat)
    (hp : p < es.length) (P : RawEntry → Bool) (hP : P (entryAt es p) = true) :
    (es.drop p).filter P = entryAt es p :: (es.drop (p + 1)).filter P := by
  rw [drop_eq_entry_cons es p hp, List.filter_cons_of_pos hP]

theorem filter_drop_cons_neg (es : List RawEntry) (p : Nat)
    (hp : p < es.length) (P : RawEntry → Bool) (hP : ¬ P (entryAt es p) = true) :
    (es.drop p).filter P = (es.drop (p + 1)).filter P := by
  rw [drop_eq_entry_cons es p hp, List.filter_cons_of_neg hP]

/-! ### Unfolding the declarative scan -/

theorem specFrom_stop (cfg : Config)
    (f : Bytes → Option Bytes → List Bytes → Bytes) (i : Nat)
    (h : cfg.entries.length ≤ i) : specFrom cfg f i = [] := by
  unfold specFrom
  rw [Nat.sub_eq_zero_of_le h]
  rfl

theorem specFrom_step (cfg : Config)
    (f : Bytes → Option Bytes → List Bytes → Bytes) (i : Nat)
    (h : i < cfg.entries.length) :
    specFrom cfg f i =
      (match specYield cfg f i with
       | some p => p :: specFrom cfg f (i + 1)
       | none => specFrom cfg f (i + 1)) := by
  unfold specFrom
  rw [show cfg.entries.length - i = (cfg.entries.length - (i + 1)) + 1 by omega]
  rw [List.range'_succ i _ 1, List.filterMap_cons]
  cases specYield cfg f i <;> rfl

theorem specFrom_skip (cfg : Config)
    (f : Bytes → Option Bytes → List Bytes → Bytes) (i : Nat)
    (h : i < cfg.entries.length) (hy : specYield cfg f i = none) :
    specFrom cfg f i = specFrom cfg f (i + 1) := by
  rw [specFrom_step cfg f i h, hy]

theorem specFrom_yield (cfg : Config)
    (f : Bytes → Option Bytes → List Bytes → Bytes) (i : Nat)
    (p : Bytes × Bytes) (h : i < cfg.entries.length)
    (hy : specYield cfg f i = some p) :
    specFrom cfg f i = p :: specFrom cfg f (i + 1) := by
  rw [specFrom_step cfg f i h, hy]

theorem specYield_not_visible (cfg : Config)
    (f : Bytes → Option Bytes → List Bytes → Bytes) (i : Nat)
    (h : ¬ Visible cfg i) : specYield cfg f i = none := by
  unfold specYield
  rw [if_neg (fun hc => h hc.1.1)]

theorem specYield_not_head (cfg : Config)
    (f : Bytes → Option Bytes → List Bytes → Bytes) (i j : Nat) (hj : j < i)
    (hk : (entryAt cfg.entries j).ikey.userKey =
      (entryAt cfg.entries i).ikey.userKey)
    (hv : Visible cfg j) : specYield cfg f i = none := by
  unfold specYield
  rw [if_neg (fun hc => hc.1.2 j hj hk hv)]

theorem specYield_bound (cfg : Config)
    (f : Bytes → Option Bytes → List Bytes → Bytes) (i : Nat)
    (hb : boundExceeded cfg (entryAt cfg.entries i).ikey.userKey = true) :
    specYield cfg f i = none := by
  unfold specYield
  rw [if_neg (fun hc => by rw [hc.2] at hb; cases hb)]

theorem specYield_del (cfg : Config)
    (f : Bytes → Option Bytes → List Bytes → Bytes) (i : Nat)
    (hd : (entryAt cfg.entries i).ikey.tag = .typeDeletion ∨
      (entryAt cfg.entries i).ikey.tag = .typeSingleDeletion) :
    specYield cfg f i = none := by
  unfold specYield yieldValue
  rcases hd with hd | hd <;> rw [hd] <;> split <;> rfl

theorem specYield_value (cfg : Config)
    (f : Bytes → Option Bytes → List Bytes → Bytes) (i : Nat)
    (hh : HeadVisible cfg i)
    (hb : boundExceeded cfg (entryAt cfg.entries i).ikey.userKey = false)
    (ht : (entryAt cfg.entries i).ikey.tag = .typeValue) :
    specYield cfg f i =
      some ((entryAt cfg.entries i).ikey.userKey,
        (entryAt cfg.entries i).value) := by
  unfold specYield yieldValue
  rw [if_pos ⟨hh, hb⟩, ht]
  rfl

theorem specYield_merge (cfg : Config)
    (f : Bytes → Option Bytes → List Bytes → Bytes) (i : Nat)
    (hh : HeadVisible cfg i)
    (hb : boundExceeded cfg (entryAt cfg.entries i).ikey.userKey = false)
    (ht : (entryAt cfg.entries i).ikey.tag = .typeMerge) :
    specYield cfg f i =
      some ((entryAt cfg.entries i).ikey.userKey,
        resolveChain f (entryAt cfg.entries i).ikey.userKey
          (chainAfter cfg i) [(entryAt cfg.entries i).value]) := by
  unfold specYield yieldValue
  rw [if_pos ⟨hh, hb⟩, ht]
  rfl

/-- Unfolded form of a merge-operator invocation when an operator is
configured. -/
theorem applyFullMerge_eq (cfg : Config) (st : State) (k : Bytes)
    (b : Option Bytes) (ops : List Bytes)
    (f : Bytes → Option Bytes → List Bytes → Bytes)
    (hmo : cfg.mergeOperator = some f) :
    applyFullMerge cfg st k b ops =
      { st with savedValue := f k b ops,
                mergeCalls := st.mergeCalls ++ [⟨k, b, ops⟩] } := by
  unfold applyFullMerge
  rw [hmo]

/-- Characterization of the merge-folding loop on a sorted, fully parseable
stream: it folds exactly the same-key suffix chain and leaves the cursor on
the first entry past the consumed chain. -/
theorem mergeLoop_spec (cfg : Config)
    (f : Bytes → Option Bytes → List Bytes → Bytes)
    (hs : SortedSource cfg.entries) (hpars : AllParseable cfg.entries)
    (hmo : cfg.mergeOperator = some f) :
    ∀ fuel p st ops,
      (st.pos = none ∧ p = cfg.entries.length ∨
        st.pos = some p ∧ p < cfg.entries.length) →
      (∃ i, i < p ∧ i < cfg.entries.length ∧
        (entryAt cfg.entries i).ikey.userKey = st.savedKey) →
      cfg.entries.length - p + 1 ≤ fuel →
      ∃ st' q, mergeLoop cfg fuel st ops = some st' ∧
        st'.savedValue = resolveChain f st.savedKey
          ((cfg.entries.drop p).filter
            (fun e => e.ikey.userKey = st.savedKey)) ops ∧
        st'.savedKey = st.savedKey ∧ st'.valid = st.valid ∧
        st'.direction = st.direction ∧
        st'.currentIsMerged = st.currentIsMerged ∧
        st'.maxSkip = st.maxSkip ∧ st'.status = st.status ∧
        PosOk cfg st' ∧ posOrLen cfg.entries st'.pos = q ∧
        p ≤ q ∧ q ≤ cfg.entries.length ∧
        ∀ j, p ≤ j → j < q →
          (entryAt cfg.entries j).ikey.userKey = st.savedKey := by
  intro fuel
  induction fuel with
  | zero =>
    intro p st ops hpos hanch hfuel
    omega
  | succ n ih =>
    intro p st ops hpos hanch hfuel
    rcases hpos with ⟨hnone, rfl⟩ | ⟨hsome, hplen⟩
    · -- cursor exhausted: final null-base merge, cursor stays invalid
      refine ⟨applyFullMerge cfg st st.savedKey none ops, cfg.entries.length,
        by simp only [mergeLoop, hnone], ?_, ?_⟩
      · rw [List.drop_length, applyFullMerge_eq cfg st _ _ _ f hmo]
        simp [resolveChain]
      · rw [applyFullMerge_eq cfg st _ _ _ f hmo]
        exact ⟨rfl, rfl, rfl, rfl, rfl, rfl, Or.inl hnone,
          by rw [hnone]; rfl, le_refl _, le_refl _, by omega⟩
    · have hpar := hpars p hplen
      simp only [mergeLoop, hsome, hpar]
      simp only [Bool.true_eq_false, if_false]
      rcases hkey : bytesCmp (entryAt cfg.entries p).ikey.userKey st.savedKey
        with _ | _ | _
      · -- keys are monotone, so a key below the anchor key cannot occur here
        obtain ⟨i, hip, hil, hik⟩ := hanch
        have hmono := sorted_key_mono cfg hs i p (Nat.le_of_lt hip) hplen
        rw [hik] at hmono
        exact absurd (bytesCmp_gt_of_lt _ _ hkey) hmono
      · -- same user key: consume this chain entry
        have hkb : (entryAt cfg.entries p).ikey.userKey = st.savedKey :=
          (bytesCmp_eq_iff _ _).mp hkey
        have hchain : (cfg.entries.drop p).filter
            (fun e => e.ikey.userKey = st.savedKey) =
            entryAt cfg.entries p :: (cfg.entries.drop (p + 1)).filter
              (fun e => e.ikey.userKey = st.savedKey) :=
          filter_drop_cons_pos cfg.entries p hplen _ (by simp [hkb])
        rw [if_neg (by simp)]
        rcases htag : (entryAt cfg.entries p).ikey.tag with _ | _ | _ | _
        · -- deletion terminates the chain with a null base
          rw [if_pos (by simp)]
          refine ⟨_, p + 1, rfl, ?_, ?_⟩
          · rw [hchain, applyFullMerge_eq cfg _ _ _ _ f hmo]
            simp only [resolveChain, htag]
          · rw [applyFullMerge_eq cfg _ _ _ _ f hmo]
            refine ⟨rfl, rfl, rfl, rfl, rfl, rfl, ?_, ?_, by omega, by omega,
              ?_⟩
            · unfold PosOk
              dsimp only
              simp only [iterNext]
              split
              · next h => right; exact ⟨p + 1, rfl, h⟩
              · left; rfl
            · dsimp only
              simp only [iterNext]
              split
              · rfl
              · next h => simp only [posOrLen]; omega
            · intro j h1 h2
              have hj : j = p := by omega
              rw [hj, hkb]
        · -- put terminates the chain with a base value
          rw [if_neg (by simp), if_pos (by simp)]
          refine ⟨_, p + 1, rfl, ?_, ?_⟩
          · rw [hchain, applyFullMerge_eq cfg _ _ _ _ f hmo]
            simp only [resolveChain, htag, hkb]
          · rw [applyFullMerge_eq cfg _ _ _ _ f hmo]
            refine ⟨rfl, rfl, rfl, rfl, rfl, rfl, ?_, ?_, by omega, by omega,
              ?_⟩
            · unfold PosOk
              dsimp only
              simp only [iterNext]
              split
              · next h => right; exact ⟨p + 1, rfl, h⟩
              · left; rfl
            · dsimp only
              simp only [iterNext]
              split
              · rfl
              · next h => simp only [posOrLen]; omega
            · intro j h1 h2
              have hj : j = p := by omega
              rw [hj, hkb]
        · -- merge operand: push and recurse
          rw [if_neg (by simp), if_neg (by simp)]
          have hrec := ih (p + 1)
            { st with pos := iterNext cfg.entries (some p) }
            ((entryAt cfg.entries p).value :: ops)
            (by
              dsimp only
              simp only [iterNext]
              split
              · next h => right; exact ⟨rfl, h⟩
              · next h => left; exact ⟨rfl, by omega⟩)
            ⟨p, Nat.lt_succ_self p, hplen, hkb⟩
            (by omega)
          obtain ⟨st', q, hrun, hval, hrest⟩ := hrec
          refine ⟨st', q, hrun, ?_, ?_⟩
          · rw [hchain]
            simp only [resolveChain, htag]
            exact hval
          · obtain ⟨h1, h2, h3, h4, h5, h6, h7, h8, h9, h10, h11⟩ := hrest
            refine ⟨h1, h2, h3, h4, h5, h6, h7, h8, by omega, h10, ?_⟩
            intro j hj1 hj2
            rcases Nat.eq_or_lt_of_le hj1 with rfl | hlt
            · exact hkb
            · exact h11 j hlt hj2
        · -- single deletion terminates the chain with a null base
          rw [if_pos (by simp)]
          refine ⟨_, p + 1, rfl, ?_, ?_⟩
          · rw [hchain, applyFullMerge_eq cfg _ _ _ _ f hmo]
            simp only [resolveChain, htag]
          · rw [applyFullMerge_eq cfg _ _ _ _ f hmo]
            refine ⟨rfl, rfl, rfl, rfl, rfl, rfl, ?_, ?_, by omega, by omega,
              ?_⟩
            · unfold PosOk
              dsimp only
              simp only [iterNext]
              split
              · next h => right; exact ⟨p + 1, rfl, h⟩
              · left; rfl
            · dsimp only
              simp only [iterNext]
              split
              · rfl
              · next h => simp only [posOrLen]; omega
            · intro j h1 h2
              have hj : j = p := by omega
              rw [hj, hkb]
      · -- strictly larger key: chain boundary, cursor stays in place
        rw [if_pos (by simp)]
        have hnil : (cfg.entries.drop p).filter
            (fun e => e.ikey.userKey = st.savedKey) = [] := by
          refine sorted_suffix_filter_nil cfg p st.savedKey ?_
          intro j hpj hjl
          exact bytesCmp_lt_of_lt_of_ne_gt _ _ _
            (bytesCmp_lt_of_gt _ _ hkey)
            (sorted_key_mono cfg hs p j hpj hjl)
        refine ⟨_, p, rfl, ?_, ?_⟩
        · rw [hnil, applyFullMerge_eq cfg _ _ _ _ f hmo]
          simp [resolveChain]
        · rw [applyFullMerge_eq cfg _ _ _ _ f hmo]
          exact ⟨rfl, rfl, rfl, rfl, rfl, rfl,
            Or.inr ⟨p, hsome, hplen⟩, by rw [hsome]; rfl, le_refl _,
            by omega, by omega⟩
theorem prefixCheck_valid_prefix (cfg : Config) (pf : Bytes → Bytes)
    (s : State) (hpf : cfg.prefixExtractor = some pf)
    (hps : cfg.prefixSameAsStart = true)
    (hv : (prefixCheck cfg s).valid = true) :
    pf (prefixCheck cfg s).savedKey = (prefixCheck cfg s).prefixStart := by
  simp only [prefixCheck, hpf] at hv ⊢
  split at hv
  · next hcond => simp at hv
  · next hcond =>
    rw [if_neg hcond]
    push_neg at hcond
    exact hcond hv hps

/-- `Next` on an invalid iterator only flags the violated assertion. -/
theorem nextOp_invalid (cfg : Config) (fuel : Nat) (st : State)
    (h : st.valid = false) :
    nextOp cfg fuel st = some { st with assertFailed := true } := by
  unfold nextOp
  rw [h]
  simp

/-- Every successful `Next` from a valid state ends either invalid or in a
state that passed the prefix check. -/
theorem applyFullMerge_savedKey (cfg : Config) (st : State) (k : Bytes)
    (b : Option Bytes) (ops : List Bytes) :
    (applyFullMerge cfg st k b ops).savedKey = st.savedKey := by
  unfold applyFullMerge
  split <;> rfl

theorem applyFullMerge_valid (cfg : Config) (st : State) (k : Bytes)
    (b : Option Bytes) (ops : List Bytes) :
    (applyFullMerge cfg st k b ops).valid = st.valid := by
  unfold applyFullMerge
  split <;> rfl

/-- The merge-folding loop never touches `saved_key_` or `valid_`. -/
theorem mergeLoop_savedKey_valid (cfg : Config) :
    ∀ fuel st ops st', mergeLoop cfg fuel st ops = some st' →
      st'.savedKey = st.savedKey ∧ st'.valid = st.valid := by
  intro fuel
  induction fuel with
  | zero => intro st ops st' h; simp [mergeLoop] at h
  | succ n ih =>
    intro st ops st' h
    simp only [mergeLoop] at h
    split at h
    · obtain rfl := Option.some_inj.mp h.symm
      exact ⟨applyFullMerge_savedKey .., applyFullMerge_valid ..⟩
    · split at h
      · simpa using ih _ _ _ h
      · split at h
        · obtain rfl := Option.some_inj.mp h.symm
          exact ⟨applyFullMerge_savedKey .., applyFullMerge_valid ..⟩
        · split at h
          · obtain rfl := Option.some_inj.mp h.symm
            exact ⟨applyFullMerge_savedKey .., applyFullMerge_valid ..⟩
          · split at h
            · obtain rfl := Option.some_inj.mp h.symm
              exact ⟨applyFullMerge_savedKey .., applyFullMerge_valid ..⟩
            · simpa using ih _ _ _ h

/-- `MergeValuesNewToOld` never changes `saved_key_`. -/
theorem mergeValuesNewToOld_savedKey (cfg : Config) (fuel : Nat)
    (st st' : State) (h : mergeValuesNewToOld cfg fuel st = some st') :
    st'.savedKey = st.savedKey := by
  unfold mergeValuesNewToOld at h
  split at h
  · obtain rfl := Option.some_inj.mp h.symm
    rfl
  · split at h
    · obtain rfl := Option.some_inj.mp h.symm
      rfl
    · exact (mergeLoop_savedKey_valid cfg fuel _ _ st' h).1

/-- With an exclusive upper bound configured, a forward scan that ends valid
has accepted a key strictly below the bound (the bound test precedes every
acceptance in `FindNextUserEntryInternal`). -/
theorem findNextUserEntryLoop_bound (cfg : Config) (b : Bytes)
    (hub : cfg.upperBound = some b) :
    ∀ fuel st skipping num stf,
      findNextUserEntryLoop cfg fuel st skipping num = some stf →
      stf.valid = true → bytesCmp stf.savedKey b = .lt := by
  intro fuel
  induction fuel with
  | zero => intro st skipping num stf h hv; simp [findNextUserEntryLoop] at h
  | succ n ih =>
    intro st skipping num stf h hv
    simp only [findNextUserEntryLoop] at h
    split at h
    · obtain rfl := Option.some_inj.mp h.symm
      simp at hv
    · next i heq =>
      split at h
      · -- parseable
        split at h
        · -- bound exceeded: returns invalid
          obtain rfl := Option.some_inj.mp h.symm
          simp at hv
        · next hbound =>
          have hlt : bytesCmp (entryAt cfg.entries i).ikey.userKey b = .lt := by
            simpa [boundExceeded, hub] using hbound
          split at h
          · -- visible entry
            split at h
            · -- skipped entry: continue
              split at h
              · exact ih _ _ _ _ h hv
              · exact ih _ _ _ _ h hv
            · -- accepted entry: case on the tag
              split at h
              · -- deletion: remember key, continue skipping
                split at h
                · exact ih _ _ _ _ h hv
                · exact ih _ _ _ _ h hv
              · -- single deletion
                split at h
                · exact ih _ _ _ _ h hv
                · exact ih _ _ _ _ h hv
              · -- value: accepted with the checked key
                obtain rfl := Option.some_inj.mp h.symm
                exact hlt
              · -- merge: `MergeValuesNewToOld` keeps `saved_key_`
                have hs := mergeValuesNewToOld_savedKey cfg n _ stf h
                simpa [hs] using hlt
          · -- invisible entry: continue
            split at h
            · exact ih _ _ _ _ h hv
            · exact ih _ _ _ _ h hv
      · -- unparseable entry: continue
        split at h
        · exact ih _ _ _ _ h hv
        · exact ih _ _ _ _ h hv

/-! ### Internal-key order facts and seek landing -/

theorem Ordering.eq_of_ne_lt_ne_gt (o : Ordering) (h1 : o ≠ .lt)
    (h2 : o ≠ .gt) : o = .eq := by
  cases o
  · exact absurd rfl h1
  · rfl
  · exact absurd rfl h2

theorem bytesCmp_lt_of_ne_gt_of_lt (a b c : Bytes)
    (h1 : bytesCmp a b ≠ .gt) (h2 : bytesCmp b c = .lt) :
    bytesCmp a c = .lt := by
  rcases h3 : bytesCmp a b with _ | _ | _
  · exact bytesCmp_lt_trans a b c h3 h2
  · rw [(bytesCmp_eq_iff a b).mp h3]
    exact h2
  · exact absurd h3 h1

theorem ValueType.code_inj (a b : ValueType) (h : a.code = b.code) : a = b := by
  cases a <;> cases b <;> first | rfl | (exact absurd h (by decide))

theorem ikeyCmp_lt_iff (a b : InternalKey) :
    ikeyCmp a b = .lt ↔
      bytesCmp a.userKey b.userKey = .lt ∨
      (a.userKey = b.userKey ∧
        (b.seq < a.seq ∨ (b.seq = a.seq ∧ b.tag.code < a.tag.code))) := by
  unfold ikeyCmp
  rw [Ordering.then_eq_lt, Ordering.then_eq_lt]
  simp [Nat.compare_eq_lt, Nat.compare_eq_eq, bytesCmp_eq_iff]

theorem ikeyCmp_eq_iff (a b : InternalKey) : ikeyCmp a b = .eq ↔ a = b := by
  unfold ikeyCmp
  rw [Ordering.then_eq_eq, Ordering.then_eq_eq]
  simp only [Nat.compare_eq_eq, bytesCmp_eq_iff]
  constructor
  · rintro ⟨h1, h2, h3⟩
    cases a
    cases b
    simp_all
    exact (ValueType.code_inj _ _ h3).symm
  · rintro rfl
    exact ⟨rfl, rfl, rfl⟩

theorem ikeyCmp_lt_trans (a b c : InternalKey) (h1 : ikeyCmp a b = .lt)
    (h2 : ikeyCmp b c = .lt) : ikeyCmp a c = .lt := by
  rw [ikeyCmp_lt_iff] at h1 h2 ⊢
  rcases h1 with h1 | ⟨e1, h1⟩ <;> rcases h2 with h2 | ⟨e2, h2⟩
  · exact Or.inl (bytesCmp_lt_trans _ _ _ h1 h2)
  · rw [← e2]
    exact Or.inl h1
  · rw [e1]
    exact Or.inl h2
  · exact Or.inr ⟨e1.trans e2, by omega⟩

theorem ikeyCmp_lt_of_lt_of_ne_gt (a b c : InternalKey)
    (h1 : ikeyCmp a b = .lt) (h2 : ikeyCmp b c ≠ .gt) :
    ikeyCmp a c = .lt := by
  rcases h3 : ikeyCmp b c with _ | _ | _
  · exact ikeyCmp_lt_trans a b c h1 h3
  · rw [(ikeyCmp_eq_iff b c).mp h3] at h1
    exact h1
  · exact absurd h3 h2

/-- An internal key whose user key is at most `sk` is at most the seek
target `(sk, 0, kTypeDeletion)`, the least-ranked internal key of user
key `sk`. -/
theorem ikeyCmp_to_del_ne_gt (a : InternalKey) (sk : Bytes)
    (h : bytesCmp a.userKey sk ≠ .gt) :
    ikeyCmp a ⟨sk, 0, .typeDeletion⟩ ≠ .gt := by
  intro hcon
  unfold ikeyCmp at hcon
  dsimp only at hcon
  rw [Ordering.then_eq_gt] at hcon
  rcases hcon with hgt | ⟨-, hinner⟩
  · exact h hgt
  · rw [Ordering.then_eq_gt] at hinner
    rcases hinner with h3 | ⟨-, h4⟩
    · rw [Nat.compare_eq_gt] at h3
      omega
    · rw [Nat.compare_eq_gt] at h4
      simp [ValueType.code] at h4

/-- First-match characterization of `List.findIdx?` through `entryAt`. -/
theorem findIdx?_entry_spec (l : List RawEntry) (P : RawEntry → Bool) :
    (∀ j, l.findIdx? P = some j → j < l.length ∧ P (entryAt l j) = true ∧
      ∀ k, k < j → ¬ P (entryAt l k) = true) ∧
    (l.findIdx? P = none → ∀ j, j < l.length → ¬ P (entryAt l j) = true) := by
  induction l with
  | nil =>
    exact ⟨fun j h => by simp [List.findIdx?] at h,
      fun _ j hj => by simp at hj⟩
  | cons x xs ih =>
    constructor
    · intro j hj
      rw [List.findIdx?_cons] at hj
      by_cases hx : P x
      · rw [if_pos hx] at hj
        obtain rfl := Option.some_inj.mp hj
        exact ⟨by simp, by simpa [entryAt] using hx, by omega⟩
      · rw [if_neg hx, List.findIdx?_succ, Option.map_eq_some'] at hj
        obtain ⟨m, hm, rfl⟩ := hj
        obtain ⟨h1, h2, h3⟩ := ih.1 m hm
        refine ⟨by simpa using h1, by simpa [entryAt] using h2, ?_⟩
        intro k hk
        cases k with
        | zero => simpa [entryAt] using hx
        | succ k' => simpa [entryAt] using h3 k' (by omega)
    · intro hj j hjl
      rw [List.findIdx?_cons] at hj
      by_cases hx : P x
      · rw [if_pos hx] at hj
        cases hj
      · rw [if_neg hx, List.findIdx?_succ, Option.map_eq_none'] at hj
        cases j with
        | zero => simpa [entryAt] using hx
        | succ j' =>
          have := ih.2 hj j' (by simpa using hjl)
          simpa [entryAt] using this

/-- Landing characterization of the targeted seek. -/
theorem iterSeek_some_spec (es : List RawEntry) (t : InternalKey) (j : Nat)
    (h : iterSeek es t = some j) :
    j < es.length ∧ ikeyCmp (entryAt es j).ikey t ≠ .lt ∧
      ∀ k, k < j → ikeyCmp (entryAt es k).ikey t = .lt := by
  obtain ⟨h1, h2, h3⟩ := (findIdx?_entry_spec es _).1 j h
  refine ⟨h1, by simpa using h2, ?_⟩
  intro k hk
  have := h3 k hk
  simpa using this

theorem iterSeek_none_spec (es : List RawEntry) (t : InternalKey)
    (h : iterSeek es t = none) :
    ∀ j, j < es.length → ikeyCmp (entryAt es j).ikey t = .lt := by
  intro j hj
  have := (findIdx?_entry_spec es _).2 h j hj
  simpa using this

/-- The upper-bound test is monotone in the key. -/
theorem boundExceeded_mono (cfg : Config) (k k' : Bytes)
    (h : boundExceeded cfg k = true) (hk : bytesCmp k k' ≠ .gt) :
    boundExceeded cfg k' = true := by
  unfold boundExceeded at h ⊢
  cases hb : cfg.upperBound with
  | none =>
    rw [hb] at h
    simp at h
  | some b =>
    rw [hb] at h
    simp only [ne_eq, decide_not, Bool.not_eq_true', decide_eq_false_iff_not] at h ⊢
    intro hlt
    exact h (bytesCmp_lt_of_ne_gt_of_lt k k' b hk hlt)

/-- Stepping forward from an in-range index either exhausts the cursor at
the last entry or moves to the next index. -/
theorem iterNext_cases (es : List RawEntry) (i : Nat) (hi : i < es.length) :
    iterNext es (some i) = none ∧ i + 1 = es.length ∨
    iterNext es (some i) = some (i + 1) ∧ i + 1 < es.length := by
  unfold iterNext
  dsimp only
  by_cases h : i + 1 < es.length
  · rw [if_pos h]
    exact Or.inr ⟨rfl, h⟩
  · rw [if_neg h]
    exact Or.inl ⟨rfl, by omega⟩

/-- An entry at most `sk` extends a clear skipped prefix. -/
theorem skipClear_extend_le (cfg : Config) (sk : Bytes) (i : Nat)
    (hclear : SkipClear cfg sk i)
    (hle : bytesCmp (entryAt cfg.entries i).ikey.userKey sk ≠ .gt) :
    SkipClear cfg sk (i + 1) := by
  intro j hj hjl
  rcases Nat.lt_or_ge j i with hji | hji
  · exact hclear j hji hjl
  · left
    have hj : j = i := by omega
    rw [hj]
    exact hle

/-- An invisible entry extends a clear skipped prefix. -/
theorem skipClear_extend_invisible (cfg : Config) (sk : Bytes) (i : Nat)
    (hclear : SkipClear cfg sk i)
    (hinv : cfg.sequence < (entryAt cfg.entries i).ikey.seq) :
    SkipClear cfg sk (i + 1) := by
  intro j hj hjl
  rcases Nat.lt_or_ge j i with hji | hji
  · exact hclear j hji hjl
  · right
    have hj : j = i := by omega
    rw [hj]
    exact hinv

/-- Accepting an entry strictly above the saved key restarts the clear
prefix at the new key. -/
theorem skipClear_extend_gt (cfg : Config) (sk : Bytes) (i : Nat)
    (hclear : SkipClear cfg sk i)
    (hgt : bytesCmp (entryAt cfg.entries i).ikey.userKey sk = .gt) :
    SkipClear cfg (entryAt cfg.entries i).ikey.userKey (i + 1) := by
  intro j hj hjl
  rcases Nat.lt_or_ge j i with hji | hji
  · rcases hclear j hji hjl with hle | hinv
    · left
      have hlt : bytesCmp (entryAt cfg.entries j).ikey.userKey
          (entryAt cfg.entries i).ikey.userKey = .lt :=
        bytesCmp_lt_of_ne_gt_of_lt _ _ _ hle (bytesCmp_lt_of_gt _ _ hgt)
      rw [hlt]
      simp
    · right
      exact hinv
  · left
    have hj : j = i := by omega
    rw [hj, bytesCmp_self]
    simp

/-- An accepted entry (strictly above the saved key) is head-visible when
everything before it was at most the saved key or invisible. -/
theorem headVisible_of_skipClear (cfg : Config) (sk : Bytes) (i : Nat)
    (hi : i < cfg.entries.length) (hclear : SkipClear cfg sk i)
    (hvis : Visible cfg i)
    (hgt : bytesCmp (entryAt cfg.entries i).ikey.userKey sk = .gt) :
    HeadVisible cfg i := by
  refine ⟨hvis, ?_⟩
  intro j hj hk hv
  rcases hclear j hj (lt_trans hj hi) with hle | hinv
  · rw [hk] at hle
    exact hle hgt
  · unfold Visible at hv
    omega

/-- Below a same-key visible head, a skipped entry's key is pinned to the
saved key. -/
theorem key_eq_of_head_below (cfg : Config) (hs : SortedSource cfg.entries)
    (sk : Bytes) (h i : Nat) (hhi : h < i) (hil : i < cfg.entries.length)
    (hhk : (entryAt cfg.entries h).ikey.userKey = sk)
    (hle : bytesCmp (entryAt cfg.entries i).ikey.userKey sk ≠ .gt) :
    (entryAt cfg.entries i).ikey.userKey = sk := by
  have hmono := sorted_key_mono cfg hs h i (Nat.le_of_lt hhi) hil
  rw [hhk] at hmono
  have hnl : bytesCmp (entryAt cfg.entries i).ikey.userKey sk ≠ .lt := by
    intro hlt
    exact hmono (bytesCmp_gt_of_lt _ _ hlt)
  exact (bytesCmp_eq_iff _ _).mp (Ordering.eq_of_ne_lt_ne_gt _ hnl hle)

/-- The spec yields nothing on a contiguous run of entries whose key already
has a visible head before the run. -/
theorem specFrom_skip_range (cfg : Config)
    (f : Bytes → Option Bytes → List Bytes → Bytes) (sk : Bytes) :
    ∀ d a, a + d ≤ cfg.entries.length →
      (∀ j, a ≤ j → j < a + d →
        (entryAt cfg.entries j).ikey.userKey = sk) →
      HasVisibleHead cfg sk a →
      specFrom cfg f a = specFrom cfg f (a + d) := by
  intro d
  induction d with
  | zero => intro a _ _ _; rfl
  | succ d' ih =>
    intro a hlen hkeys hhead
    obtain ⟨h, hha, hhl, hhk, hhv⟩ := hhead
    have hstep : specFrom cfg f a = specFrom cfg f (a + 1) := by
      apply specFrom_skip cfg f a (by omega)
      exact specYield_not_head cfg f a h hha
        (hhk.trans (hkeys a (le_refl a) (by omega)).symm) hhv
    rw [hstep, show a + (d' + 1) = (a + 1) + d' by omega]
    exact ih (a + 1) (by omega)
      (fun j hj1 hj2 => hkeys j (by omega) (by omega))
      ⟨h, by omega, hhl, hhk, hhv⟩

/-- Endpoint form of `specFrom_skip_range`. -/
theorem specFrom_skip_to (cfg : Config)
    (f : Bytes → Option Bytes → List Bytes → Bytes) (sk : Bytes) (a b : Nat)
    (hab : a ≤ b) (hb : b ≤ cfg.entries.length)
    (hkeys : ∀ j, a ≤ j → j < b → (entryAt cfg.entries j).ikey.userKey = sk)
    (hhead : HasVisibleHead cfg sk a) :
    specFrom cfg f a = specFrom cfg f b := by
  have h := specFrom_skip_range cfg f sk (b - a) a (by omega)
    (fun j h1 h2 => hkeys j h1 (by omega)) hhead
  rwa [show a + (b - a) = b by omega] at h

/-- If no position from `a` on yields, the spec tail from `a` is empty. -/
theorem specFrom_nil_of_yields_none (cfg : Config)
    (f : Bytes → Option Bytes → List Bytes → Bytes) :
    ∀ d a, cfg.entries.length ≤ a + d →
      (∀ j, a ≤ j → j < cfg.entries.length → specYield cfg f j = none) →
      specFrom cfg f a = [] := by
  intro d
  induction d with
  | zero => intro a h _; exact specFrom_stop cfg f a h
  | succ d' ih =>
    intro a hlen hnone
    by_cases ha : cfg.entries.length ≤ a
    · exact specFrom_stop cfg f a ha
    · rw [specFrom_skip cfg f a (by omega) (hnone a (le_refl a) (by omega))]
      exact ih (a + 1) (by omega) (fun j h1 h2 => hnone j (by omega) h2)

/-- Once the upper bound is exceeded, the spec yields nothing any more. -/
theorem specFrom_nil_of_bound (cfg : Config)
    (f : Bytes → Option Bytes → List Bytes → Bytes)
    (hs : SortedSource cfg.entries) (i : Nat) (hi : i < cfg.entries.length)
    (hb : boundExceeded cfg (entryAt cfg.entries i).ikey.userKey = true) :
    specFrom cfg f i = [] := by
  apply specFrom_nil_of_yields_none cfg f cfg.entries.length i (by omega)
  intro j h1 h2
  apply specYield_bound
  exact boundExceeded_mono cfg _ _ hb (sorted_key_mono cfg hs i j h1 h2)

/-- `value()` in the plain forward case reads the source value under the
cursor. -/
theorem valueOf_forward_plain (cfg : Config) (st : State) (i : Nat)
    (hd : st.direction = .forward) (hc : st.currentIsMerged = false)
    (hp : st.pos = some i) :
    valueOf cfg st = (entryAt cfg.entries i).value := by
  unfold valueOf curValue
  rw [if_pos ⟨hd, hc⟩, hp]

/-- `value()` for a merged current entry reads the materialized buffer. -/
theorem valueOf_merged (cfg : Config) (st : State)
    (hc : st.currentIsMerged = true) :
    valueOf cfg st = st.savedValue := by
  unfold valueOf
  rw [if_neg (fun hcon => by rw [hc] at hcon; exact Bool.noConfusion hcon.2)]

/-- An internal key below a target of user key `sk` has user key at most
`sk`. -/
theorem key_le_of_ikey_lt_target (a : InternalKey) (sk : Bytes) (s : Nat)
    (t : ValueType) (h : ikeyCmp a ⟨sk, s, t⟩ = .lt) :
    bytesCmp a.userKey sk ≠ .gt := by
  rcases ikeyCmp_lt_userKey _ _ h with h2 | h2
  · rw [h2]
    simp
  · rw [show a.userKey = sk from h2, bytesCmp_self]
    simp

/-- Transport the loop postcondition across a no-yield spec segment. -/
theorem loopResult_mono (cfg : Config)
    (f : Bytes → Option Bytes → List Bytes → Bytes) (p p' : Nat)
    (st' : State) (hbridge : specFrom cfg f p = specFrom cfg f p')
    (hres : (st'.valid = false ∧ specFrom cfg f p' = []) ∨
      ∃ n, ReadyF cfg st' n ∧ specFrom cfg f p' =
        (keyOf st', valueOf cfg st') :: specFrom cfg f n) :
    (st'.valid = false ∧ specFrom cfg f p = []) ∨
      ∃ n, ReadyF cfg st' n ∧ specFrom cfg f p =
        (keyOf st', valueOf cfg st') :: specFrom cfg f n := by
  rcases hres with ⟨hv, hsp⟩ | ⟨n, hrdy, hsp⟩
  · exact Or.inl ⟨hv, hbridge.trans hsp⟩
  · exact Or.inr ⟨n, hrdy, hbridge.trans hsp⟩

/-- The skipping loop of `FindNextUserEntryInternal`, started anywhere with a
prefix of already-skipped entries, terminates and realizes exactly the
specification's yields: either the stream is exhausted (or the bound hit)
with no further yields, or the loop stops at the next logical entry.  The
hypothesis `1 ≤ max_skip_` rules out a zero-threshold livelock that the real
option validation excludes; `num ≤ max_skip_` is the loop invariant of the
skip counter. -/
theorem fnueLoop_spec (cfg : Config)
    (f : Bytes → Option Bytes → List Bytes → Bytes)
    (hs : SortedSource cfg.entries) (hpars : AllParseable cfg.entries)
    (hmo : cfg.mergeOperator = some f) :
    ∀ fuel st num p,
      st.direction = .forward → st.currentIsMerged = false →
      (st.pos = none ∧ p = cfg.entries.length ∨
        st.pos = some p ∧ p < cfg.entries.length) →
      SkipClear cfg st.savedKey p →
      HasVisibleHead cfg st.savedKey p →
      num ≤ st.maxSkip → 1 ≤ st.maxSkip →
      2 * (cfg.entries.length - p) + 2 ≤ fuel →
      ∃ st', findNextUserEntryLoop cfg fuel st true num = some st' ∧
        st'.maxSkip = st.maxSkip ∧
        ((st'.valid = false ∧ specFrom cfg f p = []) ∨
          ∃ n, ReadyF cfg st' n ∧ specFrom cfg f p =
            (keyOf st', valueOf cfg st') :: specFrom cfg f n) := by
  intro fuel
  induction fuel using Nat.strong_induction_on with
  | _ fuel ih =>
    intro st num p hdir hcim hpos hclear hhead hnum hms hfuel
    obtain ⟨m, rfl⟩ : ∃ m, fuel = m + 1 := ⟨fuel - 1, by omega⟩
    rcases hpos with ⟨hnone, rfl⟩ | ⟨hsome, hplen⟩
    · -- cursor exhausted: the loop bails out invalid, spec yields nothing
      exact ⟨{ st with valid := false },
        by simp only [findNextUserEntryLoop, hnone], rfl,
        Or.inl ⟨rfl, specFrom_stop cfg f _ (le_refl _)⟩⟩
    · have hparse := hpars p hplen
      simp only [findNextUserEntryLoop, hsome]
      rw [if_pos hparse]
      by_cases hb : boundExceeded cfg (entryAt cfg.entries p).ikey.userKey = true
      · -- upper bound hit: bail out invalid, and the spec is empty from here
        rw [if_pos hb]
        exact ⟨_, rfl, rfl,
          Or.inl ⟨rfl, specFrom_nil_of_bound cfg f hs p hplen hb⟩⟩
      · rw [if_neg hb]
        have hb' : boundExceeded cfg (entryAt cfg.entries p).ikey.userKey
            = false := Bool.eq_false_iff.mpr hb
        by_cases hvis : (entryAt cfg.entries p).ikey.seq ≤ cfg.sequence
        · rw [if_pos hvis]
          by_cases hskip :
              bytesCmp (entryAt cfg.entries p).ikey.userKey st.savedKey = .gt
          · -- a fresh user key: the entry is accepted according to its tag
            rw [if_neg (fun hc => hc.2 hskip)]
            have hnewclear := skipClear_extend_gt cfg st.savedKey p hclear hskip
            have hhv : HeadVisible cfg p :=
              headVisible_of_skipClear cfg st.savedKey p hplen hclear hvis hskip
            rcases htag : (entryAt cfg.entries p).ikey.tag with _ | _ | _ | _
            · -- deletion: remember the key, restart the skip counter
              simp only []
              rw [if_neg (fun hc => absurd hc.2 (by omega))]
              obtain ⟨st', hrun, hmax, hres⟩ :=
                ih m (by omega)
                  { st with savedKey := (entryAt cfg.entries p).ikey.userKey,
                            pos := iterNext cfg.entries (some p) }
                  0 (p + 1) hdir hcim
                  (by rcases iterNext_cases cfg.entries p hplen with
                        ⟨hnx, hlen⟩ | ⟨hnx, hlen⟩
                      · exact Or.inl ⟨hnx, hlen⟩
                      · exact Or.inr ⟨hnx, hlen⟩)
                  hnewclear ⟨p, by omega, hplen, rfl, hvis⟩
                  (Nat.zero_le _) hms (by omega)
              exact ⟨st', hrun, hmax, loopResult_mono cfg f p (p + 1) st'
                (specFrom_skip cfg f p hplen
                  (specYield_del cfg f p (Or.inl htag))) hres⟩
            · -- put: accepted as-is
              simp only []
              refine ⟨_, rfl, rfl, Or.inr ⟨p + 1,
                ⟨rfl, hdir, by omega, hnewclear,
                  ⟨p, by omega, hplen, rfl, hvis⟩,
                  Or.inl ⟨hcim, p, rfl, rfl, hplen⟩⟩, ?_⟩⟩
              rw [specFrom_yield cfg f p _ hplen
                  (specYield_value cfg f p hhv hb' htag)]
              unfold keyOf valueOf curValue
              dsimp only
              rw [if_pos ⟨hdir, hcim⟩]
            · -- merge: fold the chain via MergeValuesNewToOld
              simp only [mergeValuesNewToOld, hmo, Option.isNone_some,
                Bool.false_eq_true, if_false, hsome]
              obtain ⟨st', q, hrun, hval, hkey, hvalid, hdir', hcim', hmax',
                  hstat', hpok, hq, hpq, hqlen, hkeys⟩ :=
                mergeLoop_spec cfg f hs hpars hmo m (p + 1)
                  { st with savedKey := (entryAt cfg.entries p).ikey.userKey,
                            currentIsMerged := true, valid := true,
                            pos := iterNext cfg.entries (some p) }
                  [(entryAt cfg.entries p).value]
                  (by rcases iterNext_cases cfg.entries p hplen with
                        ⟨hnx, hlen⟩ | ⟨hnx, hlen⟩
                      · exact Or.inl ⟨hnx, hlen⟩
                      · exact Or.inr ⟨hnx, hlen⟩)
                  ⟨p, by omega, hplen, rfl⟩ (by omega)
              refine ⟨st', hrun, hmax', Or.inr ⟨q,
                ⟨hvalid, hdir'.trans hdir, hqlen, ?_,
                  ⟨p, by omega, hplen, by rw [hkey], hvis⟩,
                  Or.inr ⟨hcim', hpok, hq⟩⟩, ?_⟩⟩
              · -- the clear prefix now extends to the whole consumed chain
                rw [hkey]
                intro j hj hjl
                rcases Nat.lt_or_ge j (p + 1) with hji | hji
                · exact hnewclear j hji hjl
                · left
                  rw [hkeys j hji hj, bytesCmp_self]
                  simp
              · rw [specFrom_yield cfg f p _ hplen
                    (specYield_merge cfg f p hhv hb' htag),
                  specFrom_skip_to cfg f
                    (entryAt cfg.entries p).ikey.userKey (p + 1) q hpq hqlen
                    (fun j h1 h2 => hkeys j h1 h2)
                    ⟨p, by omega, hplen, rfl, hvis⟩,
                  valueOf_merged cfg st' hcim', hval]
                unfold keyOf
                rw [hkey]
                rfl
            · -- single deletion: same as deletion
              simp only []
              rw [if_neg (fun hc => absurd hc.2 (by omega))]
              obtain ⟨st', hrun, hmax, hres⟩ :=
                ih m (by omega)
                  { st with savedKey := (entryAt cfg.entries p).ikey.userKey,
                            pos := iterNext cfg.entries (some p) }
                  0 (p + 1) hdir hcim
                  (by rcases iterNext_cases cfg.entries p hplen with
                        ⟨hnx, hlen⟩ | ⟨hnx, hlen⟩
                      · exact Or.inl ⟨hnx, hlen⟩
                      · exact Or.inr ⟨hnx, hlen⟩)
                  hnewclear ⟨p, by omega, hplen, rfl, hvis⟩
                  (Nat.zero_le _) hms (by omega)
              exact ⟨st', hrun, hmax, loopResult_mono cfg f p (p + 1) st'
                (specFrom_skip cfg f p hplen
                  (specYield_del cfg f p (Or.inr htag))) hres⟩
          · -- an already-delivered user key: skip it
            rw [if_pos ⟨trivial, hskip⟩]
            obtain ⟨h, hhp, hhl, hhk, hhv2⟩ := hhead
            have hkeq : (entryAt cfg.entries p).ikey.userKey = st.savedKey :=
              key_eq_of_head_below cfg hs st.savedKey h p hhp hplen hhk hskip
            have hbridge1 : specFrom cfg f p = specFrom cfg f (p + 1) :=
              specFrom_skip cfg f p hplen
                (specYield_not_head cfg f p h hhp (hhk.trans hkeq.symm) hhv2)
            by_cases hre : num + 1 > st.maxSkip
            · -- too many sequential skips: reseek to (saved_key_, 0, Del)
              rw [if_pos ⟨trivial, hre⟩]
              cases hseek :
                  iterSeek cfg.entries ⟨st.savedKey, 0, .typeDeletion⟩ with
              | none =>
                -- every entry is below the target: the rest of the stream
                -- carries the saved key and is exhausted
                have hall := iterSeek_none_spec _ _ hseek
                obtain ⟨st', hrun, hmax, hres⟩ :=
                  ih m (by omega)
                    { st with pos := none }
                    0 cfg.entries.length hdir hcim (Or.inl ⟨rfl, rfl⟩)
                    (fun j hj hjl => Or.inl
                      (key_le_of_ikey_lt_target _ _ _ _ (hall j hjl)))
                    ⟨h, by omega, hhl, hhk, hhv2⟩
                    (Nat.zero_le _) hms (by omega)
                exact ⟨st', hrun, hmax,
                  loopResult_mono cfg f p cfg.entries.length st'
                    (specFrom_skip_to cfg f st.savedKey p cfg.entries.length
                      (by omega) (le_refl _)
                      (fun j h1 h2 => key_eq_of_head_below cfg hs st.savedKey
                        h j (by omega) h2 hhk
                        (key_le_of_ikey_lt_target _ _ _ _ (hall j h2)))
                      ⟨h, hhp, hhl, hhk, hhv2⟩) hres⟩
              | some j =>
                obtain ⟨hjlen, hjge, hjlt⟩ := iterSeek_some_spec _ _ j hseek
                have hple : ikeyCmp (entryAt cfg.entries p).ikey
                    ⟨st.savedKey, 0, .typeDeletion⟩ ≠ .gt :=
                  ikeyCmp_to_del_ne_gt _ _
                    (by rw [hkeq, bytesCmp_self]; simp)
                have hpj : p ≤ j := by
                  by_contra hcon
                  push_neg at hcon
                  exact hjge (ikeyCmp_lt_of_lt_of_ne_gt _ _ _
                    (hs j (by omega) p hplen hcon) hple)
                rcases Nat.eq_or_lt_of_le hpj with heq | hplt
                · -- the reseek lands exactly on the current entry: it is the
                  -- final (seq 0, deletion) version of the saved key, and it
                  -- is consumed by one further skip iteration
                  subst heq
                  have hikeq : (entryAt cfg.entries p).ikey =
                      ⟨st.savedKey, 0, .typeDeletion⟩ :=
                    (ikeyCmp_eq_iff _ _).mp
                      (Ordering.eq_of_ne_lt_ne_gt _ hjge hple)
                  obtain ⟨m2, rfl⟩ : ∃ m2, m = m2 + 1 := ⟨m - 1, by omega⟩
                  simp only [findNextUserEntryLoop, hseek]
                  rw [if_pos hparse, if_neg hb,
                    if_pos (show (entryAt cfg.entries p).ikey.seq ≤
                      cfg.sequence by rw [hikeq]; exact Nat.zero_le _),
                    if_pos ⟨trivial, show bytesCmp
                      (entryAt cfg.entries p).ikey.userKey st.savedKey ≠ .gt
                      by rw [hkeq, bytesCmp_self]; simp⟩,
                    if_neg (fun hc => absurd hc.2 (by omega))]
                  obtain ⟨st', hrun, hmax, hres⟩ :=
                    ih m2 (by omega)
                      { st with pos := iterNext cfg.entries (some p) }
                      1 (p + 1) hdir hcim
                      (by rcases iterNext_cases cfg.entries p hplen with
                            ⟨hnx, hlen⟩ | ⟨hnx, hlen⟩
                          · exact Or.inl ⟨hnx, hlen⟩
                          · exact Or.inr ⟨hnx, hlen⟩)
                      (skipClear_extend_le cfg st.savedKey p hclear
                        (by rw [hkeq, bytesCmp_self]; simp))
                      ⟨h, by omega, hhl, hhk, hhv2⟩ hms hms (by omega)
                  exact ⟨st', hrun, hmax,
                    loopResult_mono cfg f p (p + 1) st' hbridge1 hres⟩
                · -- the reseek jumps strictly forward over same-key entries
                  obtain ⟨st', hrun, hmax, hres⟩ :=
                    ih m (by omega)
                      { st with pos := some j }
                      0 j hdir hcim (Or.inr ⟨rfl, hjlen⟩)
                      (fun k hk hkl => Or.inl
                        (key_le_of_ikey_lt_target _ _ _ _ (hjlt k hk)))
                      ⟨h, by omega, hhl, hhk, hhv2⟩
                      (Nat.zero_le _) hms (by omega)
                  exact ⟨st', hrun, hmax, loopResult_mono cfg f p j st'
                    (specFrom_skip_to cfg f st.savedKey p j (by omega)
                      (by omega)
                      (fun k h1 h2 => key_eq_of_head_below cfg hs st.savedKey
                        h k (by omega) (by omega) hhk
                        (key_le_of_ikey_lt_target _ _ _ _ (hjlt k h2)))
                      ⟨h, hhp, hhl, hhk, hhv2⟩) hres⟩
            · -- below the reseek threshold: plain forward step
              rw [if_neg (fun hc => hre hc.2)]
              obtain ⟨st', hrun, hmax, hres⟩ :=
                ih m (by omega)
                  { st with pos := iterNext cfg.entries (some p) }
                  (num + 1) (p + 1) hdir hcim
                  (by rcases iterNext_cases cfg.entries p hplen with
                        ⟨hnx, hlen⟩ | ⟨hnx, hlen⟩
                      · exact Or.inl ⟨hnx, hlen⟩
                      · exact Or.inr ⟨hnx, hlen⟩)
                  (skipClear_extend_le cfg st.savedKey p hclear hskip)
                  ⟨h, by omega, hhl, hhk, hhv2⟩
                  (show num + 1 ≤ st.maxSkip by omega) hms (by omega)
              exact ⟨st', hrun, hmax,
                loopResult_mono cfg f p (p + 1) st' hbridge1 hres⟩
        · -- invisible entry: plain forward step, counter unchanged
          rw [if_neg hvis, if_neg (fun hc => absurd hc.2 (by omega))]
          obtain ⟨st', hrun, hmax, hres⟩ :=
            ih m (by omega)
              { st with pos := iterNext cfg.entries (some p) } num (p + 1)
              hdir hcim
              (by rcases iterNext_cases cfg.entries p hplen with
                    ⟨hnx, hlen⟩ | ⟨hnx, hlen⟩
                  · exact Or.inl ⟨hnx, hlen⟩
                  · exact Or.inr ⟨hnx, hlen⟩)
              (skipClear_extend_invisible cfg st.savedKey p hclear (by omega))
              (by obtain ⟨h, hhp, hhl, hhk, hhv2⟩ := hhead
                  exact ⟨h, by omega, hhl, hhk, hhv2⟩)
              hnum hms (by omega)
          exact ⟨st', hrun, hmax, loopResult_mono cfg f p (p + 1) st'
            (specFrom_skip cfg f p hplen (specYield_not_visible cfg f p hvis))
            hres⟩

/-- In a sorted stream the prefix before a freshly accepted entry is always
clear for that entry's key. -/
theorem skipClear_self (cfg : Config) (hs : SortedSource cfg.entries)
    (i : Nat) (hi : i < cfg.entries.length) :
    SkipClear cfg (entryAt cfg.entries i).ikey.userKey (i + 1) :=
  fun j hj hjl =>
    Or.inl (sorted_key_mono cfg hs j i (by omega) hi)

/-- After a positioning call, the first visible entry reached is
head-visible. -/
theorem headVisible_of_noRevisit (cfg : Config) (p : Nat)
    (hp : p < cfg.entries.length) (hnr : NoRevisit cfg p)
    (hvis : Visible cfg p) : HeadVisible cfg p := by
  refine ⟨hvis, ?_⟩
  intro j hj hk hv
  rcases hnr j hj (by omega) with hinv | hrec
  · unfold Visible at hv
    omega
  · exact hrec p (le_refl p) hp hk.symm

/-- The non-skipping mode of the `FindNextUserEntryInternal` loop, entered
right after a positioning call: it steps past invisible entries and accepts
the first visible one; a tombstone there switches to skipping mode. -/
theorem fnueLoop0_spec (cfg : Config)
    (f : Bytes → Option Bytes → List Bytes → Bytes)
    (hs : SortedSource cfg.entries) (hpars : AllParseable cfg.entries)
    (hmo : cfg.mergeOperator = some f) :
    ∀ fuel st num p,
      st.direction = .forward → st.currentIsMerged = false →
      (st.pos = none ∧ p = cfg.entries.length ∨
        st.pos = some p ∧ p < cfg.entries.length) →
      NoRevisit cfg p →
      1 ≤ st.maxSkip →
      2 * (cfg.entries.length - p) + 2 ≤ fuel →
      ∃ st', findNextUserEntryLoop cfg fuel st false num = some st' ∧
        st'.maxSkip = st.maxSkip ∧
        ((st'.valid = false ∧ specFrom cfg f p = []) ∨
          ∃ n, ReadyF cfg st' n ∧ specFrom cfg f p =
            (keyOf st', valueOf cfg st') :: specFrom cfg f n) := by
  intro fuel
  induction fuel with
  | zero =>
    intro st num p _ _ _ _ _ hfuel
    omega
  | succ m ih =>
    intro st num p hdir hcim hpos hnr hms hfuel
    rcases hpos with ⟨hnone, rfl⟩ | ⟨hsome, hplen⟩
    · exact ⟨{ st with valid := false },
        by simp only [findNextUserEntryLoop, hnone], rfl,
        Or.inl ⟨rfl, specFrom_stop cfg f _ (le_refl _)⟩⟩
    · have hparse := hpars p hplen
      simp only [findNextUserEntryLoop, hsome]
      rw [if_pos hparse]
      by_cases hb : boundExceeded cfg (entryAt cfg.entries p).ikey.userKey = true
      · rw [if_pos hb]
        exact ⟨_, rfl, rfl,
          Or.inl ⟨rfl, specFrom_nil_of_bound cfg f hs p hplen hb⟩⟩
      · rw [if_neg hb]
        have hb' : boundExceeded cfg (entryAt cfg.entries p).ikey.userKey
            = false := Bool.eq_false_iff.mpr hb
        by_cases hvis : (entryAt cfg.entries p).ikey.seq ≤ cfg.sequence
        · rw [if_pos hvis,
            if_neg (fun hc => by have h1 := hc.1; simp at h1)]
          have hhv : HeadVisible cfg p :=
            headVisible_of_noRevisit cfg p hplen hnr hvis
          rcases htag : (entryAt cfg.entries p).ikey.tag with _ | _ | _ | _
          · -- deletion: remember the key and enter skipping mode
            simp only []
            rw [if_neg (fun hc => absurd hc.2 (by omega))]
            obtain ⟨st', hrun, hmax, hres⟩ :=
              fnueLoop_spec cfg f hs hpars hmo m
                { st with savedKey := (entryAt cfg.entries p).ikey.userKey,
                          pos := iterNext cfg.entries (some p) }
                0 (p + 1) hdir hcim
                (by rcases iterNext_cases cfg.entries p hplen with
                      ⟨hnx, hlen⟩ | ⟨hnx, hlen⟩
                    · exact Or.inl ⟨hnx, hlen⟩
                    · exact Or.inr ⟨hnx, hlen⟩)
                (skipClear_self cfg hs p hplen)
                ⟨p, by omega, hplen, rfl, hvis⟩
                (Nat.zero_le _) hms (by omega)
            exact ⟨st', hrun, hmax, loopResult_mono cfg f p (p + 1) st'
              (specFrom_skip cfg f p hplen
                (specYield_del cfg f p (Or.inl htag))) hres⟩
          · -- put: accepted as-is
            simp only []
            refine ⟨_, rfl, rfl, Or.inr ⟨p + 1,
              ⟨rfl, hdir, by omega, skipClear_self cfg hs p hplen,
                ⟨p, by omega, hplen, rfl, hvis⟩,
                Or.inl ⟨hcim, p, rfl, rfl, hplen⟩⟩, ?_⟩⟩
            rw [specFrom_yield cfg f p _ hplen
                (specYield_value cfg f p hhv hb' htag)]
            unfold keyOf valueOf curValue
            dsimp only
            rw [if_pos ⟨hdir, hcim⟩]
          · -- merge: fold the chain via MergeValuesNewToOld
            simp only [mergeValuesNewToOld, hmo, Option.isNone_some,
              Bool.false_eq_true, if_false, hsome]
            obtain ⟨st', q, hrun, hval, hkey, hvalid, hdir', hcim', hmax',
                hstat', hpok, hq, hpq, hqlen, hkeys⟩ :=
              mergeLoop_spec cfg f hs hpars hmo m (p + 1)
                { st with savedKey := (entryAt cfg.entries p).ikey.userKey,
                          currentIsMerged := true, valid := true,
                          pos := iterNext cfg.entries (some p) }
                [(entryAt cfg.entries p).value]
                (by rcases iterNext_cases cfg.entries p hplen with
                      ⟨hnx, hlen⟩ | ⟨hnx, hlen⟩
                    · exact Or.inl ⟨hnx, hlen⟩
                    · exact Or.inr ⟨hnx, hlen⟩)
                ⟨p, by omega, hplen, rfl⟩ (by omega)
            refine ⟨st', hrun, hmax', Or.inr ⟨q,
              ⟨hvalid, hdir'.trans hdir, hqlen, ?_,
                ⟨p, by omega, hplen, by rw [hkey], hvis⟩,
                Or.inr ⟨hcim', hpok, hq⟩⟩, ?_⟩⟩
            · rw [hkey]
              intro j hj hjl
              rcases Nat.lt_or_ge j (p + 1) with hji | hji
              · exact skipClear_self cfg hs p hplen j hji hjl
              · left
                rw [hkeys j hji hj, bytesCmp_self]
                simp
            · rw [specFrom_yield cfg f p _ hplen
                  (specYield_merge cfg f p hhv hb' htag),
                specFrom_skip_to cfg f
                  (entryAt cfg.entries p).ikey.userKey (p + 1) q hpq hqlen
                  (fun j h1 h2 => hkeys j h1 h2)
                  ⟨p, by omega, hplen, rfl, hvis⟩,
                valueOf_merged cfg st' hcim', hval]
              unfold keyOf
              rw [hkey]
              rfl
          · -- single deletion: same as deletion
            simp only []
            rw [if_neg (fun hc => absurd hc.2 (by omega))]
            obtain ⟨st', hrun, hmax, hres⟩ :=
              fnueLoop_spec cfg f hs hpars hmo m
                { st with savedKey := (entryAt cfg.entries p).ikey.userKey,
                          pos := iterNext cfg.entries (some p) }
                0 (p + 1) hdir hcim
                (by rcases iterNext_cases cfg.entries p hplen with
                      ⟨hnx, hlen⟩ | ⟨hnx, hlen⟩
                    · exact Or.inl ⟨hnx, hlen⟩
                    · exact Or.inr ⟨hnx, hlen⟩)
                (skipClear_self cfg hs p hplen)
                ⟨p, by omega, hplen, rfl, hvis⟩
                (Nat.zero_le _) hms (by omega)
            exact ⟨st', hrun, hmax, loopResult_mono cfg f p (p + 1) st'
              (specFrom_skip cfg f p hplen
                (specYield_del cfg f p (Or.inr htag))) hres⟩
        · -- invisible entry: step forward without accepting
          rw [if_neg hvis,
            if_neg (fun hc => by have h1 := hc.1; simp at h1)]
          obtain ⟨st', hrun, hmax, hres⟩ :=
            ih { st with pos := iterNext cfg.entries (some p) } num (p + 1)
              hdir hcim
              (by rcases iterNext_cases cfg.entries p hplen with
                    ⟨hnx, hlen⟩ | ⟨hnx, hlen⟩
                  · exact Or.inl ⟨hnx, hlen⟩
                  · exact Or.inr ⟨hnx, hlen⟩)
              (by intro j hj hjl
                  rcases Nat.lt_or_ge j p with hjp | hjp
                  · rcases hnr j hjp hjl with hinv | hrec
                    · exact Or.inl hinv
                    · exact Or.inr (fun j' hj' hjl' =>
                        hrec j' (by omega) hjl')
                  · left
                    have hj : j = p := by omega
                    rw [hj]
                    omega)
              hms (by omega)
          exact ⟨st', hrun, hmax, loopResult_mono cfg f p (p + 1) st'
            (specFrom_skip cfg f p hplen (specYield_not_visible cfg f p hvis))
            hres⟩

/-- Without a prefix extractor the prefix check is the identity. -/
theorem prefixCheck_none (cfg : Config) (hpe : cfg.prefixExtractor = none)
    (s : State) : prefixCheck cfg s = s := by
  unfold prefixCheck
  rw [hpe]

/-- Without a prefix extractor the prefix-lock assignment is the identity. -/
theorem prefixFromSavedKey_none (cfg : Config)
    (hpe : cfg.prefixExtractor = none) (s : State) :
    prefixFromSavedKey cfg s = s := by
  unfold prefixFromSavedKey
  rw [hpe]

/-- Without a prefix extractor `max_skip_` is left alone by the seeks. -/
theorem seekMaxSkip_none (cfg : Config) (hpe : cfg.prefixExtractor = none)
    (m : Nat) : seekMaxSkip cfg m = m := by
  unfold seekMaxSkip
  rw [hpe]
  rfl

/-- `SeekToFirst` resolves the first logical entry of the whole stream (or
invalidates the iterator when there is none). -/
theorem seekToFirstOp_spec (cfg : Config)
    (f : Bytes → Option Bytes → List Bytes → Bytes)
    (hs : SortedSource cfg.entries) (hpars : AllParseable cfg.entries)
    (hmo : cfg.mergeOperator = some f) (hpe : cfg.prefixExtractor = none)
    (fuel : Nat) (st : State) (hms : 1 ≤ st.maxSkip)
    (hfuel : 2 * cfg.entries.length + 2 ≤ fuel) :
    ∃ st', seekToFirstOp cfg fuel st = some st' ∧
      st'.maxSkip = st.maxSkip ∧
      ((st'.valid = false ∧ specForwardScan cfg f = []) ∨
        ∃ n, ReadyF cfg st' n ∧ specForwardScan cfg f =
          (keyOf st', valueOf cfg st') :: specFrom cfg f n) := by
  unfold seekToFirstOp
  cases hfst : iterSeekToFirst cfg.entries with
  | none =>
    have hlen : cfg.entries.length = 0 := by
      unfold iterSeekToFirst at hfst
      by_cases he : cfg.entries.isEmpty = true
      · rw [List.isEmpty_iff.mp he]
        rfl
      · rw [if_neg he] at hfst
        cases hfst
    rw [prefixFromSavedKey_none cfg hpe]
    refine ⟨_, rfl, ?_, Or.inl ⟨rfl, ?_⟩⟩
    · exact seekMaxSkip_none cfg hpe st.maxSkip
    · exact specFrom_stop cfg f 0 (by omega)
  | some i =>
    have hne : ¬ cfg.entries.isEmpty = true ∧ i = 0 := by
      unfold iterSeekToFirst at hfst
      by_cases he : cfg.entries.isEmpty = true
      · rw [if_pos he] at hfst
        cases hfst
      · rw [if_neg he] at hfst
        exact ⟨he, (Option.some_inj.mp hfst).symm⟩
    obtain ⟨hne, rfl⟩ := hne
    have hlen : 0 < cfg.entries.length := by
      rcases hcs : cfg.entries with _ | ⟨e, es⟩
      · rw [hcs] at hne
        simp at hne
      · simp [hcs]
    simp only [findNextUserEntry]
    obtain ⟨st', hrun, hmax, hres⟩ :=
      fnueLoop0_spec cfg f hs hpars hmo fuel
        { st with maxSkip := seekMaxSkip cfg st.maxSkip,
                  direction := Direction.forward, savedValue := [],
                  pos := some 0, currentIsMerged := false }
        0 0 rfl rfl (Or.inr ⟨rfl, hlen⟩)
        (fun j hj _ => absurd hj (by omega))
        (by rw [seekMaxSkip_none cfg hpe]; exact hms)
        (by omega)
    rw [hrun]
    refine ⟨prefixFromSavedKey cfg st', rfl, ?_, ?_⟩
    · rw [prefixFromSavedKey_none cfg hpe, hmax, seekMaxSkip_none cfg hpe]
    · rw [prefixFromSavedKey_none cfg hpe]
      exact hres

/-- `Next` from a forward post-resolution state delivers the next logical
entry (or invalidates the iterator at the end of the stream). -/
theorem nextOp_spec (cfg : Config)
    (f : Bytes → Option Bytes → List Bytes → Bytes)
    (hs : SortedSource cfg.entries) (hpars : AllParseable cfg.entries)
    (hmo : cfg.mergeOperator = some f) (hpe : cfg.prefixExtractor = none)
    (fuel : Nat) (st : State) (n : Nat) (hrdy : ReadyF cfg st n)
    (hms : 1 ≤ st.maxSkip) (hfuel : 2 * cfg.entries.length + 2 ≤ fuel) :
    ∃ st', nextOp cfg fuel st = some st' ∧ st'.maxSkip = st.maxSkip ∧
      ((st'.valid = false ∧ specFrom cfg f n = []) ∨
        ∃ n2, ReadyF cfg st' n2 ∧ specFrom cfg f n =
          (keyOf st', valueOf cfg st') :: specFrom cfg f n2) := by
  obtain ⟨hv, hdir, hnlen, hclear, hhead, hbranch⟩ := hrdy
  unfold nextOp
  rw [if_neg (fun hc => by rw [hv] at hc; cases hc),
    if_neg (fun hc => by rw [hdir] at hc; cases hc)]
  rcases hbranch with ⟨hcim, y, hposy, rfl, hylen⟩ | ⟨hcim, hpok, hq⟩
  · -- plain current entry: the cursor advances before scanning
    rw [if_pos ⟨by rw [hposy]; simp, hcim⟩, hposy]
    rcases iterNext_cases cfg.entries y hylen with ⟨hnx, hlen⟩ | ⟨hnx, hlen⟩
    · -- stream exhausted
      rw [hnx]
      simp only [nextTail]
      exact ⟨_, rfl, rfl,
        Or.inl ⟨rfl, specFrom_stop cfg f (y + 1) (by omega)⟩⟩
    · rw [hnx]
      simp only [nextTail, findNextUserEntry]
      obtain ⟨st', hrun, hmax, hres⟩ :=
        fnueLoop_spec cfg f hs hpars hmo fuel
          { st with pos := some (y + 1), currentIsMerged := false }
          0 (y + 1) hdir rfl (Or.inr ⟨rfl, hlen⟩) hclear hhead
          (Nat.zero_le _) hms (by omega)
      rw [hrun]
      refine ⟨prefixCheck cfg st', rfl, ?_, ?_⟩
      · rw [prefixCheck_none cfg hpe, hmax]
      · rw [prefixCheck_none cfg hpe]
        exact hres
  · -- merged current entry: the cursor is already past it
    rw [if_neg (fun hc => by rw [hcim] at hc; exact Bool.noConfusion hc.2)]
    rcases hpok with hpn | ⟨y, hposy, hylen⟩
    · -- exhausted during merge collection
      rw [hpn] at hq
      simp only [nextTail, hpn]
      exact ⟨_, rfl, rfl,
        Or.inl ⟨rfl, specFrom_stop cfg f n (by rw [← hq]; rfl)⟩⟩
    · have hyn : y = n := by rw [hposy] at hq; exact hq
      subst hyn
      simp only [nextTail, hposy, findNextUserEntry]
      obtain ⟨st', hrun, hmax, hres⟩ :=
        fnueLoop_spec cfg f hs hpars hmo fuel
          { st with pos := some y, currentIsMerged := false }
          0 y hdir rfl (Or.inr ⟨rfl, hylen⟩) hclear hhead
          (Nat.zero_le _) hms (by omega)
      rw [hrun]
      refine ⟨prefixCheck cfg st', rfl, ?_, ?_⟩
      · rw [prefixCheck_none cfg hpe, hmax]
      · rw [prefixCheck_none cfg hpe]
        exact hres

/-- Collecting by repeated `Next` from a post-resolution state returns the
current pair followed by all remaining spec yields. -/
theorem scanForwardAux_spec (cfg : Config)
    (f : Bytes → Option Bytes → List Bytes → Bytes)
    (hs : SortedSource cfg.entries) (hpars : AllParseable cfg.entries)
    (hmo : cfg.mergeOperator = some f) (hpe : cfg.prefixExtractor = none)
    (fuel : Nat) (hfuel : 2 * cfg.entries.length + 2 ≤ fuel) :
    ∀ steps st n, ReadyF cfg st n → 1 ≤ st.maxSkip →
      (specFrom cfg f n).length + 2 ≤ steps →
      scanForwardAux cfg fuel steps st =
        some ((keyOf st, valueOf cfg st) :: specFrom cfg f n) := by
  intro steps
  induction steps with
  | zero =>
    intro st n _ _ hsteps
    omega
  | succ s ih =>
    intro st n hrdy hms hsteps
    obtain ⟨st', hnext, hmax, hres⟩ :=
      nextOp_spec cfg f hs hpars hmo hpe fuel st n hrdy hms hfuel
    rcases hres with ⟨hv2, hsp⟩ | ⟨n2, hrdy2, hsp⟩
    · obtain ⟨s2, rfl⟩ : ∃ s2, s = s2 + 1 := ⟨s - 1, by omega⟩
      simp only [scanForwardAux, hrdy.1, if_true, hnext, hv2,
        Bool.false_eq_true, if_false, hsp]
    · have hrec := ih st' n2 hrdy2 (by rw [hmax]; exact hms)
        (by rw [hsp] at hsteps; simp at hsteps; omega)
      simp only [scanForwardAux, hrdy.1, if_true, hnext, hrec, hsp]

/-- Inversion of a produced spec yield. -/
theorem specYield_some_inv (cfg : Config)
    (f : Bytes → Option Bytes → List Bytes → Bytes) (i : Nat)
    (k v : Bytes) (h : specYield cfg f i = some (k, v)) :
    k = (entryAt cfg.entries i).ikey.userKey ∧ HeadVisible cfg i ∧
      boundExceeded cfg (entryAt cfg.entries i).ikey.userKey = false ∧
      yieldValue cfg f i = some v := by
  unfold specYield at h
  split at h
  · next hc =>
    rw [Option.map_eq_some'] at h
    obtain ⟨w, hw, heq⟩ := h
    obtain ⟨hk, hv⟩ := Prod.mk.injEq .. |>.mp heq
    exact ⟨hk.symm, hc.1, hc.2, hv ▸ hw⟩
  · cases h

/-- All same-key entries after a visible entry are visible, so the merge
chain can drop the visibility test. -/
theorem filter_visible_tail (cfg : Config) (hs : SortedSource cfg.entries)
    (i : Nat) (hi : i < cfg.entries.length) (hvis : Visible cfg i)
    (k : Bytes) (hk : (entryAt cfg.entries i).ikey.userKey = k) :
    (cfg.entries.drop (i + 1)).filter
        (fun e => e.ikey.userKey = k ∧ e.ikey.seq ≤ cfg.sequence) =
      chainAfter cfg i := by
  unfold chainAfter
  apply List.filter_congr
  intro e he
  rw [List.mem_iff_getElem] at he
  obtain ⟨q, hq, rfl⟩ := he
  have hq' : i + 1 + q < cfg.entries.length := by
    rw [List.length_drop] at hq
    omega
  rw [List.getElem_drop, ← entryAt_eq_getElem cfg.entries (i + 1 + q) hq']
  by_cases hke : (entryAt cfg.entries (i + 1 + q)).ikey.userKey = k
  · have hvq : Visible cfg (i + 1 + q) :=
      sorted_visible_tail cfg hs i (i + 1 + q) (by omega) hq'
        (by rw [hk, hke]) hvis
    unfold Visible at hvq
    simp [hke, hvq, hk]
  · simp [hke, hk]

/-- The visible chain of a head-visible entry's key is the entry followed by
its same-key suffix. -/
theorem visibleEntries_head (cfg : Config) (hs : SortedSource cfg.entries)
    (i : Nat) (hi : i < cfg.entries.length) (hh : HeadVisible cfg i) :
    visibleEntries cfg (entryAt cfg.entries i).ikey.userKey =
      entryAt cfg.entries i :: chainAfter cfg i := by
  unfold visibleEntries
  rw [filter_eq_head_cons _ _ i hi ?hbef ?hP]
  case hP =>
    have hv := hh.1
    unfold Visible at hv
    simp [hv]
  case hbef =>
    intro j hj
    simp only [decide_eq_true_eq, not_and]
    intro hk hv
    exact hh.2 j hj hk hv
  congr 1
  exact filter_visible_tail cfg hs i hi hh.1 _ rfl

/-- A spec yield resolves its key exactly as the per-key resolver does. -/
theorem specYield_resolveKey (cfg : Config) (hs : SortedSource cfg.entries)
    (f : Bytes → Option Bytes → List Bytes → Bytes) (i : Nat) (k v : Bytes)
    (hi : i < cfg.entries.length) (h : specYield cfg f i = some (k, v)) :
    resolveKey cfg f k = some v := by
  obtain ⟨rfl, hh, hb, hy⟩ := specYield_some_inv cfg f i k v h
  unfold resolveKey
  rw [visibleEntries_head cfg hs i hi hh]
  unfold yieldValue at hy
  exact hy

/-- Conversely, a key the per-key resolver maps to a value is yielded at the
position of its visible head. -/
theorem resolveKey_specYield (cfg : Config) (hs : SortedSource cfg.entries)
    (f : Bytes → Option Bytes → List Bytes → Bytes) (k v : Bytes)
    (hbk : boundExceeded cfg k = false)
    (h : resolveKey cfg f k = some v) :
    ∃ i, i < cfg.entries.length ∧ specYield cfg f i = some (k, v) := by
  unfold resolveKey at h
  cases hve : visibleEntries cfg k with
  | nil =>
    rw [hve] at h
    cases h
  | cons e rest =>
    rw [hve] at h
    unfold visibleEntries at hve
    obtain ⟨i, hi, hei, hPe, hbef, hrest⟩ := filter_eq_cons_inv _ _ _ _ hve
    have hei' : entryAt cfg.entries i = e := hei
    simp only [decide_eq_true_eq] at hPe
    obtain ⟨hke, hvse⟩ := hPe
    have hh : HeadVisible cfg i := by
      refine ⟨?_, ?_⟩
      · unfold Visible
        rw [hei']
        exact hvse
      · intro j hj hkj hvj
        have hb := hbef j hj
        apply hb
        simp only [decide_eq_true_eq]
        refine ⟨by rw [hkj, hei', hke], ?_⟩
        unfold Visible at hvj
        exact hvj
    have hbound : boundExceeded cfg (entryAt cfg.entries i).ikey.userKey
        = false := by
      rw [hei']
      rw [hke]
      exact hbk
    simp only [] at h
    refine ⟨i, hi, ?_⟩
    unfold specYield
    rw [if_pos ⟨hh, hbound⟩]
    unfold yieldValue
    rw [hei']
    have hchain : chainAfter cfg i = rest := by
      rw [hrest]
      exact (filter_visible_tail cfg hs i hi hh.1 k
        (by rw [hei']; exact hke)).symm
    rcases htag : e.ikey.tag with _ | _ | _ | _ <;> rw [htag] at h
    · simp at h
    · obtain rfl := Option.some_inj.mp h
      simp [hke]
    · obtain rfl := Option.some_inj.mp h
      simp only [Option.map_some']
      rw [hchain, hke]
    · simp at h

/-- Keys yielded by the spec are strictly increasing. -/
theorem specFrom_pairwise (cfg : Config) (hs : SortedSource cfg.entries)
    (f : Bytes → Option Bytes → List Bytes → Bytes) (p : Nat) :
    (specFrom cfg f p).Pairwise (fun a b => bytesCmp a.1 b.1 = .lt) := by
  unfold specFrom
  apply List.pairwise_filterMap.mpr
  have hpw : (List.range' p (cfg.entries.length - p)).Pairwise (· < ·) :=
    List.pairwise_lt_range' p _ 1 (by omega)
  apply hpw.imp_of_mem
  intro a b ha hb hab x hx y hy
  rw [Option.mem_def] at hx hy
  have hal : a < cfg.entries.length := by
    have := List.mem_range'_1.mp ha
    omega
  have hbl : b < cfg.entries.length := by
    have := List.mem_range'_1.mp hb
    omega
  obtain ⟨hxk, hxh, -, -⟩ := specYield_some_inv cfg f a x.1 x.2 (by rw [hx])
  obtain ⟨hyk, hyh, -, -⟩ := specYield_some_inv cfg f b y.1 y.2 (by rw [hy])
  rw [hxk, hyk]
  have hmono := sorted_key_mono cfg hs a b (by omega) hbl
  rcases hcmp : bytesCmp (entryAt cfg.entries a).ikey.userKey
      (entryAt cfg.entries b).ikey.userKey with _ | _ | _
  · rfl
  · exact absurd hxh.1 (hyh.2 a hab ((bytesCmp_eq_iff _ _).mp hcmp))
  · exact absurd hcmp hmono

/-- Keys of the full declarative scan are strictly increasing. -/
theorem specForwardScan_chain (cfg : Config) (hs : SortedSource cfg.entries)
    (f : Bytes → Option Bytes → List Bytes → Bytes) :
    (specForwardScan cfg f).Chain' (fun a b => bytesCmp a.1 b.1 = .lt) :=
  (specFrom_pairwise cfg hs f 0).chain'

/-- Without a prefix extractor the `Seek` prefix-lock assignment is the
identity. -/
theorem prefixFromTarget_none (cfg : Config)
    (hpe : cfg.prefixExtractor = none) (t : Bytes) (s : State) :
    prefixFromTarget cfg t s = s := by
  unfold prefixFromTarget
  rw [hpe]

theorem ValueType.code_le (v : ValueType) : v.code ≤ 7 := by
  cases v <;> decide

/-- Decomposition of "strictly before the `Seek` target
`(t, snapshot, kValueTypeForSeek)`": the user key is smaller, or it equals
`t` and the entry is invisible under the snapshot. -/
theorem ikey_lt_seek_target (e : InternalKey) (t : Bytes) (S : Nat)
    (h : ikeyCmp e ⟨t, S, kValueTypeForSeek⟩ = .lt) :
    bytesCmp e.userKey t = .lt ∨ (e.userKey = t ∧ S < e.seq) := by
  rw [ikeyCmp_lt_iff] at h
  rcases h with h | ⟨he, h2⟩
  · exact Or.inl h
  · right
    refine ⟨he, ?_⟩
    rcases h2 with h2 | ⟨-, h3⟩
    · exact h2
    · have h4 : 7 < e.tag.code := h3
      have h5 := ValueType.code_le e.tag
      omega

/-- An entry at or after the `Seek` target has user key at least `t`. -/
theorem ikey_ge_seek_target (e : InternalKey) (t : Bytes) (S : Nat)
    (h : ikeyCmp e ⟨t, S, kValueTypeForSeek⟩ ≠ .lt) :
    bytesCmp e.userKey t ≠ .lt := by
  intro hlt
  exact h (by rw [ikeyCmp_lt_iff]; exact Or.inl hlt)

/-- A state that survives the prefix check with `valid = true` is returned
as-is. -/
theorem prefixCheck_valid_eq (cfg : Config) (s : State)
    (hv : (prefixCheck cfg s).valid = true) : prefixCheck cfg s = s := by
  unfold prefixCheck at hv ⊢
  cases hpe : cfg.prefixExtractor with
  | none => simp
  | some pf =>
    simp only [hpe] at hv ⊢
    split at hv
    · simp at hv
    · next hcond => rw [if_neg hcond]

/-! ### Key monotonicity of `Next` -/

/-- `FindParseableKey` never touches `saved_key_`, `valid_` or
`direction_`. -/
theorem findParseable_fields (cfg : Config) (dir : Direction) (st : State) :
    (findParseable cfg dir st).savedKey = st.savedKey ∧
    (findParseable cfg dir st).valid = st.valid ∧
    (findParseable cfg dir st).direction = st.direction ∧
    (findParseable cfg dir st).maxSkip = st.maxSkip := by
  unfold findParseable
  split
  · exact ⟨rfl, rfl, rfl, rfl⟩
  · exact ⟨rfl, rfl, rfl, rfl⟩

/-- The skipping scan only ever stops valid on a key strictly above the
saved key: every acceptance point is guarded by the skip test. -/
theorem fnueLoop_savedKey_gt (cfg : Config) :
    ∀ fuel st num stf,
      findNextUserEntryLoop cfg fuel st true num = some stf →
      stf.valid = true →
      bytesCmp st.savedKey stf.savedKey = .lt := by
  intro fuel
  induction fuel with
  | zero =>
    intro st num stf h hv
    simp [findNextUserEntryLoop] at h
  | succ n ih =>
    intro st num stf h hv
    simp only [findNextUserEntryLoop] at h
    split at h
    · obtain rfl := Option.some_inj.mp h.symm
      simp at hv
    · next i heq =>
      split at h
      · -- parseable
        split at h
        · -- bound exceeded: invalid
          obtain rfl := Option.some_inj.mp h.symm
          simp at hv
        · split at h
          · -- visible
            split at h
            · -- skipped: saved key unchanged
              split at h
              · simpa using ih _ _ _ h hv
              · simpa using ih _ _ _ h hv
            · -- accepted: the skip test failed, so the key is greater
              next hnotskip =>
              have hgt : bytesCmp (entryAt cfg.entries i).ikey.userKey
                  st.savedKey = .gt := by
                by_contra hc
                exact hnotskip ⟨trivial, hc⟩
              have hlt := bytesCmp_lt_of_gt _ _ hgt
              split at h
              · -- deletion: the saved key advances, then the tail advances
                split at h
                · exact bytesCmp_lt_trans _ _ _ hlt (by simpa using ih _ _ _ h hv)
                · exact bytesCmp_lt_trans _ _ _ hlt (by simpa using ih _ _ _ h hv)
              · -- single deletion
                split at h
                · exact bytesCmp_lt_trans _ _ _ hlt (by simpa using ih _ _ _ h hv)
                · exact bytesCmp_lt_trans _ _ _ hlt (by simpa using ih _ _ _ h hv)
              · -- put
                obtain rfl := Option.some_inj.mp h.symm
                exact hlt
              · -- merge
                have hsk := mergeValuesNewToOld_savedKey cfg n _ stf h
                rw [hsk]
                exact hlt
          · -- invisible: continue
            split at h
            · simpa using ih _ _ _ h hv
            · simpa using ih _ _ _ h hv
      · -- unparseable: continue
        split at h
        · simpa using ih _ _ _ h hv
        · simpa using ih _ _ _ h hv

/-- `FindNextUserKey` leaves `saved_key_` alone. -/
theorem findNextUserKeyLoop_savedKey (cfg : Config) :
    ∀ fuel st stf, findNextUserKeyLoop cfg fuel st = some stf →
      stf.savedKey = st.savedKey := by
  intro fuel
  induction fuel with
  | zero =>
    intro st stf h
    simp [findNextUserKeyLoop] at h
  | succ n ih =>
    intro st stf h
    simp only [findNextUserKeyLoop] at h
    split at h
    · obtain rfl := Option.some_inj.mp h.symm
      rfl
    · split at h
      · obtain rfl := Option.some_inj.mp h.symm
        rfl
      · rw [ih _ _ h,
          (findParseable_fields cfg .forward _).1]

theorem findNextUserKey_savedKey (cfg : Config) (fuel : Nat) (st stf : State)
    (h : findNextUserKey cfg fuel st = some stf) :
    stf.savedKey = st.savedKey := by
  unfold findNextUserKey at h
  split at h
  · obtain rfl := Option.some_inj.mp h.symm
    rfl
  · rw [findNextUserKeyLoop_savedKey cfg _ _ _ h,
      (findParseable_fields cfg .forward _).1]

/-- A state that leaves the prefix check valid was valid before it. -/
theorem prefixCheck_valid_true (cfg : Config) (s : State)
    (hv : (prefixCheck cfg s).valid = true) : s.valid = true := by
  have h := prefixCheck_valid_eq cfg s hv
  rw [h] at hv
  exact hv

/-- The shared tail of `Next` only stops valid on a strictly larger key. -/
theorem nextTail_savedKey_gt (cfg : Config) (fuel : Nat) (st1 stf : State)
    (h : nextTail cfg fuel st1 = some stf) (hvf : stf.valid = true) :
    bytesCmp st1.savedKey stf.savedKey = .lt := by
  unfold nextTail at h
  split at h
  · obtain rfl := Option.some_inj.mp h.symm
    simp at hvf
  · split at h
    · cases h
    · next st2 hrun =>
      obtain rfl := Option.some_inj.mp h.symm
      have hv2 : st2.valid = true := prefixCheck_valid_true cfg st2 hvf
      rw [prefixCheck_valid_eq cfg st2 hvf]
      unfold findNextUserEntry at hrun
      simpa using fnueLoop_savedKey_gt cfg fuel _ 0 st2 hrun hv2

/-- `Next` from any valid state that stays valid yields a strictly larger
key, also across the reverse-to-forward direction switch. -/
theorem nextOp_savedKey_gt (cfg : Config) (fuel : Nat) (st stf : State)
    (hv : st.valid = true) (h : nextOp cfg fuel st = some stf)
    (hvf : stf.valid = true) :
    bytesCmp st.savedKey stf.savedKey = .lt := by
  unfold nextOp at h
  rw [if_neg (fun hc => by rw [hv] at hc; cases hc)] at h
  split at h
  · -- reverse-to-forward direction switch
    split at h
    · cases h
    · next s hfk =>
      have hsk := findNextUserKey_savedKey cfg fuel st s hfk
      have h2 := nextTail_savedKey_gt cfg fuel _ stf h hvf
      split at h2
      · rw [← hsk]
        exact h2
      · rw [← hsk]
        exact h2
  · have h2 := nextTail_savedKey_gt cfg fuel _ stf h hvf
    split at h2
    · exact h2
    · exact h2

/-! ### Key monotonicity of `Prev` -/

/-- Stepping back from an in-range index either exhausts the cursor at
index 0 or moves to the previous index. -/
theorem iterPrev_cases (es : List RawEntry) (i : Nat) :
    (i = 0 ∧ iterPrev es (some i) = none) ∨
    (1 ≤ i ∧ iterPrev es (some i) = some (i - 1)) := by
  unfold iterPrev
  dsimp only
  by_cases h : i = 0
  · rw [if_pos h]
    exact Or.inl ⟨h, rfl⟩
  · rw [if_neg h]
    exact Or.inr ⟨by omega, rfl⟩

/-- On an all-parseable stream `FindParseableKey` is the identity. -/
theorem findParseable_id (cfg : Config) (hpars : AllParseable cfg.entries)
    (dir : Direction) (st : State)
    (hpos : st.pos = none ∨ ∃ i, st.pos = some i ∧ i < cfg.entries.length) :
    findParseable cfg dir st = st := by
  unfold findParseable
  rcases hpos with hn | ⟨i, hsome, hlt⟩
  · rw [hn]
  · rw [hsome]
    have hp := hpars i hlt
    cases dir with
    | forward =>
      have hf : fpFwd cfg.entries (cfg.entries.length + 1) i false
          = (some i, false) := by
        simp only [fpFwd]
        rw [if_pos hlt, if_pos hp]
      simp only [hf]
      rw [← hsome]
      rfl
    | reverse =>
      have hf : fpRev cfg.entries i false = (some i, false) := by
        cases i with
        | zero =>
          simp only [fpRev]
          rw [if_pos hp]
        | succ k =>
          simp only [fpRev]
          rw [if_pos hp]
      simp only [hf]
      rw [← hsome]
      rfl

/-- An entry of the saved key with an in-range version is at or after the
`(saved_key_, kMaxSequenceNumber, kValueTypeForSeek)` reseek target. -/
theorem ikey_ge_maxseq_target (e : InternalKey) (sk : Bytes)
    (hk : e.userKey = sk) (hseq : e.seq ≤ 2 ^ 56 - 1) :
    ikeyCmp e ⟨sk, kMaxSequenceNumber, kValueTypeForSeek⟩ ≠ .lt := by
  intro hlt
  rw [ikeyCmp_lt_iff] at hlt
  rcases hlt with h | ⟨-, h2⟩
  · rw [hk, bytesCmp_self] at h
    cases h
  · rcases h2 with h2 | ⟨-, h3⟩
    · have h4 : kMaxSequenceNumber < e.seq := h2
      unfold kMaxSequenceNumber at h4
      omega
    · have h4 : 7 < e.tag.code := h3
      have h5 := ValueType.code_le e.tag
      omega

/-- `FindPrevUserKey` from a cursor at or before the saved key's block
terminates on a strictly smaller key (or exhausts the stream), leaving
`saved_key_` and `valid_` alone. -/
theorem findPrevUserKeyLoop_spec (cfg : Config)
    (hs : SortedSource cfg.entries) (hpars : AllParseable cfg.entries)
    (hsb : SeqBounded cfg.entries) :
    ∀ fuel st num,
      1 ≤ fuel →
      (st.pos = none ∨ ∃ p, st.pos = some p ∧ p < cfg.entries.length ∧
        bytesCmp (entryAt cfg.entries p).ikey.userKey st.savedKey ≠ .gt ∧
        p + 2 ≤ fuel) →
      ∃ stf, findPrevUserKeyLoop cfg fuel st num = some stf ∧
        stf.savedKey = st.savedKey ∧ stf.valid = st.valid ∧
        (stf.pos = none ∨ ∃ j, stf.pos = some j ∧ j < cfg.entries.length ∧
          bytesCmp (entryAt cfg.entries j).ikey.userKey st.savedKey = .lt) := by
  intro fuel
  induction fuel with
  | zero =>
    intro st num h1 _
    omega
  | succ n ih =>
    intro st num h1 hpos
    rcases hpos with hnone | ⟨p, hsome, hplen, hple, hfuel⟩
    · exact ⟨st, by simp only [findPrevUserKeyLoop, hnone], rfl, rfl,
        Or.inl hnone⟩
    · simp only [findPrevUserKeyLoop, hsome]
      rcases hcmp : bytesCmp (entryAt cfg.entries p).ikey.userKey st.savedKey
        with _ | _ | _
      · -- strictly smaller key: the loop stops here
        rw [if_neg (by simp)]
        exact ⟨st, rfl, rfl, rfl, Or.inr ⟨p, hsome, hplen, hcmp⟩⟩
      · -- same key: keep walking back (or reseek)
        rw [if_pos (Or.inl rfl)]
        have hkey : (entryAt cfg.entries p).ikey.userKey = st.savedKey :=
          (bytesCmp_eq_iff _ _).mp hcmp
        by_cases hnum : num ≥ st.maxSkip
        · rw [if_pos ⟨rfl, hnum⟩]
          have hpge : ikeyCmp (entryAt cfg.entries p).ikey
              ⟨st.savedKey, kMaxSequenceNumber, kValueTypeForSeek⟩ ≠ .lt :=
            ikey_ge_maxseq_target _ _ hkey (hsb p hplen)
          cases hseek : iterSeek cfg.entries
              ⟨st.savedKey, kMaxSequenceNumber, kValueTypeForSeek⟩ with
          | none =>
            exact absurd (iterSeek_none_spec _ _ hseek p hplen) hpge
          | some b =>
            obtain ⟨hblen, hbge, hblt⟩ := iterSeek_some_spec _ _ b hseek
            have hbp : b ≤ p := by
              by_contra hc
              push_neg at hc
              exact hpge (hblt p hc)
            rcases iterPrev_cases cfg.entries b with ⟨hb0, hprev⟩ |
              ⟨hb1, hprev⟩
            · rw [hprev,
                findParseable_id cfg hpars .reverse { st with pos := none }
                  (Or.inl rfl)]
              obtain ⟨stf, hrun, hsk, hval, hposc⟩ :=
                ih { st with pos := none } 0 (by omega) (Or.inl rfl)
              exact ⟨stf, hrun, hsk, hval, hposc⟩
            · have hstrict : bytesCmp
                  (entryAt cfg.entries (b - 1)).ikey.userKey st.savedKey
                    = .lt := by
                have hlt := hblt (b - 1) (by omega)
                rcases ikeyCmp_lt_userKey _ _ hlt with h2 | h2
                · exact h2
                · exact absurd (hblt (b - 1) (by omega))
                    (ikey_ge_maxseq_target _ _ h2 (hsb (b - 1) (by omega)))
              rw [hprev,
                findParseable_id cfg hpars .reverse
                  { st with pos := some (b - 1) }
                  (Or.inr ⟨b - 1, rfl, by omega⟩)]
              have hne : bytesCmp (entryAt cfg.entries (b - 1)).ikey.userKey
                  st.savedKey ≠ .gt := by
                rw [hstrict]
                simp
              obtain ⟨stf, hrun, hsk, hval, hposc⟩ :=
                ih { st with pos := some (b - 1) } 0 (by omega)
                  (Or.inr ⟨b - 1, rfl, by omega, hne, by omega⟩)
              exact ⟨stf, hrun, hsk, hval, hposc⟩
        · rw [if_neg (fun hc => hnum hc.2)]
          rcases iterPrev_cases cfg.entries p with ⟨hp0, hprev⟩ | ⟨hp1, hprev⟩
          · rw [hprev,
              findParseable_id cfg hpars .reverse { st with pos := none }
                (Or.inl rfl)]
            obtain ⟨stf, hrun, hsk, hval, hposc⟩ :=
              ih { st with pos := none } _ (by omega) (Or.inl rfl)
            exact ⟨stf, hrun, hsk, hval, hposc⟩
          · have hle2 : bytesCmp (entryAt cfg.entries (p - 1)).ikey.userKey
                st.savedKey ≠ .gt := by
              have hmono := sorted_key_mono cfg hs (p - 1) p (by omega) hplen
              rw [hkey] at hmono
              exact hmono
            rw [hprev,
              findParseable_id cfg hpars .reverse
                { st with pos := some (p - 1) }
                (Or.inr ⟨p - 1, rfl, by omega⟩)]
            obtain ⟨stf, hrun, hsk, hval, hposc⟩ :=
              ih { st with pos := some (p - 1) } _ (by omega)
                (Or.inr ⟨p - 1, rfl, by omega, hle2, by omega⟩)
            exact ⟨stf, hrun, hsk, hval, hposc⟩
      · exact absurd hcmp hple

/-- `FindPrevUserKey` wrapper of the loop above. -/
theorem findPrevUserKey_spec (cfg : Config)
    (hs : SortedSource cfg.entries) (hpars : AllParseable cfg.entries)
    (hsb : SeqBounded cfg.entries) (fuel : Nat) (st : State)
    (h1 : 1 ≤ fuel)
    (hpos : st.pos = none ∨ ∃ p, st.pos = some p ∧ p < cfg.entries.length ∧
      bytesCmp (entryAt cfg.entries p).ikey.userKey st.savedKey ≠ .gt ∧
      p + 2 ≤ fuel) :
    ∃ stf, findPrevUserKey cfg fuel st = some stf ∧
      stf.savedKey = st.savedKey ∧ stf.valid = st.valid ∧
      (stf.pos = none ∨ ∃ j, stf.pos = some j ∧ j < cfg.entries.length ∧
        bytesCmp (entryAt cfg.entries j).ikey.userKey st.savedKey = .lt) := by
  unfold findPrevUserKey
  rcases hpos with hnone | ⟨p, hsome, hplen, hple, hfuel⟩
  · rw [hnone]
    exact ⟨st, rfl, rfl, rfl, Or.inl hnone⟩
  · rw [hsome,
      findParseable_id cfg hpars .reverse st (Or.inr ⟨p, hsome, hplen⟩)]
    exact findPrevUserKeyLoop_spec cfg hs hpars hsb fuel st 0 h1
      (Or.inr ⟨p, hsome, hplen, hple, hfuel⟩)

theorem applyFullMerge_pos (cfg : Config) (st : State) (k : Bytes)
    (b : Option Bytes) (ops : List Bytes) :
    (applyFullMerge cfg st k b ops).pos = st.pos := by
  unfold applyFullMerge
  split <;> rfl

/-- A visible entry of the saved key is at or after the
`(saved_key_, sequence_, kValueTypeForSeek)` seek target. -/
theorem ikey_ge_visible_target (e : InternalKey) (sk : Bytes) (S : Nat)
    (hk : e.userKey = sk) (hv : e.seq ≤ S) :
    ikeyCmp e ⟨sk, S, kValueTypeForSeek⟩ ≠ .lt := by
  intro hlt
  rw [ikeyCmp_lt_iff] at hlt
  rcases hlt with h | ⟨-, h2⟩
  · rw [hk, bytesCmp_self] at h
    cases h
  · rcases h2 with h2 | ⟨-, h3⟩
    · have h4 : S < e.seq := h2
      omega
    · have h4 : 7 < e.tag.code := h3
      have h5 := ValueType.code_le e.tag
      omega

/-- The `ReverseToBackward` catch-up walk stops at or before the saved
key's block (or exhausts the stream). -/
theorem reverseToBackwardWalk_spec (cfg : Config)
    (hs : SortedSource cfg.entries) (hpars : AllParseable cfg.entries) :
    ∀ fuel st,
      1 ≤ fuel →
      (st.pos = none ∨ ∃ p, st.pos = some p ∧ p < cfg.entries.length ∧
        p + 2 ≤ fuel) →
      ∃ stf, reverseToBackwardWalk cfg fuel st = some stf ∧
        stf.savedKey = st.savedKey ∧ stf.valid = st.valid ∧
        stf.currentIsMerged = st.currentIsMerged ∧
        (stf.pos = none ∨ ∃ j, stf.pos = some j ∧ j < cfg.entries.length ∧
          bytesCmp (entryAt cfg.entries j).ikey.userKey st.savedKey ≠ .gt) := by
  intro fuel
  induction fuel with
  | zero =>
    intro st h1 _
    omega
  | succ n ih =>
    intro st h1 hpos
    rcases hpos with hnone | ⟨p, hsome, hplen, hfuel⟩
    · exact ⟨st, by simp only [reverseToBackwardWalk, hnone], rfl, rfl, rfl,
        Or.inl hnone⟩
    · simp only [reverseToBackwardWalk, hsome]
      by_cases hgt : bytesCmp (entryAt cfg.entries p).ikey.userKey st.savedKey
          = .gt
      · rw [if_pos hgt]
        rcases iterPrev_cases cfg.entries p with ⟨hp0, hprev⟩ | ⟨hp1, hprev⟩
        · rw [hprev,
            findParseable_id cfg hpars .reverse { st with pos := none }
              (Or.inl rfl)]
          obtain ⟨stf, hrun, h2, h3, h4, h5⟩ :=
            ih { st with pos := none } (by omega) (Or.inl rfl)
          exact ⟨stf, hrun, h2, h3, h4, h5⟩
        · rw [hprev,
            findParseable_id cfg hpars .reverse { st with pos := some (p - 1) }
              (Or.inr ⟨p - 1, rfl, by omega⟩)]
          obtain ⟨stf, hrun, h2, h3, h4, h5⟩ :=
            ih { st with pos := some (p - 1) } (by omega)
              (Or.inr ⟨p - 1, rfl, by omega, by omega⟩)
          exact ⟨stf, hrun, h2, h3, h4, h5⟩
      · rw [if_neg hgt]
        exact ⟨st, rfl, rfl, rfl, rfl, Or.inr ⟨p, hsome, hplen, hgt⟩⟩

/-- `ReverseToBackward` switches the direction and leaves the cursor
strictly before the saved key (or exhausted). -/
theorem reverseToBackward_spec (cfg : Config)
    (hs : SortedSource cfg.entries) (hpars : AllParseable cfg.entries)
    (hsb : SeqBounded cfg.entries) (fuel : Nat) (st : State)
    (hfuel : cfg.entries.length + 3 ≤ fuel)
    (hposok : st.pos = none ∨ ∃ p, st.pos = some p ∧ p < cfg.entries.length)
    (hnm : st.currentIsMerged = false →
      (st.pos = none ∨ ∃ p, st.pos = some p ∧ p < cfg.entries.length ∧
        bytesCmp (entryAt cfg.entries p).ikey.userKey st.savedKey ≠ .gt)) :
    ∃ stf, reverseToBackward cfg fuel st = some stf ∧
      stf.savedKey = st.savedKey ∧ stf.valid = st.valid ∧
      stf.direction = .reverse ∧
      (stf.pos = none ∨ ∃ j, stf.pos = some j ∧ j < cfg.entries.length ∧
        bytesCmp (entryAt cfg.entries j).ikey.userKey st.savedKey = .lt) := by
  unfold reverseToBackward
  cases hcim : st.currentIsMerged with
  | false =>
    rw [if_neg (by simp)]
    simp only []
    obtain ⟨st2, hrun2, hsk2, hval2, hpos2⟩ :=
      findPrevUserKey_spec cfg hs hpars hsb fuel st (by omega)
        (by rcases hnm hcim with hn | ⟨p, h1, h2, h3⟩
            · exact Or.inl hn
            · exact Or.inr ⟨p, h1, h2, h3, by omega⟩)
    rw [hrun2]
    exact ⟨{ st2 with direction := .reverse }, rfl, hsk2, hval2, rfl, hpos2⟩
  | true =>
    rw [if_pos rfl]
    have hstart : ({ st with pos := iterSeekToLast cfg.entries } : State).pos
          = iterSeekToLast cfg.entries := rfl
    -- the walk's starting state, depending on whether the cursor is live
    by_cases hpn : st.pos = none
    · rw [if_pos hpn]
      have hlast : iterSeekToLast cfg.entries = none ∨
          iterSeekToLast cfg.entries = some (cfg.entries.length - 1) ∧
            0 < cfg.entries.length := by
        unfold iterSeekToLast
        by_cases he : cfg.entries.isEmpty = true
        · rw [if_pos he]
          exact Or.inl rfl
        · rw [if_neg he]
          refine Or.inr ⟨rfl, ?_⟩
          rcases hcs : cfg.entries with _ | ⟨e, es⟩
          · rw [hcs] at he
            simp at he
          · simp [hcs]
      rcases hlast with hl | ⟨hl, hlen⟩
      · rw [hl, findParseable_id cfg hpars .reverse
          { st with currentIsMerged := true, pos := none } (Or.inl rfl)]
        obtain ⟨st1, hrun1, hsk1, hval1, hcim1, hpos1⟩ :=
          reverseToBackwardWalk_spec cfg hs hpars fuel
            { st with currentIsMerged := true, pos := none } (by omega)
            (Or.inl rfl)
        rw [hrun1]
        simp only []
        obtain ⟨st2, hrun2, hsk2, hval2, hpos2⟩ :=
          findPrevUserKey_spec cfg hs hpars hsb fuel st1 (by omega)
            (by rcases hpos1 with hn | ⟨j, h1, h2, h3⟩
                · exact Or.inl hn
                · exact Or.inr ⟨j, h1, h2, by rw [hsk1]; exact h3, by omega⟩)
        rw [hrun2]
        refine ⟨{ st2 with direction := .reverse }, rfl, ?_, hval2.trans hval1,
          rfl, ?_⟩
        · rw [hsk2, hsk1]
        · rcases hpos2 with hn | ⟨j, h1, h2, h3⟩
          · exact Or.inl hn
          · exact Or.inr ⟨j, h1, h2, by rw [hsk1] at h3; exact h3⟩
      · rw [hl, findParseable_id cfg hpars .reverse
          { st with currentIsMerged := true,
                    pos := some (cfg.entries.length - 1) }
          (Or.inr ⟨cfg.entries.length - 1, rfl, by omega⟩)]
        obtain ⟨st1, hrun1, hsk1, hval1, hcim1, hpos1⟩ :=
          reverseToBackwardWalk_spec cfg hs hpars fuel
            { st with currentIsMerged := true,
                      pos := some (cfg.entries.length - 1) } (by omega)
            (Or.inr ⟨cfg.entries.length - 1, rfl, by omega, by omega⟩)
        rw [hrun1]
        simp only []
        obtain ⟨st2, hrun2, hsk2, hval2, hpos2⟩ :=
          findPrevUserKey_spec cfg hs hpars hsb fuel st1 (by omega)
            (by rcases hpos1 with hn | ⟨j, h1, h2, h3⟩
                · exact Or.inl hn
                · exact Or.inr ⟨j, h1, h2, by rw [hsk1]; exact h3, by omega⟩)
        rw [hrun2]
        refine ⟨{ st2 with direction := .reverse }, rfl, ?_, hval2.trans hval1,
          rfl, ?_⟩
        · rw [hsk2, hsk1]
        · rcases hpos2 with hn | ⟨j, h1, h2, h3⟩
          · exact Or.inl hn
          · exact Or.inr ⟨j, h1, h2, by rw [hsk1] at h3; exact h3⟩
    · rw [if_neg hpn]
      obtain ⟨p, hsome, hplen⟩ : ∃ p, st.pos = some p ∧
          p < cfg.entries.length := by
        rcases hposok with hn | h
        · exact absurd hn hpn
        · exact h
      rw [findParseable_id cfg hpars .reverse st (Or.inr ⟨p, hsome, hplen⟩)]
      obtain ⟨st1, hrun1, hsk1, hval1, hcim1, hpos1⟩ :=
        reverseToBackwardWalk_spec cfg hs hpars fuel st (by omega)
          (Or.inr ⟨p, hsome, hplen, by omega⟩)
      rw [hrun1]
      simp only []
      obtain ⟨st2, hrun2, hsk2, hval2, hpos2⟩ :=
        findPrevUserKey_spec cfg hs hpars hsb fuel st1 (by omega)
          (by rcases hpos1 with hn | ⟨j, h1, h2, h3⟩
              · exact Or.inl hn
              · exact Or.inr ⟨j, h1, h2, by rw [hsk1]; exact h3, by omega⟩)
      rw [hrun2]
      refine ⟨{ st2 with direction := .reverse }, rfl, ?_, hval2.trans hval1,
        rfl, ?_⟩
      · rw [hsk2, hsk1]
      · rcases hpos2 with hn | ⟨j, h1, h2, h3⟩
        · exact Or.inl hn
        · exact Or.inr ⟨j, h1, h2, by rw [hsk1] at h3; exact h3⟩

/-- The shared `PrevInternal` step: find the previous parseable entry and
walk below the saved key when still on it. -/
theorem prevStepBefore_spec (cfg : Config)
    (hs : SortedSource cfg.entries) (hpars : AllParseable cfg.entries)
    (hsb : SeqBounded cfg.entries) (fuel : Nat) (st : State)
    (hfuel : cfg.entries.length + 3 ≤ fuel)
    (hpos : st.pos = none ∨ ∃ p, st.pos = some p ∧ p < cfg.entries.length ∧
      bytesCmp (entryAt cfg.entries p).ikey.userKey st.savedKey ≠ .gt) :
    ∃ stf, prevStepBefore cfg fuel st = some stf ∧
      stf.savedKey = st.savedKey ∧ stf.valid = st.valid ∧
      (stf.pos = none ∨ ∃ j, stf.pos = some j ∧ j < cfg.entries.length ∧
        bytesCmp (entryAt cfg.entries j).ikey.userKey st.savedKey = .lt) := by
  unfold prevStepBefore
  rcases hpos with hnone | ⟨p, hsome, hplen, hple⟩
  · rw [findParseable_id cfg hpars .reverse st (Or.inl hnone), hnone]
    exact ⟨st, rfl, rfl, rfl, Or.inl hnone⟩
  · rw [findParseable_id cfg hpars .reverse st (Or.inr ⟨p, hsome, hplen⟩),
      hsome]
    simp only []
    by_cases heq : bytesCmp (entryAt cfg.entries p).ikey.userKey st.savedKey
        = .eq
    · rw [if_pos heq]
      exact findPrevUserKey_spec cfg hs hpars hsb fuel st (by omega)
        (Or.inr ⟨p, hsome, hplen, hple, by omega⟩)
    · rw [if_neg heq]
      refine ⟨st, rfl, rfl, rfl, Or.inr ⟨p, hsome, hplen, ?_⟩⟩
      rcases h2 : bytesCmp (entryAt cfg.entries p).ikey.userKey st.savedKey
        with _ | _ | _
      · rfl
      · exact absurd h2 heq
      · exact absurd h2 hple

/-- The final switch of `FindValueForCurrentKey` always answers and leaves
`saved_key_` and the cursor alone. -/
theorem fvckFinish_fields (cfg : Config) (st : State) (lket lnm : ValueType)
    (ops : List Bytes) :
    ∃ st3 ok, fvckFinish cfg st lket lnm ops = some (st3, ok) ∧
      st3.savedKey = st.savedKey ∧ st3.pos = st.pos := by
  unfold fvckFinish
  cases lket with
  | typeDeletion => exact ⟨_, _, rfl, rfl, rfl⟩
  | typeSingleDeletion => exact ⟨_, _, rfl, rfl, rfl⟩
  | typeValue => exact ⟨_, _, rfl, rfl, rfl⟩
  | typeMerge =>
    simp only []
    by_cases hlnm : lnm = .typeDeletion
    · rw [if_pos hlnm]
      exact ⟨_, _, rfl,
        applyFullMerge_savedKey cfg st st.savedKey none ops,
        applyFullMerge_pos cfg st st.savedKey none ops⟩
    · rw [if_neg hlnm]
      by_cases hlv : lnm = .typeValue
      · rw [if_pos hlv]
        exact ⟨_, _, rfl,
          applyFullMerge_savedKey cfg st st.savedKey _ ops,
          applyFullMerge_pos cfg st st.savedKey _ ops⟩
      · rw [if_neg hlv]
        refine ⟨_, _, rfl, ?_, ?_⟩
        · rw [applyFullMerge_savedKey]
        · rw [applyFullMerge_pos]

/-- The forward operand-collection loop of the seek-based resolver
terminates, preserves `saved_key_` and `valid_` and keeps the cursor in
range. -/
theorem fvckSeekMergeLoop_spec (cfg : Config)
    (hpars : AllParseable cfg.entries) :
    ∀ fuel st ops p,
      (st.pos = none ∨ st.pos = some p ∧ p < cfg.entries.length) →
      cfg.entries.length - p + 1 ≤ fuel →
      ∃ st2 ops2, fvckSeekMergeLoop cfg fuel st ops = some (st2, ops2) ∧
        st2.savedKey = st.savedKey ∧ st2.valid = st.valid ∧
        (st2.pos = none ∨ ∃ q, st2.pos = some q ∧ q < cfg.entries.length) := by
  intro fuel
  induction fuel with
  | zero =>
    intro st ops p _ hfuel
    omega
  | succ n ih =>
    intro st ops p hpos hfuel
    rcases hpos with hnone | ⟨hsome, hplen⟩
    · exact ⟨st, ops, by simp only [fvckSeekMergeLoop, hnone], rfl, rfl,
        Or.inl hnone⟩
    · simp only [fvckSeekMergeLoop, hsome]
      by_cases hc : bytesCmp (entryAt cfg.entries p).ikey.userKey st.savedKey
          = .eq ∧ (entryAt cfg.entries p).ikey.tag = .typeMerge
      · rw [if_pos hc]
        rcases iterNext_cases cfg.entries p hplen with ⟨hnx, hlen⟩ |
          ⟨hnx, hlen⟩
        · rw [hnx,
            findParseable_id cfg hpars .forward { st with pos := none }
              (Or.inl rfl)]
          obtain ⟨st2, ops2, hrun, h1, h2, h3⟩ :=
            ih { st with pos := none } _ (p + 1) (Or.inl rfl) (by omega)
          exact ⟨st2, ops2, hrun, h1, h2, h3⟩
        · rw [hnx,
            findParseable_id cfg hpars .forward { st with pos := some (p + 1) }
              (Or.inr ⟨p + 1, rfl, hlen⟩)]
          obtain ⟨st2, ops2, hrun, h1, h2, h3⟩ :=
            ih { st with pos := some (p + 1) } _ (p + 1)
              (Or.inr ⟨rfl, hlen⟩) (by omega)
          exact ⟨st2, ops2, hrun, h1, h2, h3⟩
      · rw [if_neg hc]
        exact ⟨st, ops, rfl, rfl, rfl, Or.inr ⟨p, hsome, hplen⟩⟩

/-- The seek-based resolver: it answers, preserves `saved_key_`, and leaves
the cursor at or before the saved key's block (or exhausted).  The witness
entry is the visible same-key entry the caller stands on. -/
theorem fvckUsingSeek_spec (cfg : Config) (hs : SortedSource cfg.entries)
    (hpars : AllParseable cfg.entries) (fuel : Nat) (st : State)
    (hfuel : cfg.entries.length + 2 ≤ fuel)
    (hw : ∃ w, w < cfg.entries.length ∧
      (entryAt cfg.entries w).ikey.userKey = st.savedKey ∧
      (entryAt cfg.entries w).ikey.seq ≤ cfg.sequence) :
    ∃ st3 ok, findValueForCurrentKeyUsingSeek cfg fuel st = some (st3, ok) ∧
      st3.savedKey = st.savedKey ∧
      (st3.pos = none ∨ ∃ q, st3.pos = some q ∧ q < cfg.entries.length ∧
        bytesCmp (entryAt cfg.entries q).ikey.userKey st.savedKey ≠ .gt) := by
  obtain ⟨w, hwlen, hwk, hwseq⟩ := hw
  cases hseek : iterSeek cfg.entries
      ⟨st.savedKey, cfg.sequence, kValueTypeForSeek⟩ with
  | none =>
    exact absurd (iterSeek_none_spec _ _ hseek w hwlen)
      (ikey_ge_visible_target _ _ _ hwk hwseq)
  | some b =>
    obtain ⟨hblen, hbge, hblt⟩ := iterSeek_some_spec _ _ b hseek
    have hbw : b ≤ w := by
      by_contra hc
      push_neg at hc
      exact absurd (hblt w hc) (ikey_ge_visible_target _ _ _ hwk hwseq)
    have hble : bytesCmp (entryAt cfg.entries b).ikey.userKey st.savedKey
        ≠ .gt := by
      have hmono := sorted_key_mono cfg hs b w hbw hwlen
      rw [hwk] at hmono
      exact hmono
    have hstart : fvckSeekStart cfg st = { st with pos := some b } := by
      unfold fvckSeekStart
      rw [hseek]
      exact findParseable_id cfg hpars .forward { st with pos := some b }
        (Or.inr ⟨b, rfl, hblen⟩)
    unfold findValueForCurrentKeyUsingSeek
    rw [hstart]
    have hcur : curIkey cfg { st with pos := some b }
        = (entryAt cfg.entries b).ikey := rfl
    rw [hcur]
    rcases htag : (entryAt cfg.entries b).ikey.tag with _ | _ | _ | _
    · -- deletion at the landing
      rw [if_neg (by simp), if_pos (Or.inl rfl)]
      exact ⟨_, _, rfl, rfl, Or.inr ⟨b, rfl, hblen, hble⟩⟩
    · -- put at the landing
      rw [if_pos rfl]
      exact ⟨_, _, rfl, rfl, Or.inr ⟨b, rfl, hblen, hble⟩⟩
    · -- merge chain at the landing
      rw [if_neg (by simp), if_neg (by simp)]
      obtain ⟨st2, ops2, hrun, hsk2, hval2, hpos2⟩ :=
        fvckSeekMergeLoop_spec cfg hpars fuel { st with pos := some b } [] b
          (Or.inr ⟨rfl, hblen⟩) (by omega)
      rw [hrun]
      simp only []
      unfold fvckSeekAfter
      by_cases hdk : atDifferentKey cfg st2 = true
      · rw [if_pos hdk, hseek]
        refine ⟨_, _, rfl, ?_, Or.inr ⟨b, rfl, hblen, hble⟩⟩
        rw [applyFullMerge_savedKey, hsk2]
      · rw [if_neg hdk]
        have hq : ∃ q, st2.pos = some q ∧ q < cfg.entries.length ∧
            bytesCmp (entryAt cfg.entries q).ikey.userKey st.savedKey
              ≠ .gt := by
          rcases hpos2 with hn | ⟨q, hq1, hq2⟩
          · exact absurd (by unfold atDifferentKey; rw [hn]) hdk
          · refine ⟨q, hq1, hq2, ?_⟩
            unfold atDifferentKey at hdk
            rw [hq1] at hdk
            have hdke : bytesCmp (entryAt cfg.entries q).ikey.userKey
                st2.savedKey = Ordering.eq := by
              simpa using hdk
            rw [← hsk2, hdke]
            simp
        obtain ⟨q, hq1, hq2, hq3⟩ := hq
        by_cases hdel : atDeletion cfg st2 = true
        · rw [if_pos hdel]
          refine ⟨_, _, rfl, ?_, ?_⟩
          · rw [applyFullMerge_savedKey, hsk2]
          · rw [applyFullMerge_pos]
            exact Or.inr ⟨q, hq1, hq2, hq3⟩
        · rw [if_neg hdel]
          refine ⟨_, _, rfl, ?_, ?_⟩
          · rw [applyFullMerge_savedKey, hsk2]
          · rw [applyFullMerge_pos]
            exact Or.inr ⟨q, hq1, hq2, hq3⟩
    · -- single deletion at the landing
      rw [if_neg (by simp), if_pos (Or.inr rfl)]
      exact ⟨_, _, rfl, rfl, Or.inr ⟨b, rfl, hblen, hble⟩⟩

/-- The backward resolution loop of `FindValueForCurrentKey` always answers,
preserves `saved_key_`, and leaves the cursor exhausted or at a key at most
`saved_key_`. -/
theorem fvckLoop_spec (cfg : Config) (hs : SortedSource cfg.entries)
    (hpars : AllParseable cfg.entries) :
    ∀ fuel st lket lnm ops num p,
      ((st.pos = none ∧ 1 ≤ fuel) ∨
        (st.pos = some p ∧ p < cfg.entries.length ∧
          bytesCmp (entryAt cfg.entries p).ikey.userKey st.savedKey ≠ .gt ∧
          p + cfg.entries.length + 4 ≤ fuel)) →
      ∃ st3 ok, fvckLoop cfg fuel st lket lnm ops num = some (st3, ok) ∧
        st3.savedKey = st.savedKey ∧
        (st3.pos = none ∨ ∃ q, st3.pos = some q ∧ q < cfg.entries.length ∧
          bytesCmp (entryAt cfg.entries q).ikey.userKey st.savedKey
            ≠ .gt) := by
  intro fuel
  induction fuel with
  | zero =>
    intro st lket lnm ops num p hpos
    rcases hpos with ⟨_, hf⟩ | ⟨_, _, _, hf⟩ <;> omega
  | succ n ih =>
    intro st lket lnm ops num p hpos
    rcases hpos with ⟨hnone, -⟩ | ⟨hsome, hplen, hple, hfuel⟩
    · simp only [fvckLoop, hnone]
      obtain ⟨st3, ok, hrun, hsk, hp⟩ := fvckFinish_fields cfg st lket lnm ops
      exact ⟨st3, ok, hrun, hsk, Or.inl (hp.trans hnone)⟩
    · simp only [fvckLoop, hsome]
      by_cases hc : (entryAt cfg.entries p).ikey.seq ≤ cfg.sequence ∧
          bytesCmp (entryAt cfg.entries p).ikey.userKey st.savedKey = .eq
      · rw [if_pos hc]
        by_cases hnum : num ≥ st.maxSkip
        · rw [if_pos hnum]
          exact fvckUsingSeek_spec cfg hs hpars n st (by omega)
            ⟨p, hplen, (bytesCmp_eq_iff _ _).mp hc.2, hc.1⟩
        · rw [if_neg hnum]
          have hle2 : ∀ j, j ≤ p →
              bytesCmp (entryAt cfg.entries j).ikey.userKey st.savedKey
                ≠ .gt := by
            intro j hj
            have hmono := sorted_key_mono cfg hs j p hj hplen
            rw [← (bytesCmp_eq_iff _ _).mp hc.2]
            exact hmono
          rcases htag : (entryAt cfg.entries p).ikey.tag with _ | _ | _ | _
          · -- deletion
            simp only []
            rcases iterPrev_cases cfg.entries p with ⟨hp0, hprev⟩ |
              ⟨hp1, hprev⟩
            · rw [hprev, findParseable_id cfg hpars .reverse
                { st with pos := none } (Or.inl rfl)]
              obtain ⟨st3, ok, hrun, hsk, hq⟩ :=
                ih { st with pos := none } .typeDeletion .typeDeletion []
                  (num + 1) p (Or.inl ⟨rfl, by omega⟩)
              exact ⟨st3, ok, hrun, hsk, hq⟩
            · rw [hprev, findParseable_id cfg hpars .reverse
                { st with pos := some (p - 1) }
                (Or.inr ⟨p - 1, rfl, by omega⟩)]
              obtain ⟨st3, ok, hrun, hsk, hq⟩ :=
                ih { st with pos := some (p - 1) } .typeDeletion
                  .typeDeletion [] (num + 1) (p - 1)
                  (Or.inr ⟨rfl, by omega, hle2 (p - 1) (by omega), by omega⟩)
              exact ⟨st3, ok, hrun, hsk, hq⟩
          · -- put
            simp only []
            rcases iterPrev_cases cfg.entries p with ⟨hp0, hprev⟩ |
              ⟨hp1, hprev⟩
            · rw [hprev, findParseable_id cfg hpars .reverse
                ({ st with savedValue := (entryAt cfg.entries p).value, pos := none } : State) (Or.inl rfl)]
              obtain ⟨st3, ok, hrun, hsk, hq⟩ :=
                ih ({ st with savedValue := (entryAt cfg.entries p).value, pos := none } : State) .typeValue .typeValue []
                  (num + 1) p (Or.inl ⟨rfl, by omega⟩)
              exact ⟨st3, ok, hrun, hsk, hq⟩
            · rw [hprev, findParseable_id cfg hpars .reverse
                ({ st with savedValue := (entryAt cfg.entries p).value, pos := some (p - 1) } : State) (Or.inr ⟨p - 1, rfl, by omega⟩)]
              obtain ⟨st3, ok, hrun, hsk, hq⟩ :=
                ih ({ st with savedValue := (entryAt cfg.entries p).value, pos := some (p - 1) } : State) .typeValue .typeValue []
                  (num + 1) (p - 1)
                  (Or.inr ⟨rfl, by omega, hle2 (p - 1) (by omega), by omega⟩)
              exact ⟨st3, ok, hrun, hsk, hq⟩
          · -- merge
            simp only []
            by_cases hmo : cfg.mergeOperator.isNone = true
            · rw [if_pos hmo]
              rcases iterPrev_cases cfg.entries p with ⟨hp0, hprev⟩ |
                ⟨hp1, hprev⟩
              · rw [hprev, findParseable_id cfg hpars .reverse
                  ({ st with assertFailed := true, pos := none } : State) (Or.inl rfl)]
                obtain ⟨st3, ok, hrun, hsk, hq⟩ :=
                  ih { st with assertFailed := true, pos := none }
                    .typeMerge lnm (ops ++ [(entryAt cfg.entries p).value])
                    (num + 1) p (Or.inl ⟨rfl, by omega⟩)
                exact ⟨st3, ok, hrun, hsk, hq⟩
              · rw [hprev, findParseable_id cfg hpars .reverse
                  ({ st with assertFailed := true, pos := some (p - 1) } : State) (Or.inr ⟨p - 1, rfl, by omega⟩)]
                obtain ⟨st3, ok, hrun, hsk, hq⟩ :=
                  ih { st with assertFailed := true, pos := some (p - 1) }
                    .typeMerge lnm (ops ++ [(entryAt cfg.entries p).value])
                    (num + 1) (p - 1)
                    (Or.inr ⟨rfl, by omega, hle2 (p - 1) (by omega),
                      by omega⟩)
                exact ⟨st3, ok, hrun, hsk, hq⟩
            · rw [if_neg hmo]
              rw [hsome]
              rcases iterPrev_cases cfg.entries p with ⟨hp0, hprev⟩ |
                ⟨hp1, hprev⟩
              · rw [hprev, findParseable_id cfg hpars .reverse
                  { st with pos := none } (Or.inl rfl)]
                obtain ⟨st3, ok, hrun, hsk, hq⟩ :=
                  ih { st with pos := none } .typeMerge lnm
                    (ops ++ [(entryAt cfg.entries p).value])
                    (num + 1) p (Or.inl ⟨rfl, by omega⟩)
                exact ⟨st3, ok, hrun, hsk, hq⟩
              · rw [hprev, findParseable_id cfg hpars .reverse
                  { st with pos := some (p - 1) }
                  (Or.inr ⟨p - 1, rfl, by omega⟩)]
                obtain ⟨st3, ok, hrun, hsk, hq⟩ :=
                  ih { st with pos := some (p - 1) } .typeMerge lnm
                    (ops ++ [(entryAt cfg.entries p).value])
                    (num + 1) (p - 1)
                    (Or.inr ⟨rfl, by omega, hle2 (p - 1) (by omega),
                      by omega⟩)
                exact ⟨st3, ok, hrun, hsk, hq⟩
          · -- single deletion
            simp only []
            rcases iterPrev_cases cfg.entries p with ⟨hp0, hprev⟩ |
              ⟨hp1, hprev⟩
            · rw [hprev, findParseable_id cfg hpars .reverse
                { st with pos := none } (Or.inl rfl)]
              obtain ⟨st3, ok, hrun, hsk, hq⟩ :=
                ih { st with pos := none } .typeSingleDeletion
                  .typeSingleDeletion [] (num + 1) p (Or.inl ⟨rfl, by omega⟩)
              exact ⟨st3, ok, hrun, hsk, hq⟩
            · rw [hprev, findParseable_id cfg hpars .reverse
                { st with pos := some (p - 1) }
                (Or.inr ⟨p - 1, rfl, by omega⟩)]
              obtain ⟨st3, ok, hrun, hsk, hq⟩ :=
                ih { st with pos := some (p - 1) } .typeSingleDeletion
                  .typeSingleDeletion [] (num + 1) (p - 1)
                  (Or.inr ⟨rfl, by omega, hle2 (p - 1) (by omega), by omega⟩)
              exact ⟨st3, ok, hrun, hsk, hq⟩
      · rw [if_neg hc]
        obtain ⟨st3, ok, hrun, hsk, hp⟩ := fvckFinish_fields cfg st lket lnm
          ops
        refine ⟨st3, ok, hrun, hsk, Or.inr ⟨p, ?_, hplen, hple⟩⟩
        rw [hp, hsome]

/-- `FindValueForCurrentKey` answers, preserves `saved_key_`, and leaves the
cursor exhausted or at a key at most `saved_key_`. -/
theorem findValueForCurrentKey_spec (cfg : Config)
    (hs : SortedSource cfg.entries) (hpars : AllParseable cfg.entries)
    (fuel : Nat) (st : State) (p : Nat)
    (hpos : st.pos = some p) (hplen : p < cfg.entries.length)
    (hple : bytesCmp (entryAt cfg.entries p).ikey.userKey st.savedKey ≠ .gt)
    (hfuel : p + cfg.entries.length + 4 ≤ fuel) :
    ∃ st3 ok, findValueForCurrentKey cfg fuel st = some (st3, ok) ∧
      st3.savedKey = st.savedKey ∧
      (st3.pos = none ∨ ∃ q, st3.pos = some q ∧ q < cfg.entries.length ∧
        bytesCmp (entryAt cfg.entries q).ikey.userKey st.savedKey ≠ .gt) := by
  unfold findValueForCurrentKey
  rw [findParseable_id cfg hpars .reverse st (Or.inr ⟨p, hpos, hplen⟩)]
  exact fvckLoop_spec cfg hs hpars fuel st _ _ _ 0 p
    (Or.inr ⟨hpos, hplen, hple, hfuel⟩)

/-- The `PrevInternal` loop: whenever it stops on a valid state, the new
`saved_key_` is strictly below the old one. -/
theorem prevInternalLoop_spec (cfg : Config) (hs : SortedSource cfg.entries)
    (hpars : AllParseable cfg.entries) (hsb : SeqBounded cfg.entries) :
    ∀ fuel st p,
      ((st.pos = none ∧ 1 ≤ fuel) ∨
        (st.pos = some p ∧ p < cfg.entries.length ∧
          bytesCmp (entryAt cfg.entries p).ikey.userKey st.savedKey = .lt ∧
          p + 2 * cfg.entries.length + 8 ≤ fuel)) →
      ∃ stf, prevInternalLoop cfg fuel st = some stf ∧
        (stf.valid = true → bytesCmp stf.savedKey st.savedKey = .lt) := by
  intro fuel
  induction fuel with
  | zero =>
    intro st p hpos
    rcases hpos with ⟨_, hf⟩ | ⟨_, _, _, hf⟩ <;> omega
  | succ n ih =>
    intro st p hpos
    rcases hpos with ⟨hnone, -⟩ | ⟨hsome, hplen, hplt, hfuel⟩
    · simp only [prevInternalLoop, hnone]
      exact ⟨_, rfl, fun hv => by simp at hv⟩
    · simp only [prevInternalLoop, hsome]
      obtain ⟨st3, ok, hfv, hsk3, hpos3⟩ :=
        findValueForCurrentKey_spec cfg hs hpars n
          { st with savedKey := (entryAt cfg.entries p).ikey.userKey } p
          hsome hplen (by rw [bytesCmp_self]; simp) (by omega)
      rw [hsome] at hfv
      rw [hfv]
      simp only []
      cases ok with
      | true =>
        rw [if_pos rfl]
        rcases hpos3 with hn | ⟨q, hq1, hq2, hq3⟩
        · rw [hn]
          refine ⟨_, rfl, fun _ => ?_⟩
          have : st3.savedKey = (entryAt cfg.entries p).ikey.userKey := hsk3
          rw [this]
          exact hplt
        · rw [hq1]
          simp only []
          obtain ⟨st4, hrun4, hsk4, hval4, hpos4⟩ :=
            prevStepBefore_spec cfg hs hpars hsb n
              ({ st3 with pos := some q, valid := true } : State)
              (by omega)
              (Or.inr ⟨q, rfl, hq2, by
                show bytesCmp _ st3.savedKey ≠ .gt
                rw [hsk3]; exact hq3⟩)
          rw [hrun4]
          refine ⟨st4, rfl, fun _ => ?_⟩
          have h5 : st4.savedKey = (entryAt cfg.entries p).ikey.userKey := by
            rw [hsk4]
            exact hsk3
          rw [h5]
          exact hplt
      | false =>
        rw [if_neg (by simp)]
        rcases hpos3 with hn | ⟨q, hq1, hq2, hq3⟩
        · rw [hn]
          exact ⟨_, rfl, fun hv => by simp at hv⟩
        · rw [hq1]
          simp only []
          obtain ⟨st4, hrun4, hsk4, hval4, hpos4⟩ :=
            prevStepBefore_spec cfg hs hpars hsb n st3 (by omega)
              (Or.inr ⟨q, hq1, hq2, by
                show bytesCmp _ st3.savedKey ≠ .gt
                rw [hsk3]; exact hq3⟩)
          rw [hrun4]
          simp only []
          rcases hpos4 with h4n | ⟨j, hj1, hj2, hj3⟩
          · obtain ⟨stf, hrunf, hmono⟩ :=
              ih st4 0 (Or.inl ⟨h4n, by omega⟩)
            refine ⟨stf, hrunf, fun hv => ?_⟩
            have h6 := hmono hv
            have h7 : st4.savedKey = (entryAt cfg.entries p).ikey.userKey := by
              rw [hsk4]; exact hsk3
            rw [h7] at h6
            exact bytesCmp_lt_trans _ _ _ h6 hplt
          · have hj4 : bytesCmp (entryAt cfg.entries j).ikey.userKey
                (entryAt cfg.entries p).ikey.userKey = .lt := by
              have h7 : st4.savedKey = (entryAt cfg.entries p).ikey.userKey
                  := by rw [hsk4]; exact hsk3
              rw [← h7]
              rw [hsk4]
              exact hj3
            have hjp : j < p := by
              by_contra hcon
              push_neg at hcon
              exact absurd (bytesCmp_gt_of_lt _ _ hj4)
                (sorted_key_mono cfg hs p j hcon hj2)
            obtain ⟨stf, hrunf, hmono⟩ :=
              ih st4 j (Or.inr ⟨hj1, hj2, by
                show bytesCmp _ st4.savedKey = .lt
                rw [hsk4]; exact hj3, by omega⟩)
            refine ⟨stf, hrunf, fun hv => ?_⟩
            have h6 := hmono hv
            have h7 : st4.savedKey = (entryAt cfg.entries p).ikey.userKey := by
              rw [hsk4]; exact hsk3
            rw [h7] at h6
            exact bytesCmp_lt_trans _ _ _ h6 hplt

/-- `DBIter::Prev` from a valid, well-formed state: if the iterator is still
valid afterwards, `saved_key_` strictly decreased. -/
theorem prevOp_savedKey_lt (cfg : Config) (hs : SortedSource cfg.entries)
    (hpars : AllParseable cfg.entries) (hsb : SeqBounded cfg.entries)
    (fuel : Nat) (st stf : State)
    (hfuel : 3 * cfg.entries.length + 8 ≤ fuel)
    (hv : st.valid = true)
    (hposok : st.pos = none ∨ ∃ p, st.pos = some p ∧ p < cfg.entries.length)
    (hrevpos : st.direction = .reverse →
      (st.pos = none ∨ ∃ p, st.pos = some p ∧ p < cfg.entries.length ∧
        bytesCmp (entryAt cfg.entries p).ikey.userKey st.savedKey = .lt))
    (hfwdpos : st.currentIsMerged = false →
      (st.pos = none ∨ ∃ p, st.pos = some p ∧ p < cfg.entries.length ∧
        bytesCmp (entryAt cfg.entries p).ikey.userKey st.savedKey ≠ .gt))
    (h : prevOp cfg fuel st = some stf) (hvf : stf.valid = true) :
    bytesCmp stf.savedKey st.savedKey = .lt := by
  unfold prevOp at h
  rw [if_neg (by rw [hv]; simp)] at h
  by_cases hdir : st.direction = .forward
  · rw [if_pos hdir] at h
    obtain ⟨st1, hrun1, hsk1, hval1, hdir1, hpos1⟩ :=
      reverseToBackward_spec cfg hs hpars hsb fuel st (by omega) hposok
        hfwdpos
    rw [hrun1] at h
    simp only [] at h
    have hpos1' : (st1.pos = none ∧ 1 ≤ fuel) ∨
        (∃ p, st1.pos = some p ∧ p < cfg.entries.length ∧
          bytesCmp (entryAt cfg.entries p).ikey.userKey st1.savedKey = .lt ∧
          p + 2 * cfg.entries.length + 8 ≤ fuel) := by
      rcases hpos1 with hn | ⟨j, hj1, hj2, hj3⟩
      · exact Or.inl ⟨hn, by omega⟩
      · exact Or.inr ⟨j, hj1, hj2, by rw [hsk1]; exact hj3, by omega⟩
    rcases hpos1' with ⟨hn, hf⟩ | ⟨j, hj1, hj2, hj3, hf⟩
    · obtain ⟨st2, hrun2, hmono⟩ :=
        prevInternalLoop_spec cfg hs hpars hsb fuel st1 0 (Or.inl ⟨hn, hf⟩)
      rw [hrun2] at h
      simp only [] at h
      have hstf : stf = prefixCheck cfg st2 := (Option.some_inj.mp h).symm
      subst hstf
      rw [prefixCheck_valid_eq cfg st2 hvf, ← hsk1]
      exact hmono (prefixCheck_valid_true cfg st2 hvf)
    · obtain ⟨st2, hrun2, hmono⟩ :=
        prevInternalLoop_spec cfg hs hpars hsb fuel st1 j
          (Or.inr ⟨hj1, hj2, hj3, hf⟩)
      rw [hrun2] at h
      simp only [] at h
      have hstf : stf = prefixCheck cfg st2 := (Option.some_inj.mp h).symm
      subst hstf
      rw [prefixCheck_valid_eq cfg st2 hvf, ← hsk1]
      exact hmono (prefixCheck_valid_true cfg st2 hvf)
  · rw [if_neg hdir] at h
    simp only [] at h
    have hdr : st.direction = .reverse := by
      cases hd : st.direction
      · exact absurd hd hdir
      · rfl
    have hpos2 : (st.pos = none ∧ 1 ≤ fuel) ∨
        (∃ p, st.pos = some p ∧ p < cfg.entries.length ∧
          bytesCmp (entryAt cfg.entries p).ikey.userKey st.savedKey = .lt ∧
          p + 2 * cfg.entries.length + 8 ≤ fuel) := by
      rcases hrevpos hdr with hn | ⟨j, hj1, hj2, hj3⟩
      · exact Or.inl ⟨hn, by omega⟩
      · exact Or.inr ⟨j, hj1, hj2, hj3, by omega⟩
    rcases hpos2 with ⟨hn, hf⟩ | ⟨j, hj1, hj2, hj3, hf⟩
    · obtain ⟨st2, hrun2, hmono⟩ :=
        prevInternalLoop_spec cfg hs hpars hsb fuel st 0 (Or.inl ⟨hn, hf⟩)
      rw [hrun2] at h
      simp only [] at h
      have hstf : stf = prefixCheck cfg st2 := (Option.some_inj.mp h).symm
      subst hstf
      rw [prefixCheck_valid_eq cfg st2 hvf]
      exact hmono (prefixCheck_valid_true cfg st2 hvf)
    · obtain ⟨st2, hrun2, hmono⟩ :=
        prevInternalLoop_spec cfg hs hpars hsb fuel st j
          (Or.inr ⟨hj1, hj2, hj3, hf⟩)
      rw [hrun2] at h
      simp only [] at h
      have hstf : stf = prefixCheck cfg st2 := (Option.some_inj.mp h).symm
      subst hstf
      rw [prefixCheck_valid_eq cfg st2 hvf]
      exact hmono (prefixCheck_valid_true cfg st2 hvf)

/-- `prefixFromSavedKey` changes neither validity nor the saved key. -/
theorem prefixFromSavedKey_valid_savedKey (cfg : Config) (s : State) :
    (prefixFromSavedKey cfg s).valid = s.valid ∧
    (prefixFromSavedKey cfg s).savedKey = s.savedKey := by
  unfold prefixFromSavedKey
  split
  · split <;> exact ⟨rfl, rfl⟩
  · exact ⟨rfl, rfl⟩

/-- `prefixFromTarget` changes neither validity nor the saved key. -/
theorem prefixFromTarget_valid_savedKey (cfg : Config) (t : Bytes) (s : State) :
    (prefixFromTarget cfg t s).valid = s.valid ∧
    (prefixFromTarget cfg t s).savedKey = s.savedKey := by
  unfold prefixFromTarget
  split
  · split <;> exact ⟨rfl, rfl⟩
  · exact ⟨rfl, rfl⟩

theorem nextTail_bound (cfg : Config) (b : Bytes)
    (hub : cfg.upperBound = some b) (fuel : Nat) (st1 stf : State)
    (h : nextTail cfg fuel st1 = some stf) (hv : stf.valid = true) :
    bytesCmp stf.savedKey b = .lt := by
  unfold nextTail at h
  split at h
  · obtain rfl := Option.some_inj.mp h.symm
    simp at hv
  · split at h
    · exact absurd h (by simp)
    · next st2 hfn =>
      obtain rfl := Option.some_inj.mp h.symm
      have heq := prefixCheck_valid_eq cfg st2 hv
      rw [heq] at hv ⊢
      exact findNextUserEntryLoop_bound cfg b hub fuel _ true 0 st2 hfn hv

/-- `Next` can only end valid on a key strictly below the configured upper
bound. -/
theorem nextOp_bound (cfg : Config) (b : Bytes)
    (hub : cfg.upperBound = some b) (fuel : Nat) (st stf : State)
    (h : nextOp cfg fuel st = some stf) (hv : stf.valid = true) :
    bytesCmp stf.savedKey b = .lt := by
  unfold nextOp at h
  split at h
  · next hinv =>
    obtain rfl := Option.some_inj.mp h.symm
    simp [hinv] at hv
  · split at h
    · split at h
      · exact absurd h (by simp)
      · exact nextTail_bound cfg b hub fuel _ stf h hv
    · exact nextTail_bound cfg b hub fuel _ stf h hv

/-- `SeekToFirst` can only end valid on a key strictly below the configured
upper bound. -/
theorem seekToFirstOp_bound (cfg : Config) (b : Bytes)
    (hub : cfg.upperBound = some b) (fuel : Nat) (st stf : State)
    (h : seekToFirstOp cfg fuel st = some stf) (hv : stf.valid = true) :
    bytesCmp stf.savedKey b = .lt := by
  unfold seekToFirstOp at h
  split at h
  · obtain rfl := Option.some_inj.mp h.symm
    rw [(prefixFromSavedKey_valid_savedKey cfg _).1] at hv
    simp at hv
  · rw [Option.map_eq_some'] at h
    obtain ⟨s2, hfn, hw⟩ := h
    obtain rfl := hw.symm
    rw [(prefixFromSavedKey_valid_savedKey cfg s2).1] at hv
    rw [(prefixFromSavedKey_valid_savedKey cfg s2).2]
    exact findNextUserEntryLoop_bound cfg b hub fuel _ false 0 s2 hfn hv

/-- `Seek` can only end valid on a key strictly below the configured upper
bound. -/
theorem seekOp_bound (cfg : Config) (b : Bytes)
    (hub : cfg.upperBound = some b) (fuel : Nat) (t : Bytes) (st stf : State)
    (h : seekOp cfg fuel t st = some stf) (hv : stf.valid = true) :
    bytesCmp stf.savedKey b = .lt := by
  unfold seekOp at h
  split at h
  · obtain rfl := Option.some_inj.mp h.symm
    simp at hv
  · rw [Option.map_eq_some'] at h
    obtain ⟨s2, hfn, hw⟩ := h
    obtain rfl := hw.symm
    rw [(prefixFromTarget_valid_savedKey cfg t s2).1] at hv
    rw [(prefixFromTarget_valid_savedKey cfg t s2).2]
    exact findNextUserEntryLoop_bound cfg b hub fuel _ false 0 s2 hfn hv

theorem nextTail_cases (cfg : Config) (fuel : Nat) (st1 st' : State)
    (h : nextTail cfg fuel st1 = some st') :
    st'.valid = false ∨ ∃ s2, st' = prefixCheck cfg s2 := by
  unfold nextTail at h
  split at h
  · left
    obtain rfl := Option.some_inj.mp h
    rfl
  · split at h
    · exact absurd h (by simp)
    · right
      exact ⟨_, (Option.some_inj.mp h).symm⟩

theorem nextOp_cases (cfg : Config) (fuel : Nat) (st st' : State)
    (hv : st.valid = true) (h : nextOp cfg fuel st = some st') :
    st'.valid = false ∨ ∃ s2, st' = prefixCheck cfg s2 := by
  unfold nextOp at h
  rw [hv] at h
  simp only [Bool.true_eq_false, if_false] at h
  split at h
  · split at h
    · exact absurd h (by simp)
    · exact nextTail_cases cfg fuel _ st' h
  · exact nextTail_cases cfg fuel _ st' h

end DbIterModel

namespace DbIterClaims

open DbIterModel

/-- C1: on every sorted source stream under any snapshot (with a merge
operator configured and no bound or prefix restriction), the full forward
scan — `SeekToFirst`, then `Next` until invalid — returns exactly the
declarative yield list; that list contains `(k, v)` precisely when the
highest-version visible entry of user key `k` is a `Put` or a `Merge` chain
resolving to `v` (tombstone-headed keys and invisible versions yield
nothing), and its keys are strictly increasing, so each user key is yielded
exactly once. -/
theorem c1_forward_scan (cfg : Config)
    (f : Bytes → Option Bytes → List Bytes → Bytes) (maxSkip : Nat)
    (hs : SortedSource cfg.entries) (hpars : AllParseable cfg.entries)
    (hmo : cfg.mergeOperator = some f) (hub : cfg.upperBound = none)
    (hpe : cfg.prefixExtractor = none) (hms : 1 ≤ maxSkip) :
    scanForward cfg (2 * cfg.entries.length + 2) (cfg.entries.length + 2)
        maxSkip = some (specForwardScan cfg f) ∧
    (∀ k v, (k, v) ∈ specForwardScan cfg f ↔ resolveKey cfg f k = some v) ∧
    (specForwardScan cfg f).Chain' (fun a b => bytesCmp a.1 b.1 = .lt) := by
  refine ⟨?_, ?_, specForwardScan_chain cfg hs f⟩
  · obtain ⟨st1, h1, hmax, hres⟩ :=
      seekToFirstOp_spec cfg f hs hpars hmo hpe
        (2 * cfg.entries.length + 2) (initState maxSkip) hms (le_refl _)
    rcases hres with ⟨hv1, hsp⟩ | ⟨n, hrdy, hsp⟩
    · simp only [scanForward, h1, hsp, scanForwardAux, hv1,
        Bool.false_eq_true, if_false]
    · have hscan := scanForwardAux_spec cfg f hs hpars hmo hpe
        (2 * cfg.entries.length + 2) (le_refl _)
        (cfg.entries.length + 2) st1 n hrdy (by rw [hmax]; exact hms)
        (by unfold specFrom
            have hle := List.length_filterMap_le (specYield cfg f)
              (List.range' n (cfg.entries.length - n))
            rw [List.length_range'] at hle
            omega)
      simp only [scanForward, h1, hscan, hsp]
  · intro k v
    constructor
    · intro hmem
      unfold specForwardScan specFrom at hmem
      rw [List.mem_filterMap] at hmem
      obtain ⟨a, ha, hya⟩ := hmem
      have hal : a < cfg.entries.length := by
        have := List.mem_range'_1.mp ha
        omega
      exact specYield_resolveKey cfg hs f a k v hal hya
    · intro hres
      obtain ⟨i, hi, hy⟩ := resolveKey_specYield cfg hs f k v
        (by unfold boundExceeded; rw [hub]) hres
      unfold specForwardScan specFrom
      rw [List.mem_filterMap]
      refine ⟨i, ?_, hy⟩
      rw [List.mem_range'_1]
      omega

/-- C1: witness — the two-entry merge-over-single-delete stream under
snapshot 3: the hypotheses hold concretely and the full forward scan equals
the declarative yield list. -/
theorem c1_forward_scan_witness :
    SortedSource bugCfg.entries ∧ AllParseable bugCfg.entries ∧ 1 ≤ 8 ∧
    scanForward bugCfg (2 * bugCfg.entries.length + 2)
        (bugCfg.entries.length + 2) 8 =
      some (specForwardScan bugCfg demoMerge) :=
  ⟨by decide, by decide, by decide,
    (c1_forward_scan bugCfg demoMerge 8 (by decide) (by decide) rfl rfl rfl
      (by decide)).1⟩

/-- C9: after `Seek(target)` (with a merge operator configured and no
prefix restriction), a valid iterator stands on the smallest user key at
least `target` that resolves to a value below the bound — `key()` resolves
to `value()`, lies at or above the target and below the bound, and no
smaller in-range key resolves — while an invalid outcome means no user key
at least `target` resolves to a value below the bound. -/
theorem c9_seek (cfg : Config)
    (f : Bytes → Option Bytes → List Bytes → Bytes) (t : Bytes)
    (st : State) (fuel : Nat)
    (hs : SortedSource cfg.entries) (hpars : AllParseable cfg.entries)
    (hmo : cfg.mergeOperator = some f) (hpe : cfg.prefixExtractor = none)
    (hms : 1 ≤ st.maxSkip) (hfuel : 2 * cfg.entries.length + 2 ≤ fuel) :
    ∃ st', seekOp cfg fuel t st = some st' ∧
      ((st'.valid = false ∧
          ∀ k v, bytesCmp t k ≠ .gt → boundExceeded cfg k = false →
            resolveKey cfg f k ≠ some v) ∨
        (st'.valid = true ∧ bytesCmp t (keyOf st') ≠ .gt ∧
          boundExceeded cfg (keyOf st') = false ∧
          resolveKey cfg f (keyOf st') = some (valueOf cfg st') ∧
          ∀ k v, bytesCmp t k ≠ .gt → bytesCmp k (keyOf st') = .lt →
            boundExceeded cfg k = false → resolveKey cfg f k ≠ some v)) := by
  unfold seekOp
  cases hseek : iterSeek cfg.entries ⟨t, cfg.sequence, kValueTypeForSeek⟩ with
  | none =>
    -- the whole stream is before the target: no key ≥ t has a visible head
    refine ⟨_, rfl, Or.inl ⟨rfl, ?_⟩⟩
    intro k v hkt hbk hres
    obtain ⟨m, hm, hym⟩ := resolveKey_specYield cfg hs f k v hbk hres
    obtain ⟨hk, hh, -, -⟩ := specYield_some_inv cfg f m k v hym
    have hlt := iterSeek_none_spec _ _ hseek m hm
    rcases ikey_lt_seek_target _ t cfg.sequence hlt with h1 | ⟨-, h2⟩
    · rw [← hk] at h1
      exact hkt (bytesCmp_gt_of_lt _ _ h1)
    · have hv := hh.1
      unfold Visible at hv
      omega
  | some i =>
    obtain ⟨hilen, hige, hilt⟩ := iterSeek_some_spec _ _ i hseek
    have hkeyi : bytesCmp (entryAt cfg.entries i).ikey.userKey t ≠ .lt :=
      ikey_ge_seek_target _ t cfg.sequence hige
    -- a visible head with key ≥ t can only sit at or after the landing
    have hbelow : ∀ m, m < cfg.entries.length → HeadVisible cfg m →
        bytesCmp t (entryAt cfg.entries m).ikey.userKey ≠ .gt → i ≤ m := by
      intro m hm hh hge
      by_contra hcon
      push_neg at hcon
      have hlt := hilt m hcon
      rcases ikey_lt_seek_target _ t cfg.sequence hlt with h1 | ⟨-, h2⟩
      · exact hge (bytesCmp_gt_of_lt _ _ h1)
      · have hv := hh.1
        unfold Visible at hv
        omega
    simp only [findNextUserEntry]
    obtain ⟨st', hrun, hmax, hres⟩ :=
      fnueLoop0_spec cfg f hs hpars hmo fuel
        { st with savedKey := t, pos := some i,
                  direction := Direction.forward, savedValue := [],
                  currentIsMerged := false }
        0 i rfl rfl (Or.inr ⟨rfl, hilen⟩)
        (by intro j hj hjl
            have hlt := hilt j hj
            rcases ikey_lt_seek_target _ t cfg.sequence hlt with h1 | ⟨-, h2⟩
            · right
              intro j' hij' hjl' hkeq
              have hmono := sorted_key_mono cfg hs i j' hij' hjl'
              rw [hkeq] at hmono
              exact hkeyi (bytesCmp_lt_of_ne_gt_of_lt _ _ _ hmono h1)
            · exact Or.inl h2)
        hms (by omega)
    refine ⟨st', ?_, ?_⟩
    · rw [hrun]
      simp only [Option.map_some']
      rw [prefixFromTarget_none cfg hpe t st']
    · rcases hres with ⟨hv, hsp⟩ | ⟨n, hrdy, hsp⟩
      · refine Or.inl ⟨hv, ?_⟩
        intro k v hkt hbk hres2
        obtain ⟨m, hm, hym⟩ := resolveKey_specYield cfg hs f k v hbk hres2
        obtain ⟨hk, hh, -, -⟩ := specYield_some_inv cfg f m k v hym
        have him : i ≤ m := hbelow m hm hh (by rw [← hk]; exact hkt)
        have hmem : (k, v) ∈ specFrom cfg f i := by
          unfold specFrom
          rw [List.mem_filterMap]
          exact ⟨m, by rw [List.mem_range'_1]; omega, hym⟩
        rw [hsp] at hmem
        cases hmem
      · -- the head of the remaining spec yields is the answer
        have hmemh : (keyOf st', valueOf cfg st') ∈ specFrom cfg f i := by
          rw [hsp]
          exact List.mem_cons_self _ _
        unfold specFrom at hmemh
        rw [List.mem_filterMap] at hmemh
        obtain ⟨m, hmr, hym⟩ := hmemh
        have hm : i ≤ m ∧ m < cfg.entries.length := by
          rw [List.mem_range'_1] at hmr
          omega
        obtain ⟨hkm, hhm, hbm, -⟩ := specYield_some_inv cfg f m _ _ hym
        have hkge : bytesCmp t (keyOf st') ≠ .gt := by
          rw [hkm]
          intro hgt
          have hmono := sorted_key_mono cfg hs i m hm.1 hm.2
          exact hkeyi (bytesCmp_lt_of_ne_gt_of_lt _ _ _ hmono
            (bytesCmp_lt_of_gt _ _ hgt))
        refine Or.inr ⟨hrdy.1, hkge, by rw [hkm]; exact hbm,
          specYield_resolveKey cfg hs f m _ _ hm.2 hym, ?_⟩
        intro k v hkt hklt hbk hres2
        obtain ⟨m2, hm2, hym2⟩ := resolveKey_specYield cfg hs f k v hbk hres2
        obtain ⟨hk2, hh2, -, -⟩ := specYield_some_inv cfg f m2 k v hym2
        have him2 : i ≤ m2 := hbelow m2 hm2 hh2 (by rw [← hk2]; exact hkt)
        have hmem2 : (k, v) ∈ specFrom cfg f i := by
          unfold specFrom
          rw [List.mem_filterMap]
          exact ⟨m2, by rw [List.mem_range'_1]; omega, hym2⟩
        rw [hsp] at hmem2
        rcases List.mem_cons.mp hmem2 with heq | hmemtail
        · have hkk : k = keyOf st' := congrArg Prod.fst heq
          rw [hkk, bytesCmp_self] at hklt
          cases hklt
        · have hpw := specFrom_pairwise cfg hs f i
          rw [hsp] at hpw
          obtain ⟨hall, -⟩ := List.pairwise_cons.mp hpw
          have hgt := bytesCmp_gt_of_lt _ _ (hall (k, v) hmemtail)
          rw [hklt] at hgt
          cases hgt

/-- C9: witness — seeking to `[5]` on the two-entry merge stream lands on
key `[7]`, the smallest resolvable key at or above the target. -/
theorem c9_seek_witness :
    SortedSource bugCfg.entries ∧ AllParseable bugCfg.entries ∧
    (∃ st', seekOp bugCfg 50 [5] (initState 8) = some st' ∧
      ((st'.valid = false ∧
          ∀ k v, bytesCmp [5] k ≠ .gt → boundExceeded bugCfg k = false →
            resolveKey bugCfg demoMerge k ≠ some v) ∨
        (st'.valid = true ∧ bytesCmp [5] (keyOf st') ≠ .gt ∧
          boundExceeded bugCfg (keyOf st') = false ∧
          resolveKey bugCfg demoMerge (keyOf st') =
            some (valueOf bugCfg st') ∧
          ∀ k v, bytesCmp [5] k ≠ .gt →
            bytesCmp k (keyOf st') = .lt →
            boundExceeded bugCfg k = false →
            resolveKey bugCfg demoMerge k ≠ some v))) :=
  ⟨by decide, by decide,
    c9_seek bugCfg demoMerge [5] (initState 8) 50 (by decide) (by decide)
      rfl rfl (by decide) (by decide)⟩

/-- C2: counterexample — on the stream `Merge("a")@3, SingleDelete@2` with
snapshot 3, the backward (linear) resolver calls the merge operator with a
stale present base (`some []`, the cleared `saved_value_`) even though the
visible chain ends at a `SingleDelete`, violating the claimed null-base
contract; the code's own `assert(last_not_merge_type == kTypeValue)` is
violated on the way.  The forward resolver handles the same stream with the
contractual null base. -/
theorem c2_merge_base_codeBug :
    ((seekToLastOp bugCfg 50 (initState 8)).map
        fun st => (st.mergeCalls, st.assertFailed)) =
      some ([⟨[7], some [], [[97]]⟩], true) ∧
    ((seekToFirstOp bugCfg 50 (initState 8)).map
        fun st => (st.mergeCalls, st.assertFailed)) =
      some ([⟨[7], none, [[97]]⟩], false) := by
  decide

/-- C3: counterexample — on the stream `Merge("a")@3, SingleDelete@2` with
snapshot 3, the full forward scan yields the null-base merge result while the
full backward scan (reversed) yields a stale-base merge result, so the two
directions disagree; the backward pass trips the code's own assertion. -/
theorem c3_round_trip_codeBug :
    scanForward bugCfg 50 10 8 = some [([7], [0, 97])] ∧
    (scanBackward bugCfg 50 10 8).map List.reverse = some [([7], [1, 97])] ∧
    (some [([7], [0, 97])] : Option (List (Bytes × Bytes))) ≠
      some [([7], [1, 97])] ∧
    (seekToLastOp bugCfg 50 (initState 8)).map State.assertFailed =
      some true := by
  decide

/-- C4: counterexample — on the stream `Merge("a")@3, SingleDelete@2` with
snapshot 3, the backward scan output depends on `max_versions_before_reseek`:
with threshold 1 the seek-based resolver returns the correct null-base merge,
while with threshold 10 the linear resolver returns a stale-base merge, so
the reseek threshold is observably not a pure performance knob. -/
theorem c4_reseek_codeBug :
    scanBackward bugCfg 50 10 1 = some [([7], [0, 97])] ∧
    scanBackward bugCfg 50 10 10 = some [([7], [1, 97])] ∧
    (some [([7], [0, 97])] : Option (List (Bytes × Bytes))) ≠
      some [([7], [1, 97])] := by
  decide

/-- C5: counterexample — resolving a `Merge` entry with no configured merge
operator is fatal only in the forward path.  The backward path (SeekToLast on
a single-Merge stream) violates the code's `assert(user_merge_operator_ !=
nullptr)` and finishes with `valid() == true` and an OK `status()` (in the
real binary this is a null dereference), and even after the forward path sets
the `InvalidArgument` status, a later `Seek` makes the iterator valid again,
so the invalidity is not permanent. -/
theorem c5_counterexample :
    ((seekToLastOp noMergeOpCfg 50 (initState 8)).map
        fun s => (s.valid, s.status, s.assertFailed)) =
      some (true, .ok, true) ∧
    ((runOps noMergeOpCfg2 50 (initState 8) [.opSeekToFirst, .opSeek [8]]).map
        fun s => (s.valid, s.status)) =
      some (true, .invalidArgument) := by
  decide

/-- C5: amended — when a `Merge` entry must be resolved with no merge
operator configured, the forward resolution path (`MergeValuesNewToOld`)
sets an `InvalidArgument` error surfaced via `status()` and makes the
iterator invalid (though a later positioning call may revalidate it while
the status persists); the backward resolution path instead presumes an
operator is configured (a violated assertion) and sets neither the error
status nor invalidity. -/
theorem c5_amended (cfg : Config) (fuel : Nat) (st : State)
    (hop : cfg.mergeOperator = none) :
    mergeValuesNewToOld cfg fuel st =
      some { st with status := .invalidArgument, valid := false } ∧
    ((seekToLastOp noMergeOpCfg 50 (initState 8)).map
        fun s => (s.valid, s.status, s.assertFailed)) =
      some (true, .ok, true) := by
  constructor
  · simp [mergeValuesNewToOld, hop]
  · decide

/-- Any `runOps` execution over forward-positioning operations only
(`SeekToFirst`, `Seek`, `Next`) preserves the upper-bound invariant
"valid implies key strictly below the bound". -/
theorem runOps_forward_bound (cfg : Config) (b : Bytes)
    (hub : cfg.upperBound = some b) (fuel : Nat) :
    ∀ ops st stf, (st.valid = true → bytesCmp st.savedKey b = .lt) →
      (∀ op ∈ ops, op = Op.opSeekToFirst ∨ (∃ t, op = Op.opSeek t) ∨
        op = Op.opNext) →
      runOps cfg fuel st ops = some stf → stf.valid = true →
      bytesCmp stf.savedKey b = .lt := by
  intro ops
  induction ops with
  | nil =>
    intro st stf hst _ hrun hv
    obtain rfl := Option.some_inj.mp hrun.symm
    exact hst hv
  | cons op rest ih =>
    intro st stf hst hops hrun hv
    simp only [runOps] at hrun
    split at hrun
    · exact absurd hrun (by simp)
    · next st1 hop =>
      refine ih st1 stf ?_ (fun o ho => hops o (List.mem_cons_of_mem op ho))
        hrun hv
      rcases hops op (List.mem_cons_self op rest) with h1 | ⟨t, h2⟩ | h3
      · subst h1
        exact seekToFirstOp_bound cfg b hub fuel st st1 hop
      · subst h2
        exact seekOp_bound cfg b hub fuel t st st1 hop
      · subst h3
        exact nextOp_bound cfg b hub fuel st st1 hop

/-- C6: with an exclusive upper bound configured, every reachable state
produced from a fresh iterator by forward positioning and stepping
(`SeekToFirst`, `Seek`, `Next`) that is valid carries a key strictly below
the bound, so forward iteration never yields a key at or above the bound. -/
theorem c6_upper_bound (cfg : Config) (b : Bytes) (fuel maxSkip : Nat)
    (ops : List Op) (stf : State) (hub : cfg.upperBound = some b)
    (hops : ∀ op ∈ ops, op = Op.opSeekToFirst ∨ (∃ t, op = Op.opSeek t) ∨
      op = Op.opNext)
    (hrun : runOps cfg fuel (initState maxSkip) ops = some stf)
    (hv : stf.valid = true) :
    bytesCmp stf.savedKey b = .lt :=
  runOps_forward_bound cfg b hub fuel ops (initState maxSkip) stf
    (fun hvi => absurd hvi (by simp [initState])) hops hrun hv

/-- C6: witness — a `SeekToFirst` over the bounded fixture ends on key `[1]`,
strictly below the bound `[2]`. -/
theorem c6_upper_bound_witness :
    bytesCmp (State.savedKey
      { pos := some 0, valid := true, direction := .forward, savedKey := [1],
        savedValue := [], currentIsMerged := false, status := .ok,
        maxSkip := 8, prefixStart := [], mergeCalls := [],
        assertFailed := false }) [2] = .lt :=
  c6_upper_bound ubCfg [2] 50 8 [.opSeekToFirst]
    { pos := some 0, valid := true, direction := .forward, savedKey := [1],
      savedValue := [], currentIsMerged := false, status := .ok,
      maxSkip := 8, prefixStart := [], mergeCalls := [],
      assertFailed := false }
    rfl
    (by
      intro op hop
      rw [List.mem_singleton] at hop
      subst hop
      exact Or.inl rfl)
    (by decide) rfl

/-- C7: with the prefix lock enabled, any successful `Next` that remains
valid yields a key with the locked prefix (so the iterator goes invalid at
the first resolved key whose prefix differs), and `Next` on an invalid
iterator never revalidates it (iteration never resumes); demonstrated
end-to-end on a stream whose third key shares the first key's prefix again:
the scan goes invalid at the second key and stays invalid. -/
theorem c7_prefix_lock (cfg : Config) (pf : Bytes → Bytes) (fuel : Nat)
    (st st' : State) (hpf : cfg.prefixExtractor = some pf)
    (hps : cfg.prefixSameAsStart = true) :
    (nextOp cfg fuel st = some st' → st'.valid = true →
        pf st'.savedKey = st'.prefixStart) ∧
    (st.valid = false →
        nextOp cfg fuel st = some { st with assertFailed := true } ∧
        ({ st with assertFailed := true } : State).valid = st.valid) ∧
    ((match seekToFirstOp pfxCfg 50 (initState 8) with
      | none => none
      | some s0 =>
        match nextOp pfxCfg 50 s0 with
        | none => none
        | some s1 =>
          match nextOp pfxCfg 50 s1 with
          | none => none
          | some s2 =>
            some ((s0.valid, s0.savedKey, s0.prefixStart),
              (s1.valid, s1.savedKey), s2.valid)) =
      some ((true, [0, 7], [7]), (false, [1, 8]), false)) := by
  refine ⟨?_, ?_, by decide⟩
  · intro hrun hv'
    by_cases hv : st.valid = true
    · rcases nextOp_cases cfg fuel st st' hv hrun with hbad | ⟨s2, rfl⟩
      · rw [hv'] at hbad
        exact absurd hbad (by simp)
      · exact prefixCheck_valid_prefix cfg pf s2 hpf hps hv'
    · rw [nextOp_invalid cfg fuel st (by revert hv; cases st.valid <;> simp)]
        at hrun
      obtain rfl := Option.some_inj.mp hrun.symm
      revert hv hv'
      cases h : st.valid <;> simp
  · intro hinv
    exact ⟨nextOp_invalid cfg fuel st hinv, by rw [hinv]⟩

/-- C7: witness at the concrete prefix-locked configuration. -/
theorem c7_prefix_lock_witness :
    nextOp pfxCfg 1 (initState 8) =
      some { initState 8 with assertFailed := true } ∧
    ({ initState 8 with assertFailed := true } : State).valid =
      (initState 8).valid :=
  (c7_prefix_lock pfxCfg (fun b => b.drop 1) 1 (initState 8)
    { initState 8 with assertFailed := true } rfl rfl).2.1 rfl

/-- C8: for any stream consisting of a well-formed visible `Put`, one
unparseable entry, and a second well-formed visible `Put` on a distinct user
key, the full forward scan still yields the logical entries of both keys
(the malformed entry is skipped and scanning continues forward), the first
yield carries an OK status, the second yield carries a `Corruption` status
while remaining valid, and the scan then terminates invalid with the
`Corruption` status retained. -/
theorem c8_corruption_tolerance (k1 k2 v1 v2 : Bytes) (s1 s2 snap m : Nat)
    (bad : RawEntry) (hbad : bad.parseable = false)
    (hk : bytesCmp k1 k2 = .lt) (h1 : s1 ≤ snap) (h2 : s2 ≤ snap) :
    scanForward (corruptionCfg k1 k2 v1 v2 s1 s2 bad snap) 20 5 m =
      some [(k1, v1), (k2, v2)] ∧
    (runOps (corruptionCfg k1 k2 v1 v2 s1 s2 bad snap) 20 (initState m)
        [.opSeekToFirst]).map (fun s => (s.valid, s.savedKey, s.status)) =
      some (true, k1, .ok) ∧
    (runOps (corruptionCfg k1 k2 v1 v2 s1 s2 bad snap) 20 (initState m)
        [.opSeekToFirst, .opNext]).map
        (fun s => (s.valid, s.savedKey, s.status)) =
      some (true, k2, .corruption) ∧
    (runOps (corruptionCfg k1 k2 v1 v2 s1 s2 bad snap) 20 (initState m)
        [.opSeekToFirst, .opNext, .opNext]).map
        (fun s => (s.valid, s.status)) =
      some (false, .corruption) := by
  have hgt : bytesCmp k2 k1 = .gt := bytesCmp_gt_of_lt k1 k2 hk
  refine ⟨?_, ?_, ?_, ?_⟩ <;>
    simp [runOps, runOp, scanForward, scanForwardAux, seekToFirstOp,
      corruptionCfg, initState, seekMaxSkip, iterSeekToFirst,
      findNextUserEntry, findNextUserEntryLoop, entryAt, boundExceeded,
      h1, h2, hgt, hbad, prefixFromSavedKey, iterNext, iterSeek, nextOp,
      nextTail, prefixCheck, keyOf, valueOf, curValue]

/-- C8: witness at a concrete corrupt stream. -/
theorem c8_corruption_tolerance_witness :
    scanForward
        (corruptionCfg [1] [2] [5] [6] 1 1 ⟨⟨[1, 1], 2, .typeValue⟩, [9], false⟩ 3)
        20 5 8 =
      some [([1], [5]), ([2], [6])] :=
  (c8_corruption_tolerance [1] [2] [5] [6] 1 1 3 8
    ⟨⟨[1, 1], 2, .typeValue⟩, [9], false⟩ rfl (by decide) (by decide)
    (by decide)).1

/-- C5: witness for the amended theorem at a concrete configuration. -/
theorem c5_amended_witness :
    mergeValuesNewToOld noMergeOpCfg 3 (initState 8) =
      some { initState 8 with status := .invalidArgument, valid := false } ∧
    ((seekToLastOp noMergeOpCfg 50 (initState 8)).map
        fun s => (s.valid, s.status, s.assertFailed)) =
      some (true, .ok, true) :=
  c5_amended noMergeOpCfg 3 (initState 8) rfl

/-- C10: yielded keys are strictly monotone per direction.  Over a sorted,
parseable, sequence-bounded stream, from any valid iterator state whose
cursor satisfies the post-resolution invariants (in range; for a reverse
state the cursor is exhausted or strictly below `saved_key_`; for a
non-merged state it is exhausted or at most `saved_key_`): a `Next` that
completes and leaves the iterator valid — including one performing the
reverse-to-forward switch — stops on a `saved_key_` strictly greater than
the previous one, and a `Prev` that completes and leaves the iterator
valid — including one performing the forward-to-backward switch — stops on
a `saved_key_` strictly smaller.  Strict monotonicity of the yielded key
implies no user key is yielded twice in a single directional pass. -/
theorem c10_key_monotonicity (cfg : Config) (hs : SortedSource cfg.entries)
    (hpars : AllParseable cfg.entries) (hsb : SeqBounded cfg.entries)
    (fuel : Nat) (st stf stb : State)
    (hfuel : 3 * cfg.entries.length + 8 ≤ fuel)
    (hv : st.valid = true)
    (hposok : st.pos = none ∨ ∃ p, st.pos = some p ∧ p < cfg.entries.length)
    (hrevpos : st.direction = .reverse →
      (st.pos = none ∨ ∃ p, st.pos = some p ∧ p < cfg.entries.length ∧
        bytesCmp (entryAt cfg.entries p).ikey.userKey st.savedKey = .lt))
    (hfwdpos : st.currentIsMerged = false →
      (st.pos = none ∨ ∃ p, st.pos = some p ∧ p < cfg.entries.length ∧
        bytesCmp (entryAt cfg.entries p).ikey.userKey st.savedKey ≠ .gt)) :
    (nextOp cfg fuel st = some stf → stf.valid = true →
      bytesCmp st.savedKey stf.savedKey = .lt) ∧
    (prevOp cfg fuel st = some stb → stb.valid = true →
      bytesCmp stb.savedKey st.savedKey = .lt) :=
  ⟨fun h hvf => nextOp_savedKey_gt cfg fuel st stf hv h hvf,
   fun h hvb => prevOp_savedKey_lt cfg hs hpars hsb fuel st stb hfuel hv
     hposok hrevpos hfwdpos h hvb⟩

/-- C10: witness at a concrete two-key stream and the state reached by
`SeekToFirst`. -/
theorem c10_key_monotonicity_witness :
    SortedSource monoCfg.entries ∧ AllParseable monoCfg.entries ∧
    SeqBounded monoCfg.entries ∧ monoSt.valid = true ∧
    (∀ stf stb : State,
      (nextOp monoCfg 20 monoSt = some stf → stf.valid = true →
        bytesCmp monoSt.savedKey stf.savedKey = .lt) ∧
      (prevOp monoCfg 20 monoSt = some stb → stb.valid = true →
        bytesCmp stb.savedKey monoSt.savedKey = .lt)) :=
  ⟨by decide, by decide, by decide, rfl, fun stf stb =>
    c10_key_monotonicity monoCfg (by decide) (by decide) (by decide) 20
      monoSt stf stb (by decide) rfl
      (Or.inr ⟨1, rfl, by decide⟩)
      (fun hc => nomatch hc)
      (fun _ => Or.inr ⟨1, rfl, by decide, by decide⟩)⟩

end DbIterClaims
